import Mathlib

/-!
Shallow embedding of the price-normalization / currency-resolution /
grouping / sorting core of the Apple-Appstore-Regional-Pricing-Scraper
repository (src/src/lib/util.ts and src/src/lib/utils.ts).

JavaScript numbers are modelled as `Option ℚ` (with `none` standing for
the `NaN` sentinel); JavaScript strings are modelled as `String` /
`List Char`; JavaScript objects and `Map`s are modelled as
insertion-ordered association lists, which is the enumeration order of
the actual objects for the keys that occur here.
-/

namespace Scraper

/-! ## Character and string primitives (JS string operations) -/

/-- Numeric value of a list of ASCII digit characters (most significant
first), as used to read back the digit strings handled by `parseFloat`. -/
def digitsToNat (l : List Char) : ℕ :=
  l.foldl (fun a c => 10 * a + (c.toNat - 48)) 0

/-- The digits following a leading `'.'`, if any: the fractional-part
digits `parseFloat` reads after consuming the integer digits. -/
def fracPart : List Char → List Char
  | '.' :: r => r.takeWhile Char.isDigit
  | _ => []

/-- The integer-part digits `parseFloat` reads. -/
def intPart (l : List Char) : List Char := l.takeWhile Char.isDigit

/-- What remains of the argument after the integer-part digits. -/
def afterInt (l : List Char) : List Char := l.drop (intPart l).length

/-- Model of JavaScript `parseFloat`, restricted to the argument strings
that actually reach it in this code base: strings made of decimal digits,
`'.'` and `','` only (no sign, no exponent, no `Infinity`, no leading
whitespace ever occurs at a call site).  `parseFloat` reads the longest
prefix of the form `digits [. digits]` and yields `NaN` (here `none`)
when that prefix is empty. -/
def parseFloatQ (l : List Char) : Option ℚ :=
  if (intPart l).isEmpty && (fracPart (afterInt l)).isEmpty then none
  else some ((digitsToNat (intPart l) : ℚ) +
    (digitsToNat (fracPart (afterInt l)) : ℚ) / (10 : ℚ) ^ (fracPart (afterInt l)).length)

/-- `price.replace(/[^\d.,]/g, '')`: keep only digits, `'.'` and `','`. -/
def cleanChars (l : List Char) : List Char :=
  l.filter (fun c => c.isDigit || c == '.' || c == ',')

/-- JS `String.prototype.split` with a single-character separator. -/
def splitOnChar (sep : Char) : List Char → List (List Char)
  | [] => [[]]
  | c :: cs =>
    match splitOnChar sep cs with
    | [] => [[]]
    | p :: ps => if c = sep then [] :: p :: ps else (c :: p) :: ps

/-- JS `String.prototype.replace(pat, repl)` with one-character pattern
and replacement: only the first occurrence is replaced. -/
def replaceFirst : List Char → Char → Char → List Char
  | [], _, _ => []
  | c :: cs, a, b => if c = a then b :: cs else c :: replaceFirst cs a b

/-- JS `String.prototype.lastIndexOf` for a single character
(-1 when absent). -/
def lastIndexOf (c : Char) (l : List Char) : Int :=
  match l.reverse.findIdx? (· == c) with
  | none => -1
  | some i => (l.length : Int) - 1 - (i : Int)

/-- JS `String.prototype.includes` for a substring pattern. -/
def hasSubstr (pat : List Char) : List Char → Bool
  | [] => pat.isEmpty
  | c :: cs => pat.isPrefixOf (c :: cs) || hasSubstr pat cs

/-- `s.split(pat)[0]`: the part of `s` before the first occurrence of
`pat` (the whole string when `pat` does not occur). -/
def takeBefore (pat : List Char) : List Char → List Char
  | [] => []
  | c :: cs => if pat.isPrefixOf (c :: cs) then [] else c :: takeBefore pat cs

/-! ## PriceNormalizer (src/src/lib/util.ts) -/

/-- The single-separator-type case of `parseNumberWithSeparators`
(the body of `if (lastDot === -1 || lastComma === -1)`). -/
def parseSingleSeparator (separator : Char) (cleanString : List Char) : Option ℚ :=
  -- Multiple separators of the same type must be thousands separators.
  if (splitOnChar separator cleanString).length > 2 then
    parseFloatQ (cleanString.filter (fun c => ¬ (c = separator)))
  else
    match splitOnChar separator cleanString with
    | [integerPart, fractionalPart] =>
      -- 3 digits after the separator, non-empty before: thousands.
      if fractionalPart.length = 3 && integerPart.length > 0 then
        parseFloatQ (integerPart ++ fractionalPart)
      -- Otherwise a decimal separator.
      else if separator = ',' then
        parseFloatQ (integerPart ++ '.' :: fractionalPart)
      else
        parseFloatQ cleanString
    | _ => parseFloatQ cleanString

/-- `parseNumberWithSeparators` from src/src/lib/util.ts:
separator-position/count heuristics resolving `.`/`,` ambiguity. -/
def parseNumberWithSeparators (price : List Char) : Option ℚ :=
  if (cleanChars price).isEmpty then none
  -- Case 1: No separators or only one type of separator exists.
  else if lastIndexOf '.' (cleanChars price) = -1 ∨
      lastIndexOf ',' (cleanChars price) = -1 then
    parseSingleSeparator
      (if lastIndexOf '.' (cleanChars price) > -1 then '.' else ',') (cleanChars price)
  -- Case 2: Both separators are present.
  else if lastIndexOf '.' (cleanChars price) > lastIndexOf ',' (cleanChars price) then
    -- Dot is decimal, comma is thousands.
    parseFloatQ ((cleanChars price).filter (fun c => ¬ (c = ',')))
  else
    -- Comma is decimal, dot is thousands.
    parseFloatQ (replaceFirst ((cleanChars price).filter (fun c => ¬ (c = '.'))) ',' '.')

/-- The numeric text the Indonesian-suffix branch parses:
`numericPart.replace(/\./g, '').replace(',', '.').replace(/[^\d.]/g, '')`. -/
def indoNumberString (numericPart : List Char) : List Char :=
  (replaceFirst (numericPart.filter (fun c => ¬ (c = '.'))) ',' '.').filter
    (fun c => c.isDigit || c == '.')

/-- `handleIndonesian` closure from `normalizePrice`: if the lower-cased
price contains the keyword, parse the text before it (comma as decimal,
dots stripped) and multiply by the keyword's magnitude
(`'juta'` ↦ 1000000, `'ribu'` ↦ 1000, passed here as `multiplier`). -/
def handleIndonesian (priceLower : List Char) (keyword : List Char)
    (multiplier : ℚ) : Option ℚ :=
  if hasSubstr keyword priceLower then
    match parseFloatQ (indoNumberString (takeBefore keyword priceLower)) with
    | some baseNumber => some (baseNumber * multiplier)
    | none => none
  else none

/-- `normalizePrice` from src/src/lib/util.ts.  `toLowerCase` is modelled
with `Char.toLower`, which agrees with JS on every character that can
influence this function (ASCII letters). -/
def normalizePrice (price : String) : Option ℚ :=
  match handleIndonesian (price.data.map Char.toLower) ("juta".data) 1000000 with
  | some v => some v
  | none =>
    match handleIndonesian (price.data.map Char.toLower) ("ribu".data) 1000 with
    | some v => some v
    | none => parseNumberWithSeparators price.data

/-! ## Data model (src/src/lib/utils.ts) -/

/-- `ScrapedProduct` from src/src/lib/utils.ts.  The optional
`pricingCurrency` field is `none` when absent. -/
structure ScrapedProduct where
  product : String
  cost : String
  countryCode : String
  countryName : String
  currency : String
  pricingCurrency : Option String
deriving DecidableEq

/-- `GroupedProduct` from src/src/lib/utils.ts.  The JS `Set` of country
names is modelled as its insertion-ordered, duplicate-free list. -/
structure GroupedProduct where
  product : String
  currency : String
  cost : ℚ
  countries : List String
deriving DecidableEq

/-- `SortConfig.direction`. -/
inductive SortDirection where
  | ascending
  | descending
deriving DecidableEq

/-- `SortConfig` from src/src/lib/utils.ts. -/
structure SortConfig where
  key : String
  direction : SortDirection
deriving DecidableEq

/-- `ExchangeRates = Record<string, Record<string, number>>`, modelled as
an association list of association lists. -/
def ExchangeRates := List (String × List (String × ℚ))

/-- Association-list lookup, modelling JS property access `obj[k]`
(`none` = `undefined`). -/
def alookup {κ α : Type} [DecidableEq κ] (m : List (κ × α)) (k : κ) : Option α :=
  (m.find? (fun p => p.1 = k)).map (·.2)

/-- `exchangeRates[base]?.[target]` (optional chaining). -/
def rateLookup (rates : ExchangeRates) (base target : String) : Option ℚ :=
  (alookup rates base).bind (fun m => alookup m target)

/-- In-place value update of an association list at key `k`, modelling
mutation of an existing JS object property / `Map.set` on a present key
(enumeration position is preserved). -/
def mapUpdate {κ α : Type} [DecidableEq κ] (m : List (κ × α)) (k : κ) (f : α → α) :
    List (κ × α) :=
  m.map (fun p => if p.1 = k then (p.1, f p.2) else p)

/-! ## CurrencyResolver (src/src/lib/utils.ts lines 217-230)

`getCurrencyFromSymbol` is imported from `./util` but its definition is
not part of the sources (only this call site is), so it is kept abstract
as a parameter `sym`, modelled from the spec: an injected configuration
table mapping the raw cost text to the currency code of an unambiguous
currency symbol embedded in it (`none` when no unambiguous symbol is
found). -/

/-- JS truthiness of a `string | undefined` value: present and non-empty. -/
def optTruthy : Option String → Bool
  | none => false
  | some s => s ≠ ""

/-- The `effectiveCurrency` computation inside the authoritative
`groupProducts` (src/src/lib/utils.ts lines 217-230):
1. an unambiguous symbol in the raw cost text wins;
2. else a bare `$` in the cost text plus a `pricingCurrency` override;
3. else the record's country default currency. -/
def effectiveCurrencyOf (sym : String → Option String) (item : ScrapedProduct) :
    String :=
  if optTruthy (sym item.cost) then (sym item.cost).getD ""
  else if item.cost.data.contains '$' && optTruthy item.pricingCurrency then
    item.pricingCurrency.getD ""
  else item.currency

/-! ## ProductGrouper (src/src/lib/utils.ts) -/

/-- Digit characters of a natural number, most significant first
(`fuel` bounds the recursion; it is always given as `n + 1 > n`). -/
def natToCharsAux : ℕ → ℕ → List Char
  | 0, _ => []
  | fuel + 1, n =>
    if n < 10 then [Char.ofNat (48 + n)]
    else natToCharsAux fuel (n / 10) ++ [Char.ofNat (48 + n % 10)]

/-- Decimal digit string of a natural number. -/
def natToChars (n : ℕ) : List Char := natToCharsAux (n + 1) n

/-- Remove all factors of `p` from `n` (`fuel` bounds the recursion; it
is always given as at least `n`): returns the multiplicity of `p` in `n`
and the remaining cofactor. -/
def stripFactor (p : ℕ) : ℕ → ℕ → ℕ × ℕ
  | 0, n => (0, n)
  | fuel + 1, n =>
    if 2 ≤ p ∧ p ∣ n ∧ n ≠ 0 then
      ((stripFactor p fuel (n / p)).1 + 1, (stripFactor p fuel (n / p)).2)
    else (0, n)

/-- The exponent `m` with `d ∣ 10 ^ m` used to clear a decimal
denominator `d = 2^α·5^β`: the larger of the two multiplicities. -/
def decExpOf (d : ℕ) : ℕ :=
  max (stripFactor 2 d d).1 (stripFactor 5 (stripFactor 2 d d).2 (stripFactor 2 d d).2).1

/-- ECMAScript `Number::toString` (radix 10) on an exact decimal value
`s · 10^e` with `10 ∤ s`: writing `k` for the digit count of `s` and
`n = k + e`, the ECMA case ladder produces plain digits for
`k ≤ n ≤ 21`, a decimal point inside or in front of the digits for
`-6 < n ≤ 21`, and scientific notation `d.dddde±x` otherwise — the
negative-exponent scientific form (e.g. `5e-7` for 0.0000005) is the
one place a `'-'` appears in a non-negative number's rendering. -/
def jsRender (s : ℕ) (e : ℤ) : List Char :=
  if 0 ≤ e ∧ ((natToChars s).length : ℤ) + e ≤ 21 then
    natToChars s ++ List.replicate e.toNat '0'
  else if 0 < ((natToChars s).length : ℤ) + e ∧ ((natToChars s).length : ℤ) + e ≤ 21 then
    (natToChars s).take (((natToChars s).length : ℤ) + e).toNat ++
      '.' :: (natToChars s).drop (((natToChars s).length : ℤ) + e).toNat
  else if -6 < ((natToChars s).length : ℤ) + e ∧ ((natToChars s).length : ℤ) + e ≤ 0 then
    '0' :: '.' :: (List.replicate (-(((natToChars s).length : ℤ) + e)).toNat '0' ++ natToChars s)
  else
    (match natToChars s with
     | [] => []
     | d :: ds =>
       (if ds.isEmpty then [d] else d :: '.' :: ds) ++
         'e' :: (if 0 ≤ ((natToChars s).length : ℤ) + e - 1 then
             '+' :: natToChars (((natToChars s).length : ℤ) + e - 1).toNat
           else '-' :: natToChars (1 - (((natToChars s).length : ℤ) + e)).toNat))

/-- The template-literal rendering `` `${normalizedCost}` `` of a cost.
On the idealized exact rational (see the file header) this is
ECMAScript `Number::toString`: a zero is `"0"`, a negative value gets a
leading `'-'`, and otherwise the value is decomposed as `s · 10^e` with
`10 ∤ s` (possible exactly when the reduced denominator is of the form
`2^α·5^β`, which holds for every value `normalizePrice` can produce)
and formatted by the ECMA case ladder (`jsRender`).  Rationals without
a finite decimal expansion lie outside the idealization's image; they
get an arbitrary injective rendering. -/
def jsNumChars (q : ℚ) : List Char :=
  if q.num = 0 then ['0']
  else if (stripFactor 5 (stripFactor 2 q.den q.den).2 (stripFactor 2 q.den q.den).2).2 = 1 then
    (if q.num < 0 then ['-'] else []) ++
    jsRender
      (stripFactor 10 (q.num.natAbs * 10 ^ decExpOf q.den / q.den)
        (q.num.natAbs * 10 ^ decExpOf q.den / q.den)).2
      (((stripFactor 10 (q.num.natAbs * 10 ^ decExpOf q.den / q.den)
        (q.num.natAbs * 10 ^ decExpOf q.den / q.den)).1 : ℤ) - (decExpOf q.den : ℤ))
  else
    (if q.num < 0 then ['-'] else []) ++ natToChars q.num.natAbs ++ '/' :: natToChars q.den

/-- Decimal read-back of a positional rendering (a proof device used to
invert `jsNumChars` on the dash-free domain): the digits before the
point, plus the digits after it scaled down by their count. -/
def decVal (l : List Char) : ℚ :=
  match splitOnChar '.' l with
  | [ip] => (digitsToNat ip : ℚ)
  | [ip, fp] => (digitsToNat ip : ℚ) + (digitsToNat fp : ℚ) / (10 : ℚ) ^ fp.length
  | _ => 0

/-- The costs on which the template-literal group key is provably
collision-free: exact decimal values that are zero or in
[10^-6, 10^21).  JavaScript renders a positive number below 10^-6 in
scientific notation with a negative exponent (`String(0.0000005)` is
`"5e-7"`), which puts a `'-'` inside the `'-'`-joined group key and
breaks the key's structure. -/
def KeySafe (q : ℚ) : Prop :=
  (∃ n k : ℕ, q = (n : ℚ) / 10 ^ k) ∧
    (q = 0 ∨ ((1 : ℚ) / 1000000 ≤ q ∧ q < 10 ^ 21))

/-- The template-literal group key
`` `${item.product}-${effectiveCurrency}-${normalizedCost}` ``. -/
def groupKey (product currency : String) (cost : ℚ) : List Char :=
  product.data ++ '-' :: currency.data ++ '-' :: jsNumChars cost

/-- `acc[key].countries.add(item.countryName)`: JS `Set.add` keeps
insertion order and ignores an element already present. -/
def addCountryName (name : String) (e : GroupedProduct) : GroupedProduct :=
  { e with countries := if name ∈ e.countries then e.countries else e.countries ++ [name] }

/-- One step of the `reduce` callback in the authoritative
`groupProducts` (src/src/lib/utils.ts lines 210-243): skip records whose
cost does not normalize; resolve the effective currency; create the
group entry on first sight of its key; add the record's country name. -/
def groupStep (sym : String → Option String)
    (acc : List (List Char × GroupedProduct)) (item : ScrapedProduct) :
    List (List Char × GroupedProduct) :=
  match normalizePrice item.cost with
  | none => acc
  | some normalizedCost =>
    mapUpdate
      (match alookup acc
          (groupKey item.product (effectiveCurrencyOf sym item) normalizedCost) with
       | some _ => acc
       | none =>
         acc ++ [(groupKey item.product (effectiveCurrencyOf sym item) normalizedCost,
                  ⟨item.product, effectiveCurrencyOf sym item, normalizedCost, []⟩)])
      (groupKey item.product (effectiveCurrencyOf sym item) normalizedCost)
      (addCountryName item.countryName)

/-- The `groupedByProductAndPrice` accumulator after folding the whole
record list. -/
def groupAccum (sym : String → Option String) (l : List ScrapedProduct) :
    List (List Char × GroupedProduct) :=
  l.foldl (groupStep sym) []

/-- One step of the final bucketing loop: append the entry to its
product's list, creating the bucket on first sight. -/
def bucketStep (out : List (String × List GroupedProduct)) (g : GroupedProduct) :
    List (String × List GroupedProduct) :=
  match alookup out g.product with
  | some _ => mapUpdate out g.product (fun es => es ++ [g])
  | none => out ++ [(g.product, [g])]

/-- `groupProducts` (the authoritative three-tier version,
src/src/lib/utils.ts lines 210-254), parameterized by the injected
symbol table `sym` (see `effectiveCurrencyOf`). -/
def groupProducts (sym : String → Option String) (allProducts : List ScrapedProduct) :
    List (String × List GroupedProduct) :=
  ((groupAccum sym allProducts).map (·.2)).foldl bucketStep []

/-- The `` `${product.countryCode}-${product.product}` `` key of
`filterHighestPriceProducts`. -/
def countryProductKey (item : ScrapedProduct) : List Char :=
  item.countryCode.data ++ '-' :: item.product.data

/-- One step of the loop in `filterHighestPriceProducts`
(src/src/lib/utils.ts lines 181-203).  A `Map.set` on an existing key
keeps the entry's position. -/
def filterStep (m : List (List Char × ScrapedProduct)) (product : ScrapedProduct) :
    List (List Char × ScrapedProduct) :=
  match normalizePrice product.cost with
  | none => m   -- skip products with unparseable costs
  | some currentCost =>
    match alookup m (countryProductKey product) with
    | none => m ++ [(countryProductKey product, product)]
    | some existing =>
      if (match normalizePrice existing.cost with
          | none => true
          | some existingCost => decide (existingCost < currentCost)) then
        mapUpdate m (countryProductKey product) (fun _ => product)
      else m

/-- `filterHighestPriceProducts` (src/src/lib/utils.ts lines 181-203):
keep only the highest-priced entry per country-product key. -/
def filterHighestPriceProducts (allProducts : List ScrapedProduct) :
    List ScrapedProduct :=
  (allProducts.foldl filterStep []).map (·.2)

/-! ## ProductSorter (src/src/lib/utils.ts lines 259-320) -/

/-- Extended rationals: the comparator's value domain, containing the
`Infinity` / `-Infinity` sentinels used for unrankable entries. -/
inductive ExtQ where
  | neginf
  | fin (q : ℚ)
  | posinf
deriving DecidableEq

/-- Numeric `<` on the comparator values (no `NaN` arises). -/
def ExtQ.lt : ExtQ → ExtQ → Bool
  | .neginf, .fin _ => true
  | .neginf, .posinf => true
  | .fin _, .posinf => true
  | .fin q, .fin r => decide (q < r)
  | _, _ => false

/-- The direction-dependent `Infinity` / `-Infinity` sentinel returned
for unrankable entries. -/
def infSentinel : SortDirection → ExtQ
  | .ascending => .posinf
  | .descending => .neginf

/-- `getConvertedValue` (src/src/lib/utils.ts lines 273-286).  The rate
test `if (rate)` is a JS truthiness check, so a present rate of exactly
0 falls through to the sentinel. -/
def getConvertedValue (direction : SortDirection)
    (conversionCurrency : Option String) (exchangeRates : ExchangeRates)
    (item : GroupedProduct) : ExtQ :=
  match conversionCurrency with
  | none => infSentinel direction
  | some cc =>
    if item.currency = cc then .fin item.cost
    else
      match rateLookup exchangeRates item.currency cc with
      | some rate => if rate ≠ 0 then .fin (item.cost * rate) else infSentinel direction
      | none => infSentinel direction

/-- The comparator's computed `aValue` / `bValue`: a number or a
lower-cased string, or `none` for an unknown sort key (in which case the
comparator returns 0 before comparing). -/
inductive SortValue where
  | num (x : ExtQ)
  | str (s : List Char)
deriving DecidableEq

/-- Code-unit-wise lexicographic `<` on strings (all strings compared
here are in the basic plane, where code units and code points agree). -/
def lexLt : List Char → List Char → Bool
  | _, [] => false
  | [], _ :: _ => true
  | a :: as, b :: bs => decide (a < b) || (a = b && lexLt as bs)

/-- JS `<` on the computed values. -/
def SortValue.lt : SortValue → SortValue → Bool
  | .num x, .num y => ExtQ.lt x y
  | .str s, .str t => lexLt s t
  | _, _ => false

/-- The per-entry value the comparator computes for a given sort key
(`none` for the `default` switch branch). -/
def sortValue (sortConfig : SortConfig) (conversionCurrency : Option String)
    (exchangeRates : ExchangeRates) (item : GroupedProduct) : Option SortValue :=
  if sortConfig.key = "convertedCost" then
    some (.num (getConvertedValue sortConfig.direction conversionCurrency exchangeRates item))
  else if sortConfig.key = "countries" then
    some (.num (.fin (item.countries.length : ℚ)))
  else if sortConfig.key = "product" then
    some (.str (item.product.data.map Char.toLower))
  else if sortConfig.key = "currency" then
    some (.str (item.currency.data.map Char.toLower))
  else if sortConfig.key = "cost" then
    some (.num (.fin item.cost))
  else none

/-- The comparator passed to `dataToSort.sort`.  (The `undefined` guards
of the source are unreachable: for every known key both values are
defined, and for an unknown key the `default` branch returns 0 first.) -/
def sortCmp (sortConfig : SortConfig) (conversionCurrency : Option String)
    (exchangeRates : ExchangeRates) (a b : GroupedProduct) : Int :=
  match sortValue sortConfig conversionCurrency exchangeRates a,
        sortValue sortConfig conversionCurrency exchangeRates b with
  | some aValue, some bValue =>
    if SortValue.lt aValue bValue then
      match sortConfig.direction with | .ascending => -1 | .descending => 1
    else if SortValue.lt bValue aValue then
      match sortConfig.direction with | .ascending => 1 | .descending => -1
    else 0
  | _, _ => 0

/-- Stable insertion of `x` into `l`: `x` is placed before the first
element it does not compare strictly greater than.  Elements already in
`l` are "earlier" in the original list, so ties keep them behind `x`. -/
def insertCmp {α : Type} (cmp : α → α → Int) (x : α) : List α → List α
  | [] => [x]
  | y :: ys => if cmp x y ≤ 0 then x :: y :: ys else y :: insertCmp cmp x ys

/-- Stable sort by a comparator.  `Array.prototype.sort` is required to
be stable and, for a consistent comparator (every comparator built by
`sortCmp` is induced by a total preorder on computed values), the stable
sorted permutation is unique, so stable insertion sort models it exactly. -/
def stableSortCmp {α : Type} (cmp : α → α → Int) (l : List α) : List α :=
  l.foldr (insertCmp cmp) []

/-- `sortGroupedProducts` (src/src/lib/utils.ts lines 259-320): copy the
input (`[...data]`) and sort the copy with the comparator. -/
def sortGroupedProducts (data : List GroupedProduct) (sortConfig : SortConfig)
    (conversionCurrency : Option String) (exchangeRates : ExchangeRates) :
    List GroupedProduct :=
  stableSortCmp (sortCmp sortConfig conversionCurrency exchangeRates) data

/-! ## Association-list lemmas -/

theorem alookup_eq_none_iff {κ α : Type} [DecidableEq κ]
    (m : List (κ × α)) (k : κ) :
    alookup m k = none ↔ k ∉ m.map Prod.fst := by
  unfold alookup
  rw [Option.map_eq_none', List.find?_eq_none]
  constructor
  · intro h hk
    rcases List.mem_map.mp hk with ⟨p, hp, hpk⟩
    have := h p hp
    simp only [decide_eq_true_eq] at this
    exact this (hpk ▸ rfl)
  · intro h p hp
    simp only [decide_eq_true_eq]
    intro hpk
    exact h (List.mem_map.mpr ⟨p, hp, hpk⟩)

theorem alookup_mem {κ α : Type} [DecidableEq κ] {m : List (κ × α)} {k : κ}
    {v : α} (h : alookup m k = some v) : (k, v) ∈ m := by
  unfold alookup at h
  rw [Option.map_eq_some'] at h
  rcases h with ⟨p, hp, hpv⟩
  have hm := List.mem_of_find?_eq_some hp
  have hk := List.find?_some hp
  simp only [decide_eq_true_eq] at hk
  have : p = (k, v) := by
    cases p
    simp only at hk hpv
    rw [hk, hpv]
  exact this ▸ hm

theorem mem_key_of_mem {κ α : Type} {m : List (κ × α)} {k : κ} {v : α}
    (h : (k, v) ∈ m) : k ∈ m.map Prod.fst :=
  List.mem_map.mpr ⟨(k, v), h, rfl⟩

theorem alookup_isSome_of_mem {κ α : Type} [DecidableEq κ] {m : List (κ × α)}
    {k : κ} {v : α} (h : (k, v) ∈ m) : (alookup m k).isSome = true := by
  cases hl : alookup m k with
  | some w => rfl
  | none =>
    rw [alookup_eq_none_iff] at hl
    exact absurd (mem_key_of_mem h) hl

theorem mem_of_mem_nodup_lookup {κ α : Type} [DecidableEq κ]
    {m : List (κ × α)} {k : κ} {v v' : α}
    (hnd : (m.map Prod.fst).Nodup) (h : (k, v) ∈ m) (h' : (k, v') ∈ m) :
    v = v' := by
  induction m with
  | nil => simp at h
  | cons p ps ih =>
    simp only [List.map_cons, List.nodup_cons] at hnd
    obtain ⟨hnd1, hnd2⟩ := hnd
    rcases List.mem_cons.mp h with h1 | h1 <;>
      rcases List.mem_cons.mp h' with h2 | h2
    · injection h1.trans h2.symm
    · have hk : k = p.1 := congrArg Prod.fst h1
      rw [← hk] at hnd1
      exact absurd (mem_key_of_mem h2) hnd1
    · have hk : k = p.1 := congrArg Prod.fst h2
      rw [← hk] at hnd1
      exact absurd (mem_key_of_mem h1) hnd1
    · exact ih hnd2 h1 h2

theorem map_fst_mapUpdate {κ α : Type} [DecidableEq κ]
    (m : List (κ × α)) (k : κ) (f : α → α) :
    (mapUpdate m k f).map Prod.fst = m.map Prod.fst := by
  unfold mapUpdate
  rw [List.map_map]
  apply List.map_congr_left
  intro p _
  by_cases hp : p.1 = k <;> simp [hp]

theorem mem_mapUpdate_of_mem {κ α : Type} [DecidableEq κ]
    {m : List (κ × α)} {k' : κ} {v : α} (k : κ) (f : α → α)
    (h : (k', v) ∈ m) :
    (k', if k' = k then f v else v) ∈ mapUpdate m k f := by
  unfold mapUpdate
  apply List.mem_map.mpr
  exact ⟨(k', v), h, by by_cases hk : k' = k <;> simp [hk]⟩

theorem mem_mapUpdate_elim {κ α : Type} [DecidableEq κ]
    {m : List (κ × α)} {k : κ} {f : α → α} {k' : κ} {v' : α}
    (h : (k', v') ∈ mapUpdate m k f) :
    ∃ v, (k', v) ∈ m ∧ ((k' = k ∧ v' = f v) ∨ (¬ k' = k ∧ v' = v)) := by
  unfold mapUpdate at h
  rcases List.mem_map.mp h with ⟨p, hp, hpe⟩
  obtain ⟨p1, p2⟩ := p
  by_cases hk : p1 = k
  · rw [if_pos hk] at hpe
    injection hpe with h1 h2
    subst h1
    exact ⟨p2, hp, Or.inl ⟨hk, h2.symm⟩⟩
  · rw [if_neg hk] at hpe
    injection hpe with h1 h2
    subst h1
    exact ⟨p2, hp, Or.inr ⟨hk, h2.symm⟩⟩

theorem mapUpdate_not_mem {κ α : Type} [DecidableEq κ]
    {m : List (κ × α)} {k : κ} (f : α → α) (h : k ∉ m.map Prod.fst) :
    mapUpdate m k f = m := by
  unfold mapUpdate
  have hcongr : m.map (fun p => if p.1 = k then (p.1, f p.2) else p) = m.map id :=
    List.map_congr_left (fun p hp => by
      have hne : ¬ p.1 = k := fun he => h (he ▸ List.mem_map.mpr ⟨p, hp, rfl⟩)
      simp [hne])
  rw [hcongr, List.map_id]

theorem mapUpdate_append_singleton {κ α : Type} [DecidableEq κ]
    {m : List (κ × α)} {k : κ} (v : α) (f : α → α) (h : k ∉ m.map Prod.fst) :
    mapUpdate (m ++ [(k, v)]) k f = m ++ [(k, f v)] := by
  unfold mapUpdate
  rw [List.map_append]
  have h1 : m.map (fun p => if p.1 = k then (p.1, f p.2) else p) = m := by
    have := mapUpdate_not_mem (m := m) (k := k) f h
    unfold mapUpdate at this
    exact this
  rw [h1]
  simp

/-! ## Key-injectivity lemmas -/

theorem natToCharsAux_digits :
    ∀ (fuel n : ℕ), ∀ c ∈ natToCharsAux fuel n, c.isDigit = true := by
  intro fuel
  induction fuel with
  | zero => intro n c hc; simp [natToCharsAux] at hc
  | succ fuel ih =>
    intro n c hc
    unfold natToCharsAux at hc
    split at hc
    · next hn =>
      rw [List.mem_singleton] at hc
      subst hc
      interval_cases n <;> decide
    · next hn =>
      rcases List.mem_append.mp hc with h1 | h1
      · exact ih _ c h1
      · rw [List.mem_singleton] at h1
        subst h1
        have : n % 10 < 10 := Nat.mod_lt _ (by omega)
        set r := n % 10 with hr
        interval_cases r <;> decide

theorem natToChars_digits (n : ℕ) : ∀ c ∈ natToChars n, c.isDigit = true :=
  natToCharsAux_digits (n + 1) n

theorem digitsToNat_append_singleton (l : List Char) (c : Char) :
    digitsToNat (l ++ [c]) = 10 * digitsToNat l + (c.toNat - 48) := by
  unfold digitsToNat
  rw [List.foldl_append]
  rfl

theorem digitChar_toNat {m : ℕ} (h : m < 10) :
    (Char.ofNat (48 + m)).toNat = 48 + m := by
  interval_cases m <;> decide

theorem digitsToNat_natToCharsAux :
    ∀ (fuel n : ℕ), n < fuel → digitsToNat (natToCharsAux fuel n) = n := by
  intro fuel
  induction fuel with
  | zero => intro n hn; omega
  | succ fuel ih =>
    intro n hn
    unfold natToCharsAux
    split
    · next h10 =>
      show digitsToNat [Char.ofNat (48 + n)] = n
      unfold digitsToNat
      simp only [List.foldl_cons, List.foldl_nil]
      rw [Nat.mul_zero, Nat.zero_add, digitChar_toNat h10]
      omega
    · next h10 =>
      rw [digitsToNat_append_singleton]
      have hdiv : n / 10 < fuel := by
        have h1 : n / 10 < n := Nat.div_lt_self (by omega) (by omega)
        omega
      rw [ih _ hdiv, digitChar_toNat (Nat.mod_lt _ (by omega))]
      omega

theorem natToChars_injective {a b : ℕ} (h : natToChars a = natToChars b) :
    a = b := by
  have ha := digitsToNat_natToCharsAux (a + 1) a (by omega)
  have hb := digitsToNat_natToCharsAux (b + 1) b (by omega)
  unfold natToChars at h
  rw [← ha, ← hb, h]

theorem splitFirst {sep : Char} :
    ∀ {x x' y y' : List Char}, sep ∉ x → sep ∉ x' →
      x ++ sep :: y = x' ++ sep :: y' → x = x' ∧ y = y' := by
  intro x
  induction x with
  | nil =>
    intro x' y y' _ hx' heq
    cases x' with
    | nil =>
      simp only [List.nil_append] at heq
      injection heq with _ h2
      exact ⟨rfl, h2⟩
    | cons c cs =>
      simp only [List.nil_append, List.cons_append] at heq
      injection heq with h1 _
      exact absurd (h1 ▸ List.mem_cons_self c cs) hx'
  | cons c cs ih =>
    intro x' y y' hx hx' heq
    cases x' with
    | nil =>
      simp only [List.cons_append, List.nil_append] at heq
      injection heq with h1 _
      exact absurd (h1.symm ▸ List.mem_cons_self c cs) hx
    | cons c' cs' =>
      simp only [List.cons_append] at heq
      injection heq with h1 h2
      have hcs : sep ∉ cs := fun hm => hx (List.mem_cons_of_mem _ hm)
      have hcs' : sep ∉ cs' := fun hm => hx' (List.mem_cons_of_mem _ hm)
      obtain ⟨hx1, hy1⟩ := ih hcs hcs' h2
      exact ⟨by rw [h1, hx1], hy1⟩

theorem splitLast {sep : Char} {x x' y y' : List Char}
    (hy : sep ∉ y) (hy' : sep ∉ y')
    (heq : x ++ sep :: y = x' ++ sep :: y') : x = x' ∧ y = y' := by
  have hrev := congrArg List.reverse heq
  rw [List.reverse_append, List.reverse_cons, List.reverse_append,
      List.reverse_cons] at hrev
  have hra : y.reverse ++ [sep] ++ x.reverse = y.reverse ++ sep :: x.reverse := by
    rw [List.append_assoc]; rfl
  have hrb : y'.reverse ++ [sep] ++ x'.reverse = y'.reverse ++ sep :: x'.reverse := by
    rw [List.append_assoc]; rfl
  rw [hra, hrb] at hrev
  have hys : sep ∉ y.reverse := fun hm => hy (List.mem_reverse.mp hm)
  have hys' : sep ∉ y'.reverse := fun hm => hy' (List.mem_reverse.mp hm)
  obtain ⟨h1, h2⟩ := splitFirst hys hys' hrev
  constructor
  · rw [← List.reverse_reverse x, h2, List.reverse_reverse]
  · rw [← List.reverse_reverse y, h1, List.reverse_reverse]

theorem slash_not_mem_natToChars (n : ℕ) : '/' ∉ natToChars n := by
  intro hm
  have := natToChars_digits n '/' hm
  simp at this

theorem string_eq_of_data_eq {s t : String} (h : s.data = t.data) : s = t := by
  cases s; cases t
  exact congrArg String.mk h

theorem parseFloatQ_nonneg {l : List Char} {q : ℚ}
    (h : parseFloatQ l = some q) : 0 ≤ q := by
  unfold parseFloatQ at h
  split at h
  · simp at h
  · injection h with h1
    rw [← h1]
    positivity

theorem handleIndonesian_nonneg {pl kw : List Char} {m q : ℚ}
    (hm : 0 ≤ m) (h : handleIndonesian pl kw m = some q) : 0 ≤ q := by
  unfold handleIndonesian at h
  split at h
  · split at h
    · next hp =>
      injection h with h1
      rw [← h1]
      exact mul_nonneg (parseFloatQ_nonneg hp) hm
    · simp at h
  · simp at h

theorem parseSingleSeparator_nonneg {sep : Char} {clean : List Char} {q : ℚ}
    (h : parseSingleSeparator sep clean = some q) : 0 ≤ q := by
  unfold parseSingleSeparator at h
  split at h
  · exact parseFloatQ_nonneg h
  · split at h
    · split at h
      · exact parseFloatQ_nonneg h
      · split at h
        · exact parseFloatQ_nonneg h
        · exact parseFloatQ_nonneg h
    · exact parseFloatQ_nonneg h

theorem parseNumberWithSeparators_nonneg {l : List Char} {q : ℚ}
    (h : parseNumberWithSeparators l = some q) : 0 ≤ q := by
  unfold parseNumberWithSeparators at h
  split at h
  · simp at h
  · split at h
    · exact parseSingleSeparator_nonneg h
    · split at h
      · exact parseFloatQ_nonneg h
      · exact parseFloatQ_nonneg h

theorem normalizePrice_nonneg {s : String} {q : ℚ}
    (h : normalizePrice s = some q) : 0 ≤ q := by
  cases hj : handleIndonesian (s.data.map Char.toLower) ("juta".data) 1000000 with
  | some v =>
    have hv : normalizePrice s = some v := by unfold normalizePrice; rw [hj]
    rw [hv] at h
    injection h with h1
    rw [← h1]
    exact handleIndonesian_nonneg (by norm_num) hj
  | none =>
    cases hr : handleIndonesian (s.data.map Char.toLower) ("ribu".data) 1000 with
    | some v =>
      have hv : normalizePrice s = some v := by
        unfold normalizePrice; rw [hj, hr]
      rw [hv] at h
      injection h with h1
      rw [← h1]
      exact handleIndonesian_nonneg (by norm_num) hr
    | none =>
      have hv : normalizePrice s = parseNumberWithSeparators s.data := by
        unfold normalizePrice; rw [hj, hr]
      rw [hv] at h
      exact parseNumberWithSeparators_nonneg h

/-! ## Decimal form of normalized prices -/

theorem parseFloatQ_decimal {l : List Char} {q : ℚ}
    (h : parseFloatQ l = some q) : ∃ n k : ℕ, q = (n : ℚ) / 10 ^ k := by
  unfold parseFloatQ at h
  split at h
  · simp at h
  · injection h with h1
    refine ⟨digitsToNat (intPart l) * 10 ^ (fracPart (afterInt l)).length +
      digitsToNat (fracPart (afterInt l)), (fracPart (afterInt l)).length, ?_⟩
    rw [← h1]
    push_cast
    field_simp

theorem handleIndonesian_decimal {pl kw : List Char} {m q : ℚ} {j : ℕ}
    (hm : m = (10 : ℚ) ^ j) (h : handleIndonesian pl kw m = some q) :
    ∃ n k : ℕ, q = (n : ℚ) / 10 ^ k := by
  unfold handleIndonesian at h
  split at h
  · split at h
    · next hp =>
      injection h with h1
      obtain ⟨n, k, hnk⟩ := parseFloatQ_decimal hp
      refine ⟨n * 10 ^ j, k, ?_⟩
      rw [← h1, hnk, hm]
      push_cast
      ring
    · simp at h
  · simp at h

theorem parseSingleSeparator_decimal {sep : Char} {clean : List Char} {q : ℚ}
    (h : parseSingleSeparator sep clean = some q) : ∃ n k : ℕ, q = (n : ℚ) / 10 ^ k := by
  unfold parseSingleSeparator at h
  split at h
  · exact parseFloatQ_decimal h
  · split at h
    · split at h
      · exact parseFloatQ_decimal h
      · split at h
        · exact parseFloatQ_decimal h
        · exact parseFloatQ_decimal h
    · exact parseFloatQ_decimal h

theorem parseNumberWithSeparators_decimal {l : List Char} {q : ℚ}
    (h : parseNumberWithSeparators l = some q) : ∃ n k : ℕ, q = (n : ℚ) / 10 ^ k := by
  unfold parseNumberWithSeparators at h
  split at h
  · simp at h
  · split at h
    · exact parseSingleSeparator_decimal h
    · split at h
      · exact parseFloatQ_decimal h
      · exact parseFloatQ_decimal h

theorem normalizePrice_decimal {s : String} {q : ℚ}
    (h : normalizePrice s = some q) : ∃ n k : ℕ, q = (n : ℚ) / 10 ^ k := by
  cases hj : handleIndonesian (s.data.map Char.toLower) ("juta".data) 1000000 with
  | some v =>
    have hv : normalizePrice s = some v := by unfold normalizePrice; rw [hj]
    rw [hv] at h
    injection h with h1
    rw [← h1]
    exact handleIndonesian_decimal (j := 6) (by norm_num) hj
  | none =>
    cases hr : handleIndonesian (s.data.map Char.toLower) ("ribu".data) 1000 with
    | some v =>
      have hv : normalizePrice s = some v := by
        unfold normalizePrice; rw [hj, hr]
      rw [hv] at h
      injection h with h1
      rw [← h1]
      exact handleIndonesian_decimal (j := 3) (by norm_num) hr
    | none =>
      have hv : normalizePrice s = parseNumberWithSeparators s.data := by
        unfold normalizePrice; rw [hj, hr]
      rw [hv] at h
      exact parseNumberWithSeparators_decimal h

/-! ## Basic sorting lemmas -/

theorem insertCmp_perm {α : Type} (cmp : α → α → Int) (x : α) (l : List α) :
    (insertCmp cmp x l).Perm (x :: l) := by
  induction l with
  | nil => simp [insertCmp]
  | cons y ys ih =>
    simp only [insertCmp]
    split
    · exact List.Perm.refl _
    · exact (ih.cons y).trans (List.Perm.swap x y ys)

theorem stableSortCmp_perm {α : Type} (cmp : α → α → Int) (l : List α) :
    (stableSortCmp cmp l).Perm l := by
  induction l with
  | nil => simp [stableSortCmp]
  | cons x xs ih =>
    have : stableSortCmp cmp (x :: xs) = insertCmp cmp x (stableSortCmp cmp xs) := rfl
    rw [this]
    exact (insertCmp_perm cmp x _).trans (ih.cons x)

theorem insertCmp_of_cmp_zero {α : Type} (cmp : α → α → Int) (x : α) (l : List α)
    (h : ∀ a b, cmp a b = 0) : insertCmp cmp x l = x :: l := by
  cases l with
  | nil => rfl
  | cons y ys => simp [insertCmp, h]

theorem stableSortCmp_of_cmp_zero {α : Type} (cmp : α → α → Int) (l : List α)
    (h : ∀ a b, cmp a b = 0) : stableSortCmp cmp l = l := by
  induction l with
  | nil => rfl
  | cons x xs ih =>
    have hs : stableSortCmp cmp (x :: xs) = insertCmp cmp x (stableSortCmp cmp xs) := rfl
    rw [hs, ih, insertCmp_of_cmp_zero cmp x xs h]

theorem sortValue_eq_none_of_unknown_key (sortConfig : SortConfig)
    (conversionCurrency : Option String) (exchangeRates : ExchangeRates)
    (item : GroupedProduct)
    (h : sortConfig.key ∉
      (["product", "currency", "cost", "countries", "convertedCost"] : List String)) :
    sortValue sortConfig conversionCurrency exchangeRates item = none := by
  simp only [List.mem_cons, List.not_mem_nil, or_false, not_or] at h
  obtain ⟨h1, h2, h3, h4, h5⟩ := h
  simp [sortValue, h1, h2, h3, h4, h5]

theorem sortCmp_eq_zero_of_unknown_key (sortConfig : SortConfig)
    (conversionCurrency : Option String) (exchangeRates : ExchangeRates)
    (h : sortConfig.key ∉
      (["product", "currency", "cost", "countries", "convertedCost"] : List String)) :
    ∀ a b, sortCmp sortConfig conversionCurrency exchangeRates a b = 0 := by
  intro a b
  simp [sortCmp, sortValue_eq_none_of_unknown_key _ _ _ _ h]

/-- C8: `sortGroupedProducts` returns a permutation of its input.  (In
this pure embedding the input list itself is untouched by construction;
the source achieves the same by sorting the copy `[...data]`.) -/
theorem sortGroupedProducts_perm (data : List GroupedProduct)
    (sortConfig : SortConfig) (conversionCurrency : Option String)
    (exchangeRates : ExchangeRates) :
    (sortGroupedProducts data sortConfig conversionCurrency exchangeRates).Perm data :=
  stableSortCmp_perm _ data

/-- C9: for a sort key outside the five known ones the comparator treats
every pair as equal, so sorting preserves the input order exactly. -/
theorem sortGroupedProducts_unknown_key (data : List GroupedProduct)
    (sortConfig : SortConfig) (conversionCurrency : Option String)
    (exchangeRates : ExchangeRates)
    (h : sortConfig.key ∉
      (["product", "currency", "cost", "countries", "convertedCost"] : List String)) :
    sortGroupedProducts data sortConfig conversionCurrency exchangeRates = data :=
  stableSortCmp_of_cmp_zero _ data
    (sortCmp_eq_zero_of_unknown_key _ _ _ h)

/-- Witness for C9 at a concrete unknown key and concrete list. -/
theorem sortGroupedProducts_unknown_key_witness :
    (("bogus" : String) ∉
      (["product", "currency", "cost", "countries", "convertedCost"] : List String)) ∧
    sortGroupedProducts [⟨"p", "EUR", 5, ["X"]⟩, ⟨"q", "USD", 3, ["Y"]⟩]
      ⟨"bogus", .descending⟩ none [] =
      [⟨"p", "EUR", 5, ["X"]⟩, ⟨"q", "USD", 3, ["Y"]⟩] :=
  ⟨by decide, sortGroupedProducts_unknown_key _ ⟨"bogus", .descending⟩ none []
    (by decide)⟩

/-! ## Digit-freeness lemmas for the NaN sentinel (C7) -/

theorem toLower_not_digit {c : Char} (h : ¬ c.isDigit) : ¬ (c.toLower).isDigit := by
  unfold Char.toLower
  simp only []
  by_cases hn : c.toNat ≥ 65 ∧ c.toNat ≤ 90
  · rw [if_pos hn]
    obtain ⟨h1, h2⟩ := hn
    set n := c.toNat with hdef
    interval_cases n <;> decide
  · rw [if_neg hn]; exact h

theorem takeWhile_nil_of_none {l : List Char} {p : Char → Bool}
    (h : ∀ c ∈ l, ¬ p c) : l.takeWhile p = [] := by
  cases l with
  | nil => rfl
  | cons c cs =>
    have : ¬ p c := h c (List.mem_cons_self c cs)
    simp [List.takeWhile_cons, this]

theorem fracPart_nil_of_no_digit {l : List Char}
    (h : ∀ c ∈ l, ¬ c.isDigit) : fracPart l = [] := by
  cases l with
  | nil => rfl
  | cons c cs =>
    by_cases hc : c = '.'
    · subst hc
      have : ∀ x ∈ cs, ¬ x.isDigit := fun x hx => h x (List.mem_cons_of_mem _ hx)
      simp [fracPart, takeWhile_nil_of_none this]
    · unfold fracPart
      split
      · next r heq => injection heq with h1 h2; exact absurd h1 hc
      · rfl

theorem parseFloatQ_none_of_no_digit {l : List Char}
    (h : ∀ c ∈ l, ¬ c.isDigit) : parseFloatQ l = none := by
  have hip : intPart l = [] := takeWhile_nil_of_none h
  have hafter : afterInt l = l := by simp [afterInt, hip]
  unfold parseFloatQ
  rw [hip, hafter, fracPart_nil_of_no_digit h]
  rfl

theorem mem_replaceFirst {l : List Char} {a b c : Char}
    (h : c ∈ replaceFirst l a b) : c ∈ l ∨ c = b := by
  induction l with
  | nil => simp [replaceFirst] at h
  | cons x xs ih =>
    simp only [replaceFirst] at h
    split at h
    · rcases List.mem_cons.mp h with h1 | h1
      · right; exact h1
      · left; exact List.mem_cons_of_mem _ h1
    · rcases List.mem_cons.mp h with h1 | h1
      · left; rw [h1]; exact List.mem_cons_self _ _
      · rcases ih h1 with h2 | h2
        · left; exact List.mem_cons_of_mem _ h2
        · right; exact h2

theorem mem_takeBefore {pat l : List Char} {c : Char}
    (h : c ∈ takeBefore pat l) : c ∈ l := by
  induction l with
  | nil => simp [takeBefore] at h
  | cons x xs ih =>
    simp only [takeBefore] at h
    split at h
    · simp at h
    · rcases List.mem_cons.mp h with h1 | h1
      · rw [h1]; exact List.mem_cons_self _ _
      · exact List.mem_cons_of_mem _ (ih h1)

theorem indoNumberString_no_digit {l : List Char}
    (h : ∀ c ∈ l, ¬ c.isDigit) : ∀ c ∈ indoNumberString l, ¬ c.isDigit := by
  intro c hc
  unfold indoNumberString at hc
  have hc1 := (List.mem_filter.mp hc).1
  rcases mem_replaceFirst hc1 with h1 | h1
  · exact h c (List.mem_filter.mp h1).1
  · rw [h1]; decide

theorem handleIndonesian_none_of_no_digit {priceLower kw : List Char} {m : ℚ}
    (h : ∀ c ∈ priceLower, ¬ c.isDigit) :
    handleIndonesian priceLower kw m = none := by
  unfold handleIndonesian
  split
  · rw [parseFloatQ_none_of_no_digit
      (indoNumberString_no_digit (fun c hc => h c (mem_takeBefore hc)))]
  · rfl

theorem splitOnChar_ne_nil (sep : Char) (l : List Char) :
    splitOnChar sep l ≠ [] := by
  cases l with
  | nil => simp [splitOnChar]
  | cons x xs =>
    simp only [splitOnChar]
    cases h' : splitOnChar sep xs with
    | nil => simp
    | cons q qs => by_cases hx : x = sep <;> simp [hx]

theorem mem_splitOnChar {sep : Char} {l : List Char} {p : List Char}
    (hp : p ∈ splitOnChar sep l) : ∀ c ∈ p, c ∈ l := by
  induction l generalizing p with
  | nil =>
    simp only [splitOnChar, List.mem_singleton] at hp
    subst hp; intro c hc; simp at hc
  | cons x xs ih =>
    obtain ⟨q, qs, hsp⟩ : ∃ q qs, splitOnChar sep xs = q :: qs := by
      cases h' : splitOnChar sep xs with
      | nil => exact absurd h' (splitOnChar_ne_nil sep xs)
      | cons q qs => exact ⟨q, qs, rfl⟩
    intro c hc
    simp only [splitOnChar, hsp] at hp
    by_cases hx : x = sep
    · rw [if_pos hx] at hp
      rcases List.mem_cons.mp hp with h1 | h1
      · subst h1; simp at hc
      · exact List.mem_cons_of_mem _ (ih (hsp ▸ h1) c hc)
    · rw [if_neg hx] at hp
      rcases List.mem_cons.mp hp with h1 | h1
      · subst h1
        rcases List.mem_cons.mp hc with h2 | h2
        · rw [h2]; exact List.mem_cons_self _ _
        · exact List.mem_cons_of_mem _
            (ih (hsp ▸ List.mem_cons_self q qs) c h2)
      · exact List.mem_cons_of_mem _
          (ih (hsp ▸ List.mem_cons_of_mem _ h1) c hc)

theorem parseSingleSeparator_none_of_no_digit {sep : Char} {clean : List Char}
    (h : ∀ c ∈ clean, ¬ c.isDigit) :
    parseSingleSeparator sep clean = none := by
  unfold parseSingleSeparator
  split
  · exact parseFloatQ_none_of_no_digit
      (fun c hc => h c (List.mem_filter.mp hc).1)
  · split
    · next i f hparts =>
      have hi : ∀ c ∈ i, ¬ c.isDigit := fun c hc =>
        h c (mem_splitOnChar (hparts ▸ List.mem_cons_self i [f]) c hc)
      have hf : ∀ c ∈ f, ¬ c.isDigit := fun c hc =>
        h c (mem_splitOnChar
          (hparts ▸ List.mem_cons_of_mem i (List.mem_singleton.mpr rfl)) c hc)
      split
      · exact parseFloatQ_none_of_no_digit (by
          intro c hc
          rcases List.mem_append.mp hc with h1 | h1
          · exact hi c h1
          · exact hf c h1)
      · split
        · exact parseFloatQ_none_of_no_digit (by
            intro c hc
            rcases List.mem_append.mp hc with h1 | h1
            · exact hi c h1
            · rcases List.mem_cons.mp h1 with h2 | h2
              · rw [h2]; decide
              · exact hf c h2)
        · exact parseFloatQ_none_of_no_digit h
    · exact parseFloatQ_none_of_no_digit h

theorem parseNumberWithSeparators_none_of_no_digit {l : List Char}
    (h : ∀ c ∈ l, ¬ c.isDigit) : parseNumberWithSeparators l = none := by
  have hclean : ∀ c ∈ cleanChars l, ¬ c.isDigit :=
    fun c hc => h c (List.mem_filter.mp hc).1
  unfold parseNumberWithSeparators
  split
  · rfl
  · split
    · exact parseSingleSeparator_none_of_no_digit hclean
    · split
      · exact parseFloatQ_none_of_no_digit
          (fun c hc => hclean c (List.mem_filter.mp hc).1)
      · exact parseFloatQ_none_of_no_digit (by
          intro c hc
          rcases mem_replaceFirst hc with h1 | h1
          · exact hclean c (List.mem_filter.mp h1).1
          · rw [h1]; decide)

theorem normalizePrice_none_of_no_digit {s : String}
    (h : ∀ c ∈ s.data, ¬ c.isDigit) : normalizePrice s = none := by
  have hlow : ∀ c ∈ s.data.map Char.toLower, ¬ c.isDigit := by
    intro c hc
    rcases List.mem_map.mp hc with ⟨d, hd, hdc⟩
    rw [← hdc]
    exact toLower_not_digit (h d hd)
  unfold normalizePrice
  rw [handleIndonesian_none_of_no_digit hlow,
      handleIndonesian_none_of_no_digit hlow,
      parseNumberWithSeparators_none_of_no_digit h]

theorem groupStep_unparseable {sym : String → Option String}
    {acc : List (List Char × GroupedProduct)} {item : ScrapedProduct}
    (h : normalizePrice item.cost = none) : groupStep sym acc item = acc := by
  simp [groupStep, h]

theorem groupAccum_foldl_filter (sym : String → Option String)
    (l : List ScrapedProduct) :
    ∀ acc, l.foldl (groupStep sym) acc =
      (l.filter (fun r => (normalizePrice r.cost).isSome)).foldl (groupStep sym) acc := by
  induction l with
  | nil => intro acc; rfl
  | cons r rs ih =>
    intro acc
    cases hr : normalizePrice r.cost with
    | some v => simp [List.filter_cons, hr, ih]
    | none => simp [List.filter_cons, hr, groupStep_unparseable hr, ih]

/-! ## The grouping invariant (C1, C4) -/

/-- The key `groupProducts` derives for a record with normalized cost `q`. -/
def keyFor (sym : String → Option String) (item : ScrapedProduct) (q : ℚ) :
    List Char :=
  groupKey item.product (effectiveCurrencyOf sym item) q

/-- An accumulator entry was created from some processed record: its
product, resolved currency and cost all come from that record. -/
def witnessProp (sym : String → Option String) (l : List ScrapedProduct)
    (kv : List Char × GroupedProduct) : Prop :=
  ∃ item ∈ l, ∃ q, normalizePrice item.cost = some q ∧
    kv.2.product = item.product ∧ kv.2.currency = effectiveCurrencyOf sym item ∧
    kv.2.cost = q

/-- `n` is the country name of some processed record whose derived key
is `k`. -/
def countryWitness (sym : String → Option String) (l : List ScrapedProduct)
    (k : List Char) (n : String) : Prop :=
  ∃ item ∈ l, ∃ q, normalizePrice item.cost = some q ∧
    keyFor sym item q = k ∧ item.countryName = n

/-- Invariant of the `reduce` accumulator of `groupProducts` after the
records in `l` have been processed. -/
structure GoodAcc (sym : String → Option String) (l : List ScrapedProduct)
    (acc : List (List Char × GroupedProduct)) : Prop where
  nodupKeys : (acc.map Prod.fst).Nodup
  keyOf : ∀ kv ∈ acc, kv.1 = groupKey kv.2.product kv.2.currency kv.2.cost
  source : ∀ kv ∈ acc, witnessProp sym l kv
  cNodup : ∀ kv ∈ acc, kv.2.countries.Nodup
  cNe : ∀ kv ∈ acc, kv.2.countries ≠ []
  cExact : ∀ kv ∈ acc, ∀ n, n ∈ kv.2.countries ↔ countryWitness sym l kv.1 n
  complete : ∀ item ∈ l, ∀ q, normalizePrice item.cost = some q →
    ∃ e, (keyFor sym item q, e) ∈ acc

theorem witnessProp_mono {sym : String → Option String}
    {l l' : List ScrapedProduct} {kv : List Char × GroupedProduct}
    (h : witnessProp sym l kv) : witnessProp sym (l ++ l') kv := by
  obtain ⟨item, hit, q, h1, h2, h3, h4⟩ := h
  exact ⟨item, List.mem_append_left _ hit, q, h1, h2, h3, h4⟩

theorem countryWitness_append_singleton {sym : String → Option String}
    {l : List ScrapedProduct} {item : ScrapedProduct} {k : List Char} {n : String} :
    countryWitness sym (l ++ [item]) k n ↔
      countryWitness sym l k n ∨
        (∃ q, normalizePrice item.cost = some q ∧ keyFor sym item q = k ∧
          item.countryName = n) := by
  constructor
  · rintro ⟨it, hit, q, h1, h2, h3⟩
    rcases List.mem_append.mp hit with hm | hm
    · exact Or.inl ⟨it, hm, q, h1, h2, h3⟩
    · rw [List.mem_singleton] at hm
      subst hm
      exact Or.inr ⟨q, h1, h2, h3⟩
  · rintro (⟨it, hit, q, h1, h2, h3⟩ | ⟨q, h1, h2, h3⟩)
    · exact ⟨it, List.mem_append_left _ hit, q, h1, h2, h3⟩
    · exact ⟨item, List.mem_append_right _ (List.mem_singleton.mpr rfl), q, h1, h2, h3⟩

theorem addCountryName_product (n : String) (e : GroupedProduct) :
    (addCountryName n e).product = e.product := rfl

theorem addCountryName_currency (n : String) (e : GroupedProduct) :
    (addCountryName n e).currency = e.currency := rfl

theorem addCountryName_cost (n : String) (e : GroupedProduct) :
    (addCountryName n e).cost = e.cost := rfl

theorem mem_addCountryName (n m : String) (e : GroupedProduct) :
    m ∈ (addCountryName n e).countries ↔ m ∈ e.countries ∨ m = n := by
  unfold addCountryName
  by_cases hn : n ∈ e.countries
  · rw [if_pos hn]
    simp only []
    constructor
    · exact Or.inl
    · rintro (h | h)
      · exact h
      · exact h ▸ hn
  · rw [if_neg hn]
    simp [List.mem_append]

theorem addCountryName_nodup {n : String} {e : GroupedProduct}
    (h : e.countries.Nodup) : (addCountryName n e).countries.Nodup := by
  unfold addCountryName
  by_cases hn : n ∈ e.countries
  · rw [if_pos hn]; exact h
  · rw [if_neg hn]
    simp only []
    rw [List.nodup_append]
    refine ⟨h, List.nodup_singleton n, ?_⟩
    intro a ha hna
    simp only [List.mem_singleton] at hna
    exact hn (hna ▸ ha)

theorem addCountryName_ne_nil (n : String) (e : GroupedProduct) :
    (addCountryName n e).countries ≠ [] := by
  unfold addCountryName
  by_cases hn : n ∈ e.countries
  · rw [if_pos hn]
    intro he
    rw [he] at hn
    simp at hn
  · rw [if_neg hn]
    simp

theorem groupStep_parseable {sym : String → Option String}
    {acc : List (List Char × GroupedProduct)} {item : ScrapedProduct} {q : ℚ}
    (hq : normalizePrice item.cost = some q) :
    groupStep sym acc item =
      mapUpdate
        (match alookup acc (keyFor sym item q) with
         | some _ => acc
         | none => acc ++ [(keyFor sym item q,
             ⟨item.product, effectiveCurrencyOf sym item, q, []⟩)])
        (keyFor sym item q) (addCountryName item.countryName) := by
  unfold groupStep keyFor
  rw [hq]

theorem normalizePrice_some_unique {s : String} {q q' : ℚ}
    (h : normalizePrice s = some q) (h' : normalizePrice s = some q') : q = q' := by
  rw [h] at h'
  injection h'

theorem groupStep_good {sym : String → Option String} {l : List ScrapedProduct}
    {acc : List (List Char × GroupedProduct)} {item : ScrapedProduct}
    (H : GoodAcc sym l acc) : GoodAcc sym (l ++ [item]) (groupStep sym acc item) := by
  cases hq : normalizePrice item.cost with
  | none =>
    rw [groupStep_unparseable hq]
    refine ⟨H.nodupKeys, H.keyOf, ?_, H.cNodup, H.cNe, ?_, ?_⟩
    · intro kv hkv
      exact witnessProp_mono (H.source kv hkv)
    · intro kv hkv n
      rw [countryWitness_append_singleton]
      constructor
      · intro hn
        exact Or.inl ((H.cExact kv hkv n).mp hn)
      · rintro (hn | ⟨q, hq', _, _⟩)
        · exact (H.cExact kv hkv n).mpr hn
        · rw [hq] at hq'
          exact absurd hq' (by simp)
    · intro it hit q hq'
      rcases List.mem_append.mp hit with h1 | h1
      · exact H.complete it h1 q hq'
      · rw [List.mem_singleton] at h1
        subst h1
        rw [hq] at hq'
        exact absurd hq' (by simp)
  | some q =>
    rw [groupStep_parseable hq]
    cases hl : alookup acc (keyFor sym item q) with
    | some e0 =>
      have hmem0 : (keyFor sym item q, e0) ∈ acc := alookup_mem hl
      refine ⟨?_, ?_, ?_, ?_, ?_, ?_, ?_⟩
      · rw [map_fst_mapUpdate]
        exact H.nodupKeys
      · intro kv hkv
        obtain ⟨k', v'⟩ := kv
        obtain ⟨v, hv, hcase⟩ := mem_mapUpdate_elim hkv
        rcases hcase with ⟨hk, hv'⟩ | ⟨hk, hv'⟩
        · subst hv'
          have := H.keyOf _ hv
          simpa [addCountryName_product, addCountryName_currency,
            addCountryName_cost] using this
        · subst hv'
          exact H.keyOf _ hv
      · intro kv hkv
        obtain ⟨k', v'⟩ := kv
        obtain ⟨v, hv, hcase⟩ := mem_mapUpdate_elim hkv
        rcases hcase with ⟨hk, hv'⟩ | ⟨hk, hv'⟩ <;> subst hv'
        · obtain ⟨it, hit, q0, h1, h2, h3, h4⟩ := H.source _ hv
          exact ⟨it, List.mem_append_left _ hit, q0, h1, h2, h3, h4⟩
        · exact witnessProp_mono (H.source _ hv)
      · intro kv hkv
        obtain ⟨k', v'⟩ := kv
        obtain ⟨v, hv, hcase⟩ := mem_mapUpdate_elim hkv
        rcases hcase with ⟨hk, hv'⟩ | ⟨hk, hv'⟩ <;> subst hv'
        · exact addCountryName_nodup (H.cNodup _ hv)
        · exact H.cNodup _ hv
      · intro kv hkv
        obtain ⟨k', v'⟩ := kv
        obtain ⟨v, hv, hcase⟩ := mem_mapUpdate_elim hkv
        rcases hcase with ⟨hk, hv'⟩ | ⟨hk, hv'⟩ <;> subst hv'
        · exact addCountryName_ne_nil _ _
        · exact H.cNe _ hv
      · intro kv hkv n
        obtain ⟨k', v'⟩ := kv
        obtain ⟨v, hv, hcase⟩ := mem_mapUpdate_elim hkv
        rcases hcase with ⟨hk, hv'⟩ | ⟨hk, hv'⟩ <;> subst hv'
        · subst hk
          simp only [mem_addCountryName]
          rw [countryWitness_append_singleton]
          constructor
          · rintro (hn | hn)
            · exact Or.inl ((H.cExact _ hv n).mp hn)
            · exact Or.inr ⟨q, hq, rfl, hn.symm⟩
          · rintro (hn | ⟨q', hq', hk', hn'⟩)
            · exact Or.inl ((H.cExact _ hv n).mpr hn)
            · exact Or.inr hn'.symm
        · simp only []
          rw [countryWitness_append_singleton]
          constructor
          · intro hn
            exact Or.inl ((H.cExact _ hv n).mp hn)
          · rintro (hn | ⟨q', hq', hk', hn'⟩)
            · exact (H.cExact _ hv n).mpr hn
            · have : q' = q := normalizePrice_some_unique hq' hq
              subst this
              exact absurd hk'.symm hk
      · intro it hit q' hq'
        rcases List.mem_append.mp hit with h1 | h1
        · obtain ⟨e, he⟩ := H.complete it h1 q' hq'
          refine ⟨if keyFor sym it q' = keyFor sym item q
            then addCountryName item.countryName e else e, ?_⟩
          exact mem_mapUpdate_of_mem _ _ he
        · rw [List.mem_singleton] at h1
          subst h1
          have : q' = q := normalizePrice_some_unique hq' hq
          subst this
          refine ⟨addCountryName it.countryName e0, ?_⟩
          have := mem_mapUpdate_of_mem (keyFor sym it q')
            (addCountryName it.countryName) hmem0
          simpa using this
    | none =>
      have hK : keyFor sym item q ∉ acc.map Prod.fst :=
        (alookup_eq_none_iff _ _).mp hl
      rw [mapUpdate_append_singleton _ _ hK]
      have hfresh : addCountryName item.countryName
          ⟨item.product, effectiveCurrencyOf sym item, q, []⟩ =
          ⟨item.product, effectiveCurrencyOf sym item, q, [item.countryName]⟩ := by
        unfold addCountryName
        simp
      rw [hfresh]
      refine ⟨?_, ?_, ?_, ?_, ?_, ?_, ?_⟩
      · rw [List.map_append]
        simp only [List.map_cons, List.map_nil]
        rw [List.nodup_append]
        refine ⟨H.nodupKeys, List.nodup_singleton _, ?_⟩
        intro a ha hna
        simp only [List.mem_singleton] at hna
        exact hK (hna ▸ ha)
      · intro kv hkv
        rcases List.mem_append.mp hkv with h1 | h1
        · exact H.keyOf _ h1
        · rw [List.mem_singleton] at h1
          subst h1
          rfl
      · intro kv hkv
        rcases List.mem_append.mp hkv with h1 | h1
        · exact witnessProp_mono (H.source _ h1)
        · rw [List.mem_singleton] at h1
          subst h1
          exact ⟨item, List.mem_append_right _ (List.mem_singleton.mpr rfl),
            q, hq, rfl, rfl, rfl⟩
      · intro kv hkv
        rcases List.mem_append.mp hkv with h1 | h1
        · exact H.cNodup _ h1
        · rw [List.mem_singleton] at h1
          subst h1
          exact List.nodup_singleton _
      · intro kv hkv
        rcases List.mem_append.mp hkv with h1 | h1
        · exact H.cNe _ h1
        · rw [List.mem_singleton] at h1
          subst h1
          simp
      · intro kv hkv n
        rcases List.mem_append.mp hkv with h1 | h1
        · obtain ⟨k0, v0⟩ := kv
          have hk' : k0 ≠ keyFor sym item q := by
            intro he
            exact hK (he ▸ mem_key_of_mem h1)
          rw [countryWitness_append_singleton]
          constructor
          · intro hn
            exact Or.inl ((H.cExact _ h1 n).mp hn)
          · rintro (hn | ⟨q', hq', hkk, hn'⟩)
            · exact (H.cExact _ h1 n).mpr hn
            · have : q' = q := normalizePrice_some_unique hq' hq
              subst this
              exact absurd hkk.symm hk'
        · rw [List.mem_singleton] at h1
          subst h1
          simp only [List.mem_singleton]
          rw [countryWitness_append_singleton]
          constructor
          · intro hn
            exact Or.inr ⟨q, hq, rfl, hn.symm⟩
          · rintro (⟨it, hit, q', h1, h2, h3⟩ | ⟨q', hq', hkk, hn'⟩)
            · exfalso
              obtain ⟨e, he⟩ := H.complete it hit q' h1
              exact hK (h2 ▸ mem_key_of_mem he)
            · exact hn'.symm
      · intro it hit q' hq'
        rcases List.mem_append.mp hit with h1 | h1
        · obtain ⟨e, he⟩ := H.complete it h1 q' hq'
          exact ⟨e, List.mem_append_left _ he⟩
        · rw [List.mem_singleton] at h1
          subst h1
          have : q' = q := normalizePrice_some_unique hq' hq
          subst this
          exact ⟨_, List.mem_append_right _ (List.mem_singleton.mpr rfl)⟩

theorem goodAcc_nil (sym : String → Option String) : GoodAcc sym [] [] := by
  refine ⟨List.nodup_nil, ?_, ?_, ?_, ?_, ?_, ?_⟩ <;> intro kv hkv <;> simp at hkv

theorem goodAcc_foldl {sym : String → Option String} :
    ∀ (rest : List ScrapedProduct) (l : List ScrapedProduct)
      (acc : List (List Char × GroupedProduct)), GoodAcc sym l acc →
      GoodAcc sym (l ++ rest) (rest.foldl (groupStep sym) acc) := by
  intro rest
  induction rest with
  | nil => intro l acc H; simpa using H
  | cons x xs ih =>
    intro l acc H
    have H1 := @groupStep_good _ _ _ x H
    have H2 := ih (l ++ [x]) _ H1
    rw [List.append_assoc] at H2
    simpa using H2

theorem groupAccum_good (sym : String → Option String) (l : List ScrapedProduct) :
    GoodAcc sym l (groupAccum sym l) := by
  have := goodAcc_foldl l [] [] (goodAcc_nil sym)
  simpa [groupAccum] using this

/-! ## The bucketing invariant -/

/-- Invariant of the final per-product bucketing loop of `groupProducts`
after the entries in `gs` have been bucketed. -/
structure GoodBuckets (gs : List GroupedProduct)
    (out : List (String × List GroupedProduct)) : Prop where
  nodupKeys : (out.map Prod.fst).Nodup
  entries : ∀ pv ∈ out, ∀ e ∈ pv.2, e ∈ gs ∧ e.product = pv.1
  complete : ∀ g ∈ gs, ∃ es, (g.product, es) ∈ out ∧ g ∈ es

theorem goodBuckets_nil : GoodBuckets [] [] := by
  refine ⟨List.nodup_nil, ?_, ?_⟩ <;> intro pv hpv <;> simp at hpv

theorem bucketStep_good {gs : List GroupedProduct}
    {out : List (String × List GroupedProduct)} {g : GroupedProduct}
    (H : GoodBuckets gs out) : GoodBuckets (gs ++ [g]) (bucketStep out g) := by
  unfold bucketStep
  cases hl : alookup out g.product with
  | some es0 =>
    have hmem0 : (g.product, es0) ∈ out := alookup_mem hl
    refine ⟨?_, ?_, ?_⟩
    · rw [map_fst_mapUpdate]
      exact H.nodupKeys
    · intro pv hpv
      obtain ⟨p0, v0⟩ := pv
      obtain ⟨v, hv, hcase⟩ := mem_mapUpdate_elim hpv
      rcases hcase with ⟨hk, hv'⟩ | ⟨hk, hv'⟩ <;> subst hv'
      · intro e he
        rcases List.mem_append.mp he with h1 | h1
        · obtain ⟨h2, h3⟩ := H.entries _ hv e h1
          exact ⟨List.mem_append_left _ h2, h3⟩
        · rw [List.mem_singleton] at h1
          subst h1
          exact ⟨List.mem_append_right _ (List.mem_singleton.mpr rfl), hk.symm⟩
      · intro e he
        obtain ⟨h2, h3⟩ := H.entries _ hv e he
        exact ⟨List.mem_append_left _ h2, h3⟩
    · intro g' hg'
      rcases List.mem_append.mp hg' with h1 | h1
      · obtain ⟨es, hes, hin⟩ := H.complete g' h1
        refine ⟨if g'.product = g.product then es ++ [g] else es, ?_, ?_⟩
        · exact mem_mapUpdate_of_mem _ _ hes
        · by_cases hp : g'.product = g.product
          · rw [if_pos hp]
            exact List.mem_append_left _ hin
          · rw [if_neg hp]
            exact hin
      · rw [List.mem_singleton] at h1
        subst h1
        refine ⟨es0 ++ [g'], ?_, List.mem_append_right _ (List.mem_singleton.mpr rfl)⟩
        have := mem_mapUpdate_of_mem g'.product (fun es => es ++ [g']) hmem0
        simpa using this
  | none =>
    have hK : g.product ∉ out.map Prod.fst := (alookup_eq_none_iff _ _).mp hl
    refine ⟨?_, ?_, ?_⟩
    · rw [List.map_append]
      simp only [List.map_cons, List.map_nil]
      rw [List.nodup_append]
      refine ⟨H.nodupKeys, List.nodup_singleton _, ?_⟩
      intro a ha hna
      simp only [List.mem_singleton] at hna
      exact hK (hna ▸ ha)
    · intro pv hpv
      rcases List.mem_append.mp hpv with h1 | h1
      · intro e he
        obtain ⟨h2, h3⟩ := H.entries _ h1 e he
        exact ⟨List.mem_append_left _ h2, h3⟩
      · rw [List.mem_singleton] at h1
        subst h1
        intro e he
        rw [List.mem_singleton] at he
        subst he
        exact ⟨List.mem_append_right _ (List.mem_singleton.mpr rfl), rfl⟩
    · intro g' hg'
      rcases List.mem_append.mp hg' with h1 | h1
      · obtain ⟨es, hes, hin⟩ := H.complete g' h1
        exact ⟨es, List.mem_append_left _ hes, hin⟩
      · rw [List.mem_singleton] at h1
        subst h1
        exact ⟨[g'], List.mem_append_right _ (List.mem_singleton.mpr rfl),
          List.mem_singleton.mpr rfl⟩

theorem goodBuckets_foldl :
    ∀ (rest gs : List GroupedProduct) (out : List (String × List GroupedProduct)),
      GoodBuckets gs out → GoodBuckets (gs ++ rest) (rest.foldl bucketStep out) := by
  intro rest
  induction rest with
  | nil => intro gs out H; simpa using H
  | cons x xs ih =>
    intro gs out H
    have H2 := ih (gs ++ [x]) _ (bucketStep_good H)
    rw [List.append_assoc] at H2
    simpa using H2

theorem groupProducts_buckets_good (sym : String → Option String)
    (l : List ScrapedProduct) :
    GoodBuckets ((groupAccum sym l).map Prod.snd) (groupProducts sym l) := by
  have := goodBuckets_foldl ((groupAccum sym l).map Prod.snd) [] [] goodBuckets_nil
  simpa [groupProducts] using this

/-- C7: a price string with no digits yields the NaN sentinel (`""` and
`"free"` in particular), and `groupProducts` silently excludes every
record whose cost fails to normalize: its output equals the output on
the sublist of records with parseable costs. -/
theorem normalizePrice_sentinel_and_groupProducts_skip :
    normalizePrice "" = none ∧
    normalizePrice "free" = none ∧
    (∀ s : String, (∀ c ∈ s.data, ¬ c.isDigit) → normalizePrice s = none) ∧
    (∀ (sym : String → Option String) (l : List ScrapedProduct),
      groupProducts sym l =
        groupProducts sym (l.filter (fun r => (normalizePrice r.cost).isSome))) := by
  refine ⟨by decide, by decide, fun s h => normalizePrice_none_of_no_digit h, ?_⟩
  intro sym l
  unfold groupProducts groupAccum
  rw [groupAccum_foldl_filter]

/-- Witness for C7 at the digit-free string `"n/a"` and a concrete
record list containing an unparseable cost. -/
theorem normalizePrice_sentinel_and_groupProducts_skip_witness :
    normalizePrice "n/a" = none ∧
    groupProducts (fun _ => none) [⟨"P", "free", "us", "US", "USD", none⟩] =
      groupProducts (fun _ => none)
        ([⟨"P", "free", "us", "US", "USD", none⟩].filter
          (fun r => (normalizePrice r.cost).isSome)) :=
  ⟨normalizePrice_sentinel_and_groupProducts_skip.2.2.1 "n/a" (by decide),
   normalizePrice_sentinel_and_groupProducts_skip.2.2.2 (fun _ => none) _⟩

theorem alookup_cons {κ α : Type} [DecidableEq κ] (k' : κ) (v : α)
    (m : List (κ × α)) (k : κ) :
    alookup ((k', v) :: m) k = if k' = k then some v else alookup m k := by
  unfold alookup
  rw [List.find?_cons]
  by_cases h : k' = k
  · simp [h]
  · simp [h]

theorem alookup_eq_some_of_mem_nodup {κ α : Type} [DecidableEq κ]
    {m : List (κ × α)} {k : κ} {v : α}
    (hnd : (m.map Prod.fst).Nodup) (h : (k, v) ∈ m) : alookup m k = some v := by
  cases hl : alookup m k with
  | none =>
    rw [alookup_eq_none_iff] at hl
    exact absurd (mem_key_of_mem h) hl
  | some w =>
    have := mem_of_mem_nodup_lookup hnd h (alookup_mem hl)
    rw [this]

theorem effectiveCurrencyOf_tier1 {sym : String → Option String}
    {item : ScrapedProduct} (h : optTruthy (sym item.cost) = true) :
    effectiveCurrencyOf sym item = (sym item.cost).getD "" := by
  unfold effectiveCurrencyOf
  rw [if_pos h]

theorem effectiveCurrencyOf_tier2 {sym : String → Option String}
    {item : ScrapedProduct} (h1 : optTruthy (sym item.cost) = false)
    (h2 : (item.cost.data.contains '$' && optTruthy item.pricingCurrency) = true) :
    effectiveCurrencyOf sym item = item.pricingCurrency.getD "" := by
  unfold effectiveCurrencyOf
  rw [if_neg (by simp [h1]), if_pos h2]

theorem effectiveCurrencyOf_tier3 {sym : String → Option String}
    {item : ScrapedProduct} (h1 : optTruthy (sym item.cost) = false)
    (h2 : (item.cost.data.contains '$' && optTruthy item.pricingCurrency) = false) :
    effectiveCurrencyOf sym item = item.currency := by
  unfold effectiveCurrencyOf
  rw [if_neg (by simp [h1]), if_neg (by rw [h2]; simp)]

/-! ## Separator-analysis lemmas (C2, C3) -/

theorem splitOnChar_of_not_mem {sep : Char} {l : List Char} (h : sep ∉ l) :
    splitOnChar sep l = [l] := by
  induction l with
  | nil => rfl
  | cons x xs ih =>
    have hx : ¬ (x = sep) := fun he => h (he ▸ List.mem_cons_self x xs)
    have hxs : sep ∉ xs := fun hm => h (List.mem_cons_of_mem _ hm)
    simp only [splitOnChar, ih hxs]
    rw [if_neg hx]

theorem splitOnChar_single_occurrence {sep : Char} {i f : List Char}
    (hi : sep ∉ i) (hf : sep ∉ f) :
    splitOnChar sep (i ++ sep :: f) = [i, f] := by
  induction i with
  | nil =>
    simp [List.nil_append, splitOnChar, splitOnChar_of_not_mem hf]
  | cons c cs ih =>
    have hc : ¬ (c = sep) := fun he => hi (he ▸ List.mem_cons_self c cs)
    have hcs : sep ∉ cs := fun hm => hi (List.mem_cons_of_mem _ hm)
    simp only [List.cons_append, splitOnChar, List.append_eq, ih hcs]
    rw [if_neg hc]

theorem length_splitOnChar (sep : Char) (l : List Char) :
    (splitOnChar sep l).length = l.count sep + 1 := by
  induction l with
  | nil => simp [splitOnChar]
  | cons x xs ih =>
    obtain ⟨q, qs, hsp⟩ : ∃ q qs, splitOnChar sep xs = q :: qs := by
      cases h' : splitOnChar sep xs with
      | nil => exact absurd h' (splitOnChar_ne_nil sep xs)
      | cons q qs => exact ⟨q, qs, rfl⟩
    simp only [splitOnChar, hsp]
    rw [hsp] at ih
    simp only [List.length_cons] at ih
    by_cases hx : x = sep
    · subst hx
      rw [if_pos rfl]
      simp only [List.length_cons, List.count_cons_self]
      omega
    · rw [if_neg hx]
      have hxb : (x == sep) = false := by
        simp only [beq_eq_false_iff_ne, ne_eq]; exact hx
      simp [List.count_cons, hxb]
      omega

theorem lastIndexOf_eq_neg_one_of_not_mem {c : Char} {l : List Char}
    (h : c ∉ l) : lastIndexOf c l = -1 := by
  unfold lastIndexOf
  have hn : l.reverse.findIdx? (· == c) = none := by
    rw [List.findIdx?_eq_none_iff]
    intro x hx
    simp only [beq_eq_false_iff_ne, ne_eq]
    exact fun he => h (he ▸ List.mem_reverse.mp hx)
  rw [hn]

theorem lastIndexOf_nonneg_of_mem {c : Char} {l : List Char}
    (h : c ∈ l) : 0 ≤ lastIndexOf c l := by
  unfold lastIndexOf
  obtain ⟨i, hi⟩ : ∃ i, l.reverse.findIdx? (· == c) = some i := by
    cases hf : l.reverse.findIdx? (· == c) with
    | some i => exact ⟨i, rfl⟩
    | none =>
      rw [List.findIdx?_eq_none_iff] at hf
      have := hf c (List.mem_reverse.mpr h)
      simp at this

  rw [hi]
  have hlt : i < l.reverse.length :=
    (List.findIdx?_eq_some_iff_findIdx_eq.mp hi).1
  rw [List.length_reverse] at hlt
  show (0 : Int) ≤ (l.length : Int) - 1 - (i : Int)
  omega

theorem lastIndexOf_mem_iff (c : Char) (l : List Char) :
    lastIndexOf c l = -1 ↔ c ∉ l := by
  constructor
  · intro h hm
    have := lastIndexOf_nonneg_of_mem hm
    omega
  · exact lastIndexOf_eq_neg_one_of_not_mem

theorem isEmpty_false_of_mem {a : Char} {l : List Char} (h : a ∈ l) :
    l.isEmpty = false := by
  cases l with
  | nil => simp at h
  | cons x xs => rfl

theorem normalizePrice_eq_generic {s : String}
    (hjuta : handleIndonesian (s.data.map Char.toLower) ("juta".data) 1000000 = none)
    (hribu : handleIndonesian (s.data.map Char.toLower) ("ribu".data) 1000 = none) :
    normalizePrice s = parseNumberWithSeparators s.data := by
  unfold normalizePrice
  rw [hjuta, hribu]

theorem pnws_no_separator {p : List Char}
    (hdot : '.' ∉ cleanChars p) (hcomma : ',' ∉ cleanChars p) :
    parseNumberWithSeparators p = parseFloatQ (cleanChars p) := by
  unfold parseNumberWithSeparators
  by_cases hempty : (cleanChars p).isEmpty = true
  · rw [if_pos hempty]
    rw [List.isEmpty_iff] at hempty
    rw [hempty]
    rfl
  · rw [if_neg hempty,
        if_pos (Or.inl (lastIndexOf_eq_neg_one_of_not_mem hdot))]
    rw [lastIndexOf_eq_neg_one_of_not_mem hdot]
    rw [if_neg (by omega : ¬ (-1 : Int) > -1)]
    unfold parseSingleSeparator
    rw [splitOnChar_of_not_mem hcomma]
    rfl

theorem pnws_single_thousands {p : List Char} {sep : Char} {i f : List Char}
    (hsep : (sep = '.' ∧ ',' ∉ cleanChars p) ∨ (sep = ',' ∧ '.' ∉ cleanChars p))
    (hclean : cleanChars p = i ++ sep :: f) (hi : sep ∉ i) (hf : sep ∉ f)
    (h3 : f.length = 3) (hne : i ≠ []) :
    parseNumberWithSeparators p = parseFloatQ (i ++ f) := by
  have hmem : sep ∈ cleanChars p := by
    rw [hclean]; exact List.mem_append.mpr (Or.inr (List.mem_cons_self _ _))
  have hempty : ¬ (cleanChars p).isEmpty = true := by
    rw [isEmpty_false_of_mem hmem]; simp
  have hsplit : splitOnChar sep (cleanChars p) = [i, f] := by
    rw [hclean]; exact splitOnChar_single_occurrence hi hf
  have hcond : (f.length = 3 && decide (i.length > 0)) = true := by
    have : i.length > 0 := List.length_pos.mpr hne
    simp [h3, this]
  unfold parseNumberWithSeparators
  rw [if_neg hempty]
  rcases hsep with ⟨hs, hother⟩ | ⟨hs, hother⟩
  · subst hs
    rw [if_pos (Or.inr (lastIndexOf_eq_neg_one_of_not_mem hother))]
    rw [if_pos (by
      have := lastIndexOf_nonneg_of_mem hmem
      omega : lastIndexOf '.' (cleanChars p) > -1)]
    unfold parseSingleSeparator
    rw [hsplit]
    rw [if_neg (by simp : ¬ ([i, f] : List (List Char)).length > 2)]
    simp [hcond]
  · subst hs
    rw [if_pos (Or.inl (lastIndexOf_eq_neg_one_of_not_mem hother))]
    rw [lastIndexOf_eq_neg_one_of_not_mem hother]
    rw [if_neg (by omega : ¬ (-1 : Int) > -1)]
    unfold parseSingleSeparator
    rw [hsplit]
    rw [if_neg (by simp : ¬ ([i, f] : List (List Char)).length > 2)]
    simp [hcond]

theorem pnws_single_decimal {p : List Char} {sep : Char} {i f : List Char}
    (hsep : (sep = '.' ∧ ',' ∉ cleanChars p) ∨ (sep = ',' ∧ '.' ∉ cleanChars p))
    (hclean : cleanChars p = i ++ sep :: f) (hi : sep ∉ i) (hf : sep ∉ f)
    (hnot : ¬ (f.length = 3 ∧ i ≠ [])) :
    parseNumberWithSeparators p = parseFloatQ (i ++ '.' :: f) := by
  have hmem : sep ∈ cleanChars p := by
    rw [hclean]; exact List.mem_append.mpr (Or.inr (List.mem_cons_self _ _))
  have hempty : ¬ (cleanChars p).isEmpty = true := by
    rw [isEmpty_false_of_mem hmem]; simp
  have hsplit : splitOnChar sep (cleanChars p) = [i, f] := by
    rw [hclean]; exact splitOnChar_single_occurrence hi hf
  have hcond : (f.length = 3 && decide (i.length > 0)) = false := by
    by_cases h3 : f.length = 3
    · have : i = [] := by
        by_contra hne
        exact hnot ⟨h3, hne⟩
      subst this
      simp
    · simp [h3]
  unfold parseNumberWithSeparators
  rw [if_neg hempty]
  rcases hsep with ⟨hs, hother⟩ | ⟨hs, hother⟩
  · subst hs
    rw [if_pos (Or.inr (lastIndexOf_eq_neg_one_of_not_mem hother))]
    rw [if_pos (by
      have := lastIndexOf_nonneg_of_mem hmem
      omega : lastIndexOf '.' (cleanChars p) > -1)]
    unfold parseSingleSeparator
    rw [hsplit]
    rw [if_neg (by simp : ¬ ([i, f] : List (List Char)).length > 2)]
    simp only [hcond, Bool.false_eq_true, if_false]
    rw [if_neg (by decide : ¬ ('.' : Char) = ',')]
    rw [hclean]
  · subst hs
    rw [if_pos (Or.inl (lastIndexOf_eq_neg_one_of_not_mem hother))]
    rw [lastIndexOf_eq_neg_one_of_not_mem hother]
    rw [if_neg (by omega : ¬ (-1 : Int) > -1)]
    unfold parseSingleSeparator
    rw [hsplit]
    rw [if_neg (by simp : ¬ ([i, f] : List (List Char)).length > 2)]
    simp only [hcond, Bool.false_eq_true, if_false]
    simp

theorem pnws_many_thousands {p : List Char} {sep : Char}
    (hsep : (sep = '.' ∧ ',' ∉ cleanChars p) ∨ (sep = ',' ∧ '.' ∉ cleanChars p))
    (hcount : 3 ≤ (cleanChars p).count sep) :
    parseNumberWithSeparators p =
      parseFloatQ ((cleanChars p).filter (fun c => ¬ (c = sep))) := by
  have hmem : sep ∈ cleanChars p := List.count_pos_iff.mp (by omega)
  have hempty : ¬ (cleanChars p).isEmpty = true := by
    rw [isEmpty_false_of_mem hmem]; simp
  have hlen : (splitOnChar sep (cleanChars p)).length > 2 := by
    rw [length_splitOnChar]; omega
  unfold parseNumberWithSeparators
  rw [if_neg hempty]
  rcases hsep with ⟨hs, hother⟩ | ⟨hs, hother⟩
  · subst hs
    rw [if_pos (Or.inr (lastIndexOf_eq_neg_one_of_not_mem hother))]
    rw [if_pos (by
      have := lastIndexOf_nonneg_of_mem hmem
      omega : lastIndexOf '.' (cleanChars p) > -1)]
    unfold parseSingleSeparator
    rw [if_pos hlen]
  · subst hs
    rw [if_pos (Or.inl (lastIndexOf_eq_neg_one_of_not_mem hother))]
    rw [lastIndexOf_eq_neg_one_of_not_mem hother]
    rw [if_neg (by omega : ¬ (-1 : Int) > -1)]
    unfold parseSingleSeparator
    rw [if_pos hlen]

theorem pnws_both_dot_last {p : List Char}
    (hdot : '.' ∈ cleanChars p) (hcomma : ',' ∈ cleanChars p)
    (hlt : lastIndexOf ',' (cleanChars p) < lastIndexOf '.' (cleanChars p)) :
    parseNumberWithSeparators p =
      parseFloatQ ((cleanChars p).filter (fun c => ¬ (c = ','))) := by
  have hempty : ¬ (cleanChars p).isEmpty = true := by
    rw [isEmpty_false_of_mem hdot]; simp
  unfold parseNumberWithSeparators
  rw [if_neg hempty]
  rw [if_neg (by
    have h1 := lastIndexOf_nonneg_of_mem hdot
    have h2 := lastIndexOf_nonneg_of_mem hcomma
    push_neg
    constructor <;> omega)]
  rw [if_pos (by omega : lastIndexOf '.' (cleanChars p) > lastIndexOf ',' (cleanChars p))]

theorem pnws_both_comma_last {p : List Char}
    (hdot : '.' ∈ cleanChars p) (hcomma : ',' ∈ cleanChars p)
    (hlt : lastIndexOf '.' (cleanChars p) < lastIndexOf ',' (cleanChars p)) :
    parseNumberWithSeparators p =
      parseFloatQ (replaceFirst ((cleanChars p).filter (fun c => ¬ (c = '.'))) ',' '.') := by
  have hempty : ¬ (cleanChars p).isEmpty = true := by
    rw [isEmpty_false_of_mem hdot]; simp
  unfold parseNumberWithSeparators
  rw [if_neg hempty]
  rw [if_neg (by
    have h1 := lastIndexOf_nonneg_of_mem hdot
    have h2 := lastIndexOf_nonneg_of_mem hcomma
    push_neg
    constructor <;> omega)]
  rw [if_neg (by omega :
    ¬ lastIndexOf '.' (cleanChars p) > lastIndexOf ',' (cleanChars p))]

theorem parseFloatQ_eval {l ip fp : List Char} {n m k : ℕ}
    (h1 : intPart l = ip) (h2 : fracPart (afterInt l) = fp)
    (h3 : (ip.isEmpty && fp.isEmpty) = false)
    (hn : digitsToNat ip = n) (hm : digitsToNat fp = m) (hk : fp.length = k) :
    parseFloatQ l = some ((n : ℚ) + (m : ℚ) / (10 : ℚ) ^ k) := by
  unfold parseFloatQ
  rw [h1, h2, hn, hm, hk]
  simp only [h3, Bool.false_eq_true, if_false]

theorem normalizePrice_juta_eq {s : String} {q : ℚ}
    (hsub : hasSubstr ("juta".data) (s.data.map Char.toLower) = true)
    (hparse : parseFloatQ
      (indoNumberString (takeBefore ("juta".data) (s.data.map Char.toLower))) =
        some q) :
    normalizePrice s = some (q * 1000000) := by
  unfold normalizePrice
  unfold handleIndonesian
  rw [if_pos hsub, hparse]

theorem normalizePrice_ribu_eq {s : String} {q : ℚ}
    (hjuta : handleIndonesian (s.data.map Char.toLower) ("juta".data) 1000000 = none)
    (hsub : hasSubstr ("ribu".data) (s.data.map Char.toLower) = true)
    (hparse : parseFloatQ
      (indoNumberString (takeBefore ("ribu".data) (s.data.map Char.toLower))) =
        some q) :
    normalizePrice s = some (q * 1000) := by
  unfold normalizePrice
  rw [hjuta]
  unfold handleIndonesian
  rw [if_pos hsub, hparse]

/-- C2: outside the locale-suffix pre-pass, `normalizePrice` keeps only
digits, `'.'` and `','` and resolves the separators by position and
count: with a single separator type, 3+ occurrences are thousands
separators (all removed); a single occurrence with exactly 3 digits
after it and a non-empty fragment before it is a thousands separator
(concatenated), otherwise it is the decimal separator; with no
separator the digits are parsed directly; with both types the one
occurring last is the decimal separator and the other is removed
everywhere.  In particular `"€5.399,99" = 5399.99`,
`"R5,399.99" = 5399.99`, `"49.000" = 49000` and `"539,99" = 539.99`. -/
theorem normalizePrice_separator_heuristics :
    (∀ (s : String) (sep : Char),
      handleIndonesian (s.data.map Char.toLower) ("juta".data) 1000000 = none →
      handleIndonesian (s.data.map Char.toLower) ("ribu".data) 1000 = none →
      ((sep = '.' ∧ ',' ∉ cleanChars s.data) ∨
       (sep = ',' ∧ '.' ∉ cleanChars s.data)) →
      3 ≤ (cleanChars s.data).count sep →
      normalizePrice s =
        parseFloatQ ((cleanChars s.data).filter (fun c => ¬ (c = sep)))) ∧
    (∀ (s : String) (sep : Char) (i f : List Char),
      handleIndonesian (s.data.map Char.toLower) ("juta".data) 1000000 = none →
      handleIndonesian (s.data.map Char.toLower) ("ribu".data) 1000 = none →
      ((sep = '.' ∧ ',' ∉ cleanChars s.data) ∨
       (sep = ',' ∧ '.' ∉ cleanChars s.data)) →
      cleanChars s.data = i ++ sep :: f → sep ∉ i → sep ∉ f →
      f.length = 3 → i ≠ [] →
      normalizePrice s = parseFloatQ (i ++ f)) ∧
    (∀ (s : String) (sep : Char) (i f : List Char),
      handleIndonesian (s.data.map Char.toLower) ("juta".data) 1000000 = none →
      handleIndonesian (s.data.map Char.toLower) ("ribu".data) 1000 = none →
      ((sep = '.' ∧ ',' ∉ cleanChars s.data) ∨
       (sep = ',' ∧ '.' ∉ cleanChars s.data)) →
      cleanChars s.data = i ++ sep :: f → sep ∉ i → sep ∉ f →
      ¬ (f.length = 3 ∧ i ≠ []) →
      normalizePrice s = parseFloatQ (i ++ '.' :: f)) ∧
    (∀ (s : String),
      handleIndonesian (s.data.map Char.toLower) ("juta".data) 1000000 = none →
      handleIndonesian (s.data.map Char.toLower) ("ribu".data) 1000 = none →
      '.' ∉ cleanChars s.data → ',' ∉ cleanChars s.data →
      normalizePrice s = parseFloatQ (cleanChars s.data)) ∧
    (∀ (s : String),
      handleIndonesian (s.data.map Char.toLower) ("juta".data) 1000000 = none →
      handleIndonesian (s.data.map Char.toLower) ("ribu".data) 1000 = none →
      '.' ∈ cleanChars s.data → ',' ∈ cleanChars s.data →
      lastIndexOf ',' (cleanChars s.data) < lastIndexOf '.' (cleanChars s.data) →
      normalizePrice s =
        parseFloatQ ((cleanChars s.data).filter (fun c => ¬ (c = ',')))) ∧
    (∀ (s : String),
      handleIndonesian (s.data.map Char.toLower) ("juta".data) 1000000 = none →
      handleIndonesian (s.data.map Char.toLower) ("ribu".data) 1000 = none →
      '.' ∈ cleanChars s.data → ',' ∈ cleanChars s.data →
      lastIndexOf '.' (cleanChars s.data) < lastIndexOf ',' (cleanChars s.data) →
      normalizePrice s =
        parseFloatQ
          (replaceFirst ((cleanChars s.data).filter (fun c => ¬ (c = '.'))) ',' '.')) ∧
    normalizePrice "€5.399,99" = some (5399.99 : ℚ) ∧
    normalizePrice "R5,399.99" = some (5399.99 : ℚ) ∧
    normalizePrice "49.000" = some 49000 ∧
    normalizePrice "539,99" = some (539.99 : ℚ) := by
  have e1 : normalizePrice "€5.399,99" = some (5399.99 : ℚ) := by
    rw [normalizePrice_eq_generic (by decide) (by decide),
        pnws_both_comma_last (by decide) (by decide) (by decide)]
    show parseFloatQ ['5', '3', '9', '9', '.', '9', '9'] = some (5399.99 : ℚ)
    rw [@parseFloatQ_eval ['5', '3', '9', '9', '.', '9', '9']
      ['5', '3', '9', '9'] ['9', '9'] 5399 99 2
      (by decide) (by decide) (by decide) (by decide) (by decide) (by decide)]
    norm_num
  have e2 : normalizePrice "R5,399.99" = some (5399.99 : ℚ) := by
    rw [normalizePrice_eq_generic (by decide) (by decide),
        pnws_both_dot_last (by decide) (by decide) (by decide)]
    show parseFloatQ ['5', '3', '9', '9', '.', '9', '9'] = some (5399.99 : ℚ)
    rw [@parseFloatQ_eval ['5', '3', '9', '9', '.', '9', '9']
      ['5', '3', '9', '9'] ['9', '9'] 5399 99 2
      (by decide) (by decide) (by decide) (by decide) (by decide) (by decide)]
    norm_num
  have e3 : normalizePrice "49.000" = some (49000 : ℚ) := by
    rw [normalizePrice_eq_generic (by decide) (by decide),
        @pnws_single_thousands ("49.000".data) '.' ['4', '9'] ['0', '0', '0']
          (Or.inl ⟨rfl, by decide⟩) (by decide) (by decide) (by decide)
          (by decide) (by decide)]
    show parseFloatQ ['4', '9', '0', '0', '0'] = some (49000 : ℚ)
    rw [@parseFloatQ_eval ['4', '9', '0', '0', '0'] ['4', '9', '0', '0', '0'] []
      49000 0 0
      (by decide) (by decide) (by decide) (by decide) (by decide) (by decide)]
    norm_num
  have e4 : normalizePrice "539,99" = some (539.99 : ℚ) := by
    rw [normalizePrice_eq_generic (by decide) (by decide),
        @pnws_single_decimal ("539,99".data) ',' ['5', '3', '9'] ['9', '9']
          (Or.inr ⟨rfl, by decide⟩) (by decide) (by decide) (by decide)
          (by decide)]
    show parseFloatQ ['5', '3', '9', '.', '9', '9'] = some (539.99 : ℚ)
    rw [@parseFloatQ_eval ['5', '3', '9', '.', '9', '9'] ['5', '3', '9'] ['9', '9']
      539 99 2
      (by decide) (by decide) (by decide) (by decide) (by decide) (by decide)]
    norm_num
  refine ⟨?_, ?_, ?_, ?_, ?_, ?_, e1, e2, e3, e4⟩
  · intro s sep hj hr hsep hcount
    rw [normalizePrice_eq_generic hj hr]
    exact pnws_many_thousands hsep hcount
  · intro s sep i f hj hr hsep hclean hi hf h3 hne
    rw [normalizePrice_eq_generic hj hr]
    exact pnws_single_thousands hsep hclean hi hf h3 hne
  · intro s sep i f hj hr hsep hclean hi hf hnot
    rw [normalizePrice_eq_generic hj hr]
    exact pnws_single_decimal hsep hclean hi hf hnot
  · intro s hj hr hdot hcomma
    rw [normalizePrice_eq_generic hj hr]
    exact pnws_no_separator hdot hcomma
  · intro s hj hr hdot hcomma hlt
    rw [normalizePrice_eq_generic hj hr]
    exact pnws_both_dot_last hdot hcomma hlt
  · intro s hj hr hdot hcomma hlt
    rw [normalizePrice_eq_generic hj hr]
    exact pnws_both_comma_last hdot hcomma hlt

/-- Witness for C2, applying the single-occurrence thousands clause at
`"49.000"` with fragments `"49"` and `"000"`. -/
theorem normalizePrice_separator_heuristics_witness :
    normalizePrice "49.000" = parseFloatQ (['4', '9'] ++ ['0', '0', '0']) :=
  normalizePrice_separator_heuristics.2.1 "49.000" '.' ['4', '9'] ['0', '0', '0']
    (by decide) (by decide) (Or.inl ⟨rfl, by decide⟩) (by decide) (by decide)
    (by decide) (by decide) (by decide)

/-- C3: a price whose lower-cased form contains `juta` or `ribu` is
parsed from the text before the token (dots stripped, comma turned into
the decimal point) and multiplied by 1000000 resp. 1000; the branch
takes precedence over the generic separator parser whenever that prefix
parses.  In particular `"Rp 75ribu" = 75000`, `"Rp 2,5juta" = 2500000`. -/
theorem normalizePrice_indonesian_suffix :
    (∀ (s : String) (q : ℚ),
      hasSubstr ("juta".data) (s.data.map Char.toLower) = true →
      parseFloatQ
        (indoNumberString (takeBefore ("juta".data) (s.data.map Char.toLower))) =
          some q →
      normalizePrice s = some (q * 1000000)) ∧
    (∀ (s : String) (q : ℚ),
      handleIndonesian (s.data.map Char.toLower) ("juta".data) 1000000 = none →
      hasSubstr ("ribu".data) (s.data.map Char.toLower) = true →
      parseFloatQ
        (indoNumberString (takeBefore ("ribu".data) (s.data.map Char.toLower))) =
          some q →
      normalizePrice s = some (q * 1000)) ∧
    normalizePrice "Rp 75ribu" = some 75000 ∧
    normalizePrice "Rp 2,5juta" = some 2500000 := by
  have hp75 : parseFloatQ
      (indoNumberString (takeBefore ("ribu".data) ("Rp 75ribu".data.map Char.toLower))) =
      some ((75 : ℚ) + (0 : ℚ) / (10 : ℚ) ^ 0) := by
    show parseFloatQ ['7', '5'] = some ((75 : ℚ) + (0 : ℚ) / (10 : ℚ) ^ 0)
    exact @parseFloatQ_eval ['7', '5'] ['7', '5'] [] 75 0 0
      (by decide) (by decide) (by decide) (by decide) (by decide) (by decide)
  have e1 : normalizePrice "Rp 75ribu" = some (75000 : ℚ) := by
    rw [normalizePrice_ribu_eq (by decide) (by decide) hp75]
    norm_num
  have hp25 : parseFloatQ
      (indoNumberString (takeBefore ("juta".data) ("Rp 2,5juta".data.map Char.toLower))) =
      some ((2 : ℚ) + (5 : ℚ) / (10 : ℚ) ^ 1) := by
    show parseFloatQ ['2', '.', '5'] = some ((2 : ℚ) + (5 : ℚ) / (10 : ℚ) ^ 1)
    exact @parseFloatQ_eval ['2', '.', '5'] ['2'] ['5'] 2 5 1
      (by decide) (by decide) (by decide) (by decide) (by decide) (by decide)
  have e2 : normalizePrice "Rp 2,5juta" = some (2500000 : ℚ) := by
    rw [normalizePrice_juta_eq (by decide) hp25]
    norm_num
  exact ⟨fun s q hsub hparse => normalizePrice_juta_eq hsub hparse,
         fun s q hjuta hsub hparse => normalizePrice_ribu_eq hjuta hsub hparse,
         e1, e2⟩

/-- Witness for C3, applying the `juta` clause at `"Rp 2,5juta"`. -/
theorem normalizePrice_indonesian_suffix_witness :
    normalizePrice "Rp 2,5juta" = some (((2 : ℚ) + (5 : ℚ) / (10 : ℚ) ^ 1) * 1000000) :=
  normalizePrice_indonesian_suffix.1 "Rp 2,5juta" ((2 : ℚ) + (5 : ℚ) / (10 : ℚ) ^ 1)
    (by decide)
    (by
      show parseFloatQ ['2', '.', '5'] = some ((2 : ℚ) + (5 : ℚ) / (10 : ℚ) ^ 1)
      exact @parseFloatQ_eval ['2', '.', '5'] ['2'] ['5'] 2 5 1
        (by decide) (by decide) (by decide) (by decide) (by decide) (by decide))


theorem normalizePrice_one_eval :
    normalizePrice "1" = some ((1 : ℚ) + (0 : ℚ) / (10 : ℚ) ^ 0) := by
  rw [normalizePrice_eq_generic (by decide) (by decide),
      pnws_no_separator (by decide) (by decide)]
  show parseFloatQ ['1'] = _
  exact @parseFloatQ_eval ['1'] ['1'] [] 1 0 0
    (by decide) (by decide) (by decide) (by decide) (by decide) (by decide)

theorem normalizePrice_seven_eval :
    normalizePrice "7" = some ((7 : ℚ) + (0 : ℚ) / (10 : ℚ) ^ 0) := by
  rw [normalizePrice_eq_generic (by decide) (by decide),
      pnws_no_separator (by decide) (by decide)]
  show parseFloatQ ['7'] = _
  exact @parseFloatQ_eval ['7'] ['7'] [] 7 0 0
    (by decide) (by decide) (by decide) (by decide) (by decide) (by decide)

/-! ## The cost rendering: factor stripping and digit algebra -/

theorem stripFactor_spec {p : ℕ} (hp : 2 ≤ p) :
    ∀ fuel n, 1 ≤ n → n ≤ fuel →
      n = p ^ (stripFactor p fuel n).1 * (stripFactor p fuel n).2 ∧
      ¬ p ∣ (stripFactor p fuel n).2 ∧ 1 ≤ (stripFactor p fuel n).2 := by
  intro fuel
  induction fuel with
  | zero => intro n h1 h2; omega
  | succ f ih =>
    intro n h1 h2
    by_cases hdvd : p ∣ n
    · have hcond : 2 ≤ p ∧ p ∣ n ∧ n ≠ 0 := ⟨hp, hdvd, by omega⟩
      simp only [stripFactor, if_pos hcond]
      have hnp1 : 1 ≤ n / p :=
        (Nat.one_le_div_iff (by omega)).mpr (Nat.le_of_dvd (by omega) hdvd)
      have hnpf : n / p ≤ f := by
        have := Nat.div_lt_self (show 0 < n by omega) (show 1 < p by omega)
        omega
      obtain ⟨ha, hb, hc⟩ := ih (n / p) hnp1 hnpf
      refine ⟨?_, hb, hc⟩
      have hnn : p * (n / p) = n := Nat.mul_div_cancel' hdvd
      calc n = p * (n / p) := hnn.symm
        _ = p * (p ^ (stripFactor p f (n / p)).1 * (stripFactor p f (n / p)).2) := by
              rw [← ha]
        _ = p ^ ((stripFactor p f (n / p)).1 + 1) * (stripFactor p f (n / p)).2 := by
              ring
    · have hcond : ¬ (2 ≤ p ∧ p ∣ n ∧ n ≠ 0) := fun h => hdvd h.2.1
      simp only [stripFactor, if_neg hcond]
      exact ⟨by simp, hdvd, h1⟩

theorem digitsToNat_foldl_init (init : ℕ) :
    ∀ l : List Char, l.foldl (fun a c => 10 * a + (c.toNat - 48)) init =
      init * 10 ^ l.length + digitsToNat l := by
  intro l
  induction l generalizing init with
  | nil => simp [digitsToNat]
  | cons c cs ih =>
    have hd : digitsToNat (c :: cs) = (c.toNat - 48) * 10 ^ cs.length + digitsToNat cs := by
      show List.foldl (fun a c => 10 * a + (c.toNat - 48)) (10 * 0 + (c.toNat - 48)) cs = _
      rw [ih (10 * 0 + (c.toNat - 48))]
      ring_nf
    show List.foldl (fun a c => 10 * a + (c.toNat - 48)) (10 * init + (c.toNat - 48)) cs = _
    rw [ih (10 * init + (c.toNat - 48)), hd]
    simp [List.length_cons]
    ring

theorem digitsToNat_append (a b : List Char) :
    digitsToNat (a ++ b) = digitsToNat a * 10 ^ b.length + digitsToNat b := by
  unfold digitsToNat
  rw [List.foldl_append]
  exact digitsToNat_foldl_init _ b

theorem digitsToNat_replicate_zero (k : ℕ) :
    digitsToNat (List.replicate k '0') = 0 := by
  induction k with
  | zero => rfl
  | succ j ih =>
    rw [List.replicate_succ]
    show List.foldl (fun a c => 10 * a + (c.toNat - 48)) (10 * 0 + ('0'.toNat - 48))
      (List.replicate j '0') = 0
    have h0 : 10 * 0 + ('0'.toNat - 48) = 0 := by decide
    rw [h0]
    exact ih

theorem natToCharsAux_ne_nil (fuel n : ℕ) : natToCharsAux (fuel + 1) n ≠ [] := by
  unfold natToCharsAux
  split
  · simp
  · simp

theorem natToChars_ne_nil (n : ℕ) : natToChars n ≠ [] := natToCharsAux_ne_nil n n

theorem natToCharsAux_length_bounds :
    ∀ fuel n, n < fuel → 1 ≤ n →
      10 ^ ((natToCharsAux fuel n).length - 1) ≤ n ∧
      n < 10 ^ (natToCharsAux fuel n).length ∧ 1 ≤ (natToCharsAux fuel n).length := by
  intro fuel
  induction fuel with
  | zero => intro n h1 h2; omega
  | succ f ih =>
    intro n h1 h2
    unfold natToCharsAux
    by_cases hn : n < 10
    · rw [if_pos hn]
      simp only [List.length_cons, List.length_nil]
      refine ⟨by simpa using h2, by simpa using hn, le_refl 1⟩
    · rw [if_neg hn]
      have hd1 : 1 ≤ n / 10 := (Nat.one_le_div_iff (by omega)).mpr (by omega)
      have hdf : n / 10 < f := by
        have := Nat.div_lt_self (show 0 < n by omega) (show 1 < 10 by omega)
        omega
      obtain ⟨hlo, hhi, hlen⟩ := ih (n / 10) hdf hd1
      rw [List.length_append]
      simp only [List.length_cons, List.length_nil]
      refine ⟨?_, ?_, by omega⟩
      · have he : (natToCharsAux f (n / 10)).length + 1 - 1 =
            ((natToCharsAux f (n / 10)).length - 1) + 1 := by omega
        rw [he, pow_succ]
        calc 10 ^ ((natToCharsAux f (n / 10)).length - 1) * 10 ≤ (n / 10) * 10 :=
              Nat.mul_le_mul_right 10 hlo
          _ ≤ n := by
              have := Nat.div_mul_le_self n 10
              omega
      · rw [pow_succ]
        calc n < (n / 10 + 1) * 10 := by
              have := Nat.div_add_mod n 10
              have := Nat.mod_lt n (show 0 < 10 by omega)
              omega
          _ ≤ 10 ^ (natToCharsAux f (n / 10)).length * 10 :=
              Nat.mul_le_mul_right 10 (by omega)

theorem natToChars_length_bounds {s : ℕ} (hs : 1 ≤ s) :
    10 ^ ((natToChars s).length - 1) ≤ s ∧ s < 10 ^ (natToChars s).length ∧
      1 ≤ (natToChars s).length :=
  natToCharsAux_length_bounds (s + 1) s (by omega) hs

theorem dot_not_mem_natToChars (n : ℕ) : '.' ∉ natToChars n := by
  intro hm
  have := natToChars_digits n '.' hm
  simp at this

theorem dot_not_mem_replicate_zero (k : ℕ) : '.' ∉ List.replicate k '0' := by
  intro hm
  have := List.eq_of_mem_replicate hm
  simp at this

theorem digitsToNat_natToChars (n : ℕ) : digitsToNat (natToChars n) = n :=
  digitsToNat_natToCharsAux (n + 1) n (by omega)

theorem decVal_plain {l : List Char} (h : '.' ∉ l) :
    decVal l = (digitsToNat l : ℚ) := by
  unfold decVal
  rw [splitOnChar_of_not_mem h]

theorem decVal_dotted {A B : List Char} (hA : '.' ∉ A) (hB : '.' ∉ B) :
    decVal (A ++ '.' :: B) =
      (digitsToNat A : ℚ) + (digitsToNat B : ℚ) / (10 : ℚ) ^ B.length := by
  unfold decVal
  rw [splitOnChar_single_occurrence hA hB]

theorem jsRender_int {s : ℕ} {e : ℤ} (h1 : 0 ≤ e)
    (h2 : ((natToChars s).length : ℤ) + e ≤ 21) :
    jsRender s e = natToChars s ++ List.replicate e.toNat '0' := by
  unfold jsRender
  rw [if_pos ⟨h1, h2⟩]

theorem jsRender_point {s : ℕ} {e : ℤ} (h1 : e < 0)
    (h2 : 0 < ((natToChars s).length : ℤ) + e)
    (h3 : ((natToChars s).length : ℤ) + e ≤ 21) :
    jsRender s e =
      (natToChars s).take (((natToChars s).length : ℤ) + e).toNat ++
        '.' :: (natToChars s).drop (((natToChars s).length : ℤ) + e).toNat := by
  unfold jsRender
  rw [if_neg (by omega), if_pos ⟨h2, h3⟩]

theorem jsRender_small {s : ℕ} {e : ℤ}
    (h1 : -6 < ((natToChars s).length : ℤ) + e)
    (h2 : ((natToChars s).length : ℤ) + e ≤ 0) :
    jsRender s e =
      '0' :: '.' :: (List.replicate (-(((natToChars s).length : ℤ) + e)).toNat '0' ++
        natToChars s) := by
  have hK : 0 < (natToChars s).length := List.length_pos.mpr (natToChars_ne_nil s)
  unfold jsRender
  rw [if_neg (by omega), if_neg (by omega), if_pos ⟨h1, h2⟩]

theorem decVal_int {s : ℕ} {e : ℤ} (h1 : 0 ≤ e)
    (h2 : ((natToChars s).length : ℤ) + e ≤ 21) :
    decVal (jsRender s e) = (s : ℚ) * (10 : ℚ) ^ e := by
  rw [jsRender_int h1 h2]
  have hdot : '.' ∉ natToChars s ++ List.replicate e.toNat '0' := by
    intro hm
    rcases List.mem_append.mp hm with h | h
    · exact dot_not_mem_natToChars s h
    · exact dot_not_mem_replicate_zero _ h
  rw [decVal_plain hdot, digitsToNat_append, digitsToNat_replicate_zero,
      digitsToNat_natToChars, List.length_replicate]
  have h10 : (10 : ℚ) ^ e = (10 : ℚ) ^ e.toNat := by
    rw [← zpow_natCast, Int.toNat_of_nonneg h1]
  rw [h10]
  push_cast
  ring

theorem decVal_point {s : ℕ} {e : ℤ} (h1 : e < 0)
    (h2 : 0 < ((natToChars s).length : ℤ) + e)
    (h3 : ((natToChars s).length : ℤ) + e ≤ 21) :
    decVal (jsRender s e) = (s : ℚ) * (10 : ℚ) ^ e := by
  rw [jsRender_point h1 h2 h3]
  have hA : '.' ∉ (natToChars s).take (((natToChars s).length : ℤ) + e).toNat :=
    fun hm => dot_not_mem_natToChars s (List.mem_of_mem_take hm)
  have hB : '.' ∉ (natToChars s).drop (((natToChars s).length : ℤ) + e).toNat :=
    fun hm => dot_not_mem_natToChars s (List.mem_of_mem_drop hm)
  rw [decVal_dotted hA hB]
  have hsplit := digitsToNat_append
    ((natToChars s).take (((natToChars s).length : ℤ) + e).toNat)
    ((natToChars s).drop (((natToChars s).length : ℤ) + e).toNat)
  rw [List.take_append_drop, digitsToNat_natToChars] at hsplit
  have hlen : ((natToChars s).drop (((natToChars s).length : ℤ) + e).toNat).length =
      (-e).toNat := by
    rw [List.length_drop]
    omega
  rw [hlen] at hsplit ⊢
  have h10 : (10 : ℚ) ^ e = ((10 : ℚ) ^ (-e).toNat)⁻¹ := by
    rw [← zpow_natCast, Int.toNat_of_nonneg (by omega : (0 : ℤ) ≤ -e), zpow_neg, inv_inv]
  have hsq : (s : ℚ) =
      (digitsToNat ((natToChars s).take (((natToChars s).length : ℤ) + e).toNat) : ℚ) *
        (10 : ℚ) ^ (-e).toNat +
      (digitsToNat ((natToChars s).drop (((natToChars s).length : ℤ) + e).toNat) : ℚ) := by
    exact_mod_cast hsplit
  rw [h10, hsq]
  have hne : ((10 : ℚ) ^ (-e).toNat) ≠ 0 := by positivity
  field_simp

theorem decVal_small {s : ℕ} {e : ℤ}
    (h1 : -6 < ((natToChars s).length : ℤ) + e)
    (h2 : ((natToChars s).length : ℤ) + e ≤ 0) :
    decVal (jsRender s e) = (s : ℚ) * (10 : ℚ) ^ e := by
  rw [jsRender_small h1 h2]
  have hB : '.' ∉ List.replicate (-(((natToChars s).length : ℤ) + e)).toNat '0' ++
      natToChars s := by
    intro hm
    rcases List.mem_append.mp hm with h | h
    · exact dot_not_mem_replicate_zero _ h
    · exact dot_not_mem_natToChars s h
  have hform : ('0' :: '.' ::
      (List.replicate (-(((natToChars s).length : ℤ) + e)).toNat '0' ++ natToChars s)) =
      ['0'] ++ '.' ::
      (List.replicate (-(((natToChars s).length : ℤ) + e)).toNat '0' ++ natToChars s) := rfl
  rw [hform, decVal_dotted (by decide) hB, digitsToNat_append,
      digitsToNat_replicate_zero, digitsToNat_natToChars, List.length_append,
      List.length_replicate]
  have hd0 : digitsToNat ['0'] = 0 := by decide
  rw [hd0]
  have hlen : (-(((natToChars s).length : ℤ) + e)).toNat + (natToChars s).length =
      (-e).toNat := by omega
  rw [hlen]
  have h10 : (10 : ℚ) ^ e = ((10 : ℚ) ^ (-e).toNat)⁻¹ := by
    have hK : 0 < (natToChars s).length := List.length_pos.mpr (natToChars_ne_nil s)
    rw [← zpow_natCast, Int.toNat_of_nonneg (by omega : (0 : ℤ) ≤ -e), zpow_neg, inv_inv]
  rw [h10]
  have hne : ((10 : ℚ) ^ (-e).toNat) ≠ 0 := by positivity
  push_cast
  field_simp

theorem decVal_jsRender {s : ℕ} {e : ℤ}
    (hlow : -6 < ((natToChars s).length : ℤ) + e)
    (hhigh : ((natToChars s).length : ℤ) + e ≤ 21) :
    decVal (jsRender s e) = (s : ℚ) * (10 : ℚ) ^ e := by
  by_cases h0 : 0 ≤ e
  · exact decVal_int h0 hhigh
  · by_cases hn : 0 < ((natToChars s).length : ℤ) + e
    · exact decVal_point (by omega) hn hhigh
    · exact decVal_small hlow (by omega)

theorem dash_not_mem_jsRender {s : ℕ} {e : ℤ}
    (hlow : -6 < ((natToChars s).length : ℤ) + e)
    (hhigh : ((natToChars s).length : ℤ) + e ≤ 21) :
    '-' ∉ jsRender s e := by
  by_cases h0 : 0 ≤ e
  · rw [jsRender_int h0 hhigh]
    intro hm
    rcases List.mem_append.mp hm with h | h
    · exact absurd (natToChars_digits s '-' h) (by decide)
    · exact absurd (List.eq_of_mem_replicate h) (by decide)
  · by_cases hn : 0 < ((natToChars s).length : ℤ) + e
    · rw [jsRender_point (by omega) hn hhigh]
      intro hm
      rcases List.mem_append.mp hm with h | h
      · exact absurd (natToChars_digits s '-' (List.mem_of_mem_take h)) (by decide)
      · rcases List.mem_cons.mp h with h' | h'
        · exact absurd h' (by decide)
        · exact absurd (natToChars_digits s '-' (List.mem_of_mem_drop h')) (by decide)
    · rw [jsRender_small hlow (by omega)]
      intro hm
      rcases List.mem_cons.mp hm with h | h
      · exact absurd h (by decide)
      · rcases List.mem_cons.mp h with h' | h'
        · exact absurd h' (by decide)
        · rcases List.mem_append.mp h' with h2 | h2
          · exact absurd (List.eq_of_mem_replicate h2) (by decide)
          · exact absurd (natToChars_digits s '-' h2) (by decide)

theorem decomp_unique_le {s t : ℕ} {e f : ℤ} (ht10 : ¬ 10 ∣ t) (hef : f ≤ e)
    (h : (s : ℚ) * (10 : ℚ) ^ e = (t : ℚ) * (10 : ℚ) ^ f) : s = t ∧ e = f := by
  have h10 : (10 : ℚ) ≠ 0 := by norm_num
  have hf0 : (10 : ℚ) ^ f ≠ 0 := zpow_ne_zero f h10
  have he : e = f + ((e - f).toNat : ℤ) := by omega
  have hsd : (s : ℚ) * (10 : ℚ) ^ (e - f).toNat = (t : ℚ) := by
    refine mul_right_cancel₀ hf0 ?_
    rw [mul_assoc, mul_comm ((10 : ℚ) ^ (e - f).toNat) ((10 : ℚ) ^ f),
        ← zpow_natCast (10 : ℚ) (e - f).toNat, ← zpow_add₀ h10, ← he]
    exact h
  have hnat : s * 10 ^ (e - f).toNat = t := by exact_mod_cast hsd
  by_cases hd : (e - f).toNat = 0
  · rw [hd] at hnat
    simp at hnat
    exact ⟨hnat, by omega⟩
  · exfalso
    refine ht10 ?_
    rw [← hnat]
    exact Dvd.dvd.mul_left (dvd_pow_self 10 hd) s

theorem decomp_unique {s t : ℕ} {e f : ℤ} (hs10 : ¬ 10 ∣ s) (ht10 : ¬ 10 ∣ t)
    (h : (s : ℚ) * (10 : ℚ) ^ e = (t : ℚ) * (10 : ℚ) ^ f) : s = t ∧ e = f := by
  rcases le_total f e with hef | hef
  · exact decomp_unique_le ht10 hef h
  · obtain ⟨h1, h2⟩ := decomp_unique_le hs10 hef h.symm
    exact ⟨h1.symm, h2.symm⟩

theorem decimal_den_facts {d : ℕ} (hd : 1 ≤ d) {j : ℕ} (hdvd : d ∣ 10 ^ j) :
    (stripFactor 5 (stripFactor 2 d d).2 (stripFactor 2 d d).2).2 = 1 ∧
    d ∣ 10 ^ decExpOf d := by
  obtain ⟨h2eq, h2nd, h2ge⟩ :=
    stripFactor_spec (p := 2) (by norm_num) d d hd (le_refl d)
  obtain ⟨h5eq, h5nd, h5ge⟩ := stripFactor_spec (p := 5) (by norm_num)
    (stripFactor 2 d d).2 (stripFactor 2 d d).2 h2ge (le_refl _)
  have hr5r2 : (stripFactor 5 (stripFactor 2 d d).2 (stripFactor 2 d d).2).2 ∣
      (stripFactor 2 d d).2 :=
    ⟨5 ^ (stripFactor 5 (stripFactor 2 d d).2 (stripFactor 2 d d).2).1,
      by conv_lhs => rw [h5eq]
         ring⟩
  have hr5d : (stripFactor 5 (stripFactor 2 d d).2 (stripFactor 2 d d).2).2 ∣ d := by
    conv_rhs => rw [h2eq]
    exact Dvd.dvd.mul_left hr5r2 _
  have h2r5 : ¬ 2 ∣ (stripFactor 5 (stripFactor 2 d d).2 (stripFactor 2 d d).2).2 :=
    fun hdv => h2nd (dvd_trans hdv hr5r2)
  have hco : Nat.Coprime (stripFactor 5 (stripFactor 2 d d).2 (stripFactor 2 d d).2).2
      (10 ^ j) := by
    have c2 : Nat.Coprime (stripFactor 5 (stripFactor 2 d d).2 (stripFactor 2 d d).2).2 2 :=
      Nat.coprime_comm.mp ((Nat.prime_two.coprime_iff_not_dvd).mpr h2r5)
    have c5 : Nat.Coprime (stripFactor 5 (stripFactor 2 d d).2 (stripFactor 2 d d).2).2 5 :=
      Nat.coprime_comm.mp ((Nat.prime_five.coprime_iff_not_dvd).mpr h5nd)
    have c10 : Nat.Coprime (stripFactor 5 (stripFactor 2 d d).2 (stripFactor 2 d d).2).2 10 := by
      have h25 : (10 : ℕ) = 2 * 5 := by norm_num
      rw [h25]
      exact Nat.Coprime.mul_right c2 c5
    exact Nat.Coprime.pow_right j c10
  have hr5 : (stripFactor 5 (stripFactor 2 d d).2 (stripFactor 2 d d).2).2 = 1 :=
    hco.eq_one_of_dvd (hr5d.trans hdvd)
  refine ⟨hr5, ?_⟩
  have hd2 : d = 2 ^ (stripFactor 2 d d).1 *
      5 ^ (stripFactor 5 (stripFactor 2 d d).2 (stripFactor 2 d d).2).1 := by
    conv_lhs => rw [h2eq]
    conv_lhs => rw [h5eq]
    rw [hr5, mul_one]
  have hsplit : d ∣ 2 ^ decExpOf d * 5 ^ decExpOf d := by
    conv_lhs => rw [hd2]
    unfold decExpOf
    exact Nat.mul_dvd_mul (pow_dvd_pow 2 (le_max_left _ _))
      (pow_dvd_pow 5 (le_max_right _ _))
  have h10 : (10 : ℕ) ^ decExpOf d = 2 ^ decExpOf d * 5 ^ decExpOf d := by
    rw [← Nat.mul_pow]
  rw [h10]
  exact hsplit

theorem jsNumChars_eq_jsRender {q : ℚ} {s : ℕ} {e : ℤ} (h10s : ¬ 10 ∣ s)
    (hq : q = (s : ℚ) * (10 : ℚ) ^ e) (hs : 1 ≤ s) :
    jsNumChars q = jsRender s e := by
  have hq10 : (10 : ℚ) ≠ 0 := by norm_num
  have hqpos : 0 < q := by
    rw [hq]
    have hs' : (0 : ℚ) < (s : ℚ) := by exact_mod_cast (by omega : 0 < s)
    exact mul_pos hs' (zpow_pos (by norm_num) e)
  have hnum : 0 < q.num := Rat.num_pos.mpr hqpos
  have hden : q.den ∣ 10 ^ e.natAbs := by
    rcases le_or_lt 0 e with he | he
    · have hcast : q = ((s * 10 ^ e.toNat : ℕ) : ℚ) := by
        rw [hq]
        push_cast
        rw [← zpow_natCast (10 : ℚ) e.toNat, Int.toNat_of_nonneg he]
      rw [hcast, Rat.den_natCast]
      exact one_dvd _
    · have hk : (10 : ℚ) ^ e = ((10 : ℚ) ^ (-e).toNat)⁻¹ := by
        rw [← zpow_natCast, Int.toNat_of_nonneg (by omega : (0 : ℤ) ≤ -e),
            zpow_neg, inv_inv]
      have hq2 : q = Rat.divInt (s : ℤ) ((10 : ℤ) ^ (-e).toNat) := by
        rw [Rat.divInt_eq_div, hq, hk]
        push_cast
        rw [div_eq_mul_inv]
      have hdint := Rat.den_dvd (s : ℤ) ((10 : ℤ) ^ (-e).toNat)
      rw [← hq2] at hdint
      have hnat : q.den ∣ 10 ^ (-e).toNat := by
        have h' : (q.den : ℤ) ∣ ((10 ^ (-e).toNat : ℕ) : ℤ) := by
          push_cast
          exact hdint
        exact_mod_cast h'
      have hna : e.natAbs = (-e).toNat := by omega
      rw [hna]
      exact hnat
  obtain ⟨hdec1, hdecdvd⟩ := decimal_den_facts (Rat.den_pos q) hden
  have hdvdN : q.den ∣ q.num.natAbs * 10 ^ decExpOf q.den :=
    Dvd.dvd.mul_left hdecdvd _
  have hden0 : ((q.den : ℚ)) ≠ 0 := by
    exact_mod_cast (Rat.den_pos q).ne'
  have hNcast : ((q.num.natAbs * 10 ^ decExpOf q.den / q.den : ℕ) : ℚ) =
      q * (10 : ℚ) ^ decExpOf q.den := by
    rw [Nat.cast_div hdvdN hden0]
    push_cast [Int.cast_natAbs]
    rw [abs_of_pos (show (0 : ℚ) < ((q.num : ℤ) : ℚ) by exact_mod_cast hnum)]
    generalize decExpOf q.den = m
    conv_rhs => rw [← Rat.num_div_den q]
    ring
  have hNpos : 0 < q.num.natAbs * 10 ^ decExpOf q.den / q.den := by
    rcases Nat.eq_zero_or_pos (q.num.natAbs * 10 ^ decExpOf q.den / q.den) with h0 | hpos
    · exfalso
      rw [h0] at hNcast
      have hp : (0 : ℚ) < q * (10 : ℚ) ^ decExpOf q.den :=
        mul_pos hqpos (by positivity)
      rw [← hNcast] at hp
      simp at hp
    · exact hpos
  obtain ⟨hteq, htnd, htge⟩ := stripFactor_spec (p := 10) (by norm_num)
    (q.num.natAbs * 10 ^ decExpOf q.den / q.den)
    (q.num.natAbs * 10 ^ decExpOf q.den / q.den) hNpos (le_refl _)
  have hqeq : q = ((stripFactor 10 (q.num.natAbs * 10 ^ decExpOf q.den / q.den)
      (q.num.natAbs * 10 ^ decExpOf q.den / q.den)).2 : ℚ) *
      (10 : ℚ) ^ (((stripFactor 10 (q.num.natAbs * 10 ^ decExpOf q.den / q.den)
      (q.num.natAbs * 10 ^ decExpOf q.den / q.den)).1 : ℤ) - (decExpOf q.den : ℤ)) := by
    have hm0 : ((10 : ℚ) ^ decExpOf q.den) ≠ 0 := by positivity
    have hcast2 : ((10 ^ (stripFactor 10 (q.num.natAbs * 10 ^ decExpOf q.den / q.den)
        (q.num.natAbs * 10 ^ decExpOf q.den / q.den)).1 *
        (stripFactor 10 (q.num.natAbs * 10 ^ decExpOf q.den / q.den)
        (q.num.natAbs * 10 ^ decExpOf q.den / q.den)).2 : ℕ) : ℚ) =
        q * (10 : ℚ) ^ decExpOf q.den := by
      rw [← hteq]
      exact hNcast
    rw [zpow_sub₀ hq10, zpow_natCast, zpow_natCast]
    push_cast at hcast2
    field_simp
    linear_combination -hcast2
  obtain ⟨hse, hee⟩ := decomp_unique htnd h10s (hqeq.symm.trans hq)
  unfold jsNumChars
  rw [if_neg (show ¬ q.num = 0 by omega), if_pos hdec1,
      if_neg (show ¬ q.num < 0 by omega), List.nil_append, hse, hee]

theorem keySafe_decomp {q : ℚ} (h : KeySafe q) (hne : q ≠ 0) :
    ∃ s : ℕ, ∃ e : ℤ, 1 ≤ s ∧ ¬ 10 ∣ s ∧ q = (s : ℚ) * (10 : ℚ) ^ e ∧
      -6 < ((natToChars s).length : ℤ) + e ∧ ((natToChars s).length : ℤ) + e ≤ 21 := by
  obtain ⟨⟨n, k, hnk⟩, hdom⟩ := h
  rcases hdom with h0 | ⟨hlo, hhi⟩
  · exact absurd h0 hne
  have hq10 : (10 : ℚ) ≠ 0 := by norm_num
  have hn1 : 1 ≤ n := by
    rcases Nat.eq_zero_or_pos n with h0 | h
    · exfalso
      rw [h0] at hnk
      simp at hnk
      exact hne hnk
    · exact h
  obtain ⟨hteq, htnd, htge⟩ := stripFactor_spec (p := 10) (by norm_num) n n hn1 (le_refl n)
  have hqeq : q = ((stripFactor 10 n n).2 : ℚ) *
      (10 : ℚ) ^ (((stripFactor 10 n n).1 : ℤ) - (k : ℤ)) := by
    rw [hnk, zpow_sub₀ hq10, zpow_natCast, zpow_natCast]
    have hcast : (n : ℚ) =
        (10 : ℚ) ^ (stripFactor 10 n n).1 * ((stripFactor 10 n n).2 : ℚ) := by
      exact_mod_cast congrArg (Nat.cast : ℕ → ℚ) hteq
    rw [hcast]
    have h10k : ((10 : ℚ) ^ k) ≠ 0 := by positivity
    field_simp
    ring
  obtain ⟨hKlo, hKhi, hK1⟩ := natToChars_length_bounds htge
  refine ⟨(stripFactor 10 n n).2, ((stripFactor 10 n n).1 : ℤ) - (k : ℤ), htge, htnd,
    hqeq, ?_, ?_⟩
  · have hqlt : q < (10 : ℚ) ^ (((natToChars (stripFactor 10 n n).2).length : ℤ) +
        (((stripFactor 10 n n).1 : ℤ) - (k : ℤ))) := by
      rw [hqeq]
      have hslt : ((stripFactor 10 n n).2 : ℚ) <
          (10 : ℚ) ^ (natToChars (stripFactor 10 n n).2).length := by
        exact_mod_cast hKhi
      calc ((stripFactor 10 n n).2 : ℚ) *
            (10 : ℚ) ^ (((stripFactor 10 n n).1 : ℤ) - (k : ℤ)) <
          (10 : ℚ) ^ (natToChars (stripFactor 10 n n).2).length *
            (10 : ℚ) ^ (((stripFactor 10 n n).1 : ℤ) - (k : ℤ)) :=
            mul_lt_mul_of_pos_right hslt (zpow_pos (by norm_num) _)
        _ = _ := by
            rw [← zpow_natCast (10 : ℚ) (natToChars (stripFactor 10 n n).2).length,
                ← zpow_add₀ hq10]
    have hz : (10 : ℚ) ^ (-6 : ℤ) ≤ q := by
      have hzeq : (10 : ℚ) ^ (-6 : ℤ) = 1 / 1000000 := by
        rw [show (-6 : ℤ) = -(6 : ℤ) from rfl, zpow_neg,
            show ((6 : ℤ)) = ((6 : ℕ) : ℤ) from rfl, zpow_natCast]
        norm_num
      rw [hzeq]
      exact hlo
    exact (zpow_lt_zpow_iff_right₀ (by norm_num : (1 : ℚ) < 10)).mp
      (lt_of_le_of_lt hz hqlt)
  · have hqge : (10 : ℚ) ^ (((natToChars (stripFactor 10 n n).2).length : ℤ) +
        (((stripFactor 10 n n).1 : ℤ) - (k : ℤ)) - 1) ≤ q := by
      rw [hqeq]
      have hsge : (10 : ℚ) ^ (((natToChars (stripFactor 10 n n).2).length : ℤ) - 1) ≤
          ((stripFactor 10 n n).2 : ℚ) := by
        have hcast : ((10 ^ ((natToChars (stripFactor 10 n n).2).length - 1) : ℕ) : ℚ) ≤
            ((stripFactor 10 n n).2 : ℚ) := by exact_mod_cast hKlo
        calc (10 : ℚ) ^ (((natToChars (stripFactor 10 n n).2).length : ℤ) - 1) =
            ((10 ^ ((natToChars (stripFactor 10 n n).2).length - 1) : ℕ) : ℚ) := by
              push_cast
              rw [← zpow_natCast (10 : ℚ)
                ((natToChars (stripFactor 10 n n).2).length - 1)]
              congr 1
              omega
          _ ≤ _ := hcast
      calc (10 : ℚ) ^ (((natToChars (stripFactor 10 n n).2).length : ℤ) +
            (((stripFactor 10 n n).1 : ℤ) - (k : ℤ)) - 1) =
          (10 : ℚ) ^ (((natToChars (stripFactor 10 n n).2).length : ℤ) - 1) *
            (10 : ℚ) ^ (((stripFactor 10 n n).1 : ℤ) - (k : ℤ)) := by
            rw [← zpow_add₀ hq10]
            congr 1
            ring
        _ ≤ ((stripFactor 10 n n).2 : ℚ) *
              (10 : ℚ) ^ (((stripFactor 10 n n).1 : ℤ) - (k : ℤ)) :=
            mul_le_mul_of_nonneg_right hsge (le_of_lt (zpow_pos (by norm_num) _))
    have hq21 : q < (10 : ℚ) ^ (21 : ℤ) := by
      have h21eq : (10 : ℚ) ^ (21 : ℤ) = (10 : ℚ) ^ (21 : ℕ) := by
        rw [show ((21 : ℤ)) = ((21 : ℕ) : ℤ) from rfl, zpow_natCast]
      rw [h21eq]
      exact hhi
    have h21 := (zpow_lt_zpow_iff_right₀ (by norm_num : (1 : ℚ) < 10)).mp
      (lt_of_le_of_lt hqge hq21)
    omega

theorem decVal_jsNumChars {q : ℚ} (hks : KeySafe q) : decVal (jsNumChars q) = q := by
  by_cases hq0 : q = 0
  · subst hq0
    rw [show jsNumChars 0 = ['0'] from by unfold jsNumChars; rw [if_pos Rat.num_zero]]
    rw [decVal_plain (by decide), show digitsToNat ['0'] = 0 from by decide]
    norm_num
  · obtain ⟨s, e, hs1, hs10, hqse, hlow, hhigh⟩ := keySafe_decomp hks hq0
    rw [jsNumChars_eq_jsRender hs10 hqse hs1, decVal_jsRender hlow hhigh]
    exact hqse.symm

theorem dash_not_mem_jsNumChars {q : ℚ} (hks : KeySafe q) : '-' ∉ jsNumChars q := by
  by_cases hq0 : q = 0
  · subst hq0
    rw [show jsNumChars 0 = ['0'] from by unfold jsNumChars; rw [if_pos Rat.num_zero]]
    decide
  · obtain ⟨s, e, hs1, hs10, hqse, hlow, hhigh⟩ := keySafe_decomp hks hq0
    rw [jsNumChars_eq_jsRender hs10 hqse hs1]
    exact dash_not_mem_jsRender hlow hhigh

theorem jsNumChars_injective {q q' : ℚ} (hks : KeySafe q) (hks' : KeySafe q')
    (h : jsNumChars q = jsNumChars q') : q = q' := by
  rw [← decVal_jsNumChars hks, ← decVal_jsNumChars hks', h]

/-- The cost 0.0000005 = 5 · 10^-7 demonstrates why `KeySafe` excludes
positive values below 10^-6: its JS rendering is `5e-7`, which carries
a `'-'` into the `'-'`-joined group key. -/
theorem jsNumChars_small_has_dash :
    jsNumChars ((5 : ℚ) * (10 : ℚ) ^ (-7 : ℤ)) = ['5', 'e', '-', '7'] ∧
    '-' ∈ jsNumChars ((5 : ℚ) * (10 : ℚ) ^ (-7 : ℤ)) := by
  have h : jsNumChars ((5 : ℚ) * (10 : ℚ) ^ (-7 : ℤ)) = jsRender 5 (-7) :=
    jsNumChars_eq_jsRender (by norm_num) rfl (by norm_num)
  constructor
  · rw [h]
    decide
  · rw [h]
    decide

theorem groupKey_injective {p p' c c' : String} {q q' : ℚ}
    (hc : '-' ∉ c.data) (hc' : '-' ∉ c'.data)
    (hq : KeySafe q) (hq' : KeySafe q')
    (h : groupKey p c q = groupKey p' c' q') :
    p = p' ∧ c = c' ∧ q = q' := by
  unfold groupKey at h
  obtain ⟨h1, h2⟩ := splitLast (dash_not_mem_jsNumChars hq)
    (dash_not_mem_jsNumChars hq') h
  obtain ⟨h3, h4⟩ := splitLast hc hc' h1
  exact ⟨string_eq_of_data_eq h3, string_eq_of_data_eq h4,
    jsNumChars_injective hq hq' h2⟩

/-- C4 counterexample: the group key is the string
`` `${product}-${currency}-${cost}` ``, so the two records
`("A-B", currency "C")` and `("A", currency "B-C")`, with distinct
GroupKey triples, collide on the key string `A-B-C-…` and are folded
into a single GroupedEntry holding both countries, with the second
record's country filed under the first record's product and currency. -/
theorem groupProducts_groupkey_counterexample :
    normalizePrice "1" = some ((1 : ℚ) + (0 : ℚ) / (10 : ℚ) ^ 0) ∧
    effectiveCurrencyOf (fun _ => none) ⟨"A-B", "1", "c1", "X", "C", none⟩ = "C" ∧
    effectiveCurrencyOf (fun _ => none) ⟨"A", "1", "c2", "Y", "B-C", none⟩ = "B-C" ∧
    ("C" : String) ≠ "B-C" ∧
    groupProducts (fun _ => none)
      [⟨"A-B", "1", "c1", "X", "C", none⟩, ⟨"A", "1", "c2", "Y", "B-C", none⟩] =
      [("A-B", [⟨"A-B", "C", (1 : ℚ) + (0 : ℚ) / (10 : ℚ) ^ 0, ["X", "Y"]⟩])] := by
  have hstep1 : groupStep (fun _ => none) [] ⟨"A-B", "1", "c1", "X", "C", none⟩ =
      [(groupKey "A-B" "C" ((1 : ℚ) + (0 : ℚ) / (10 : ℚ) ^ 0),
        ⟨"A-B", "C", (1 : ℚ) + (0 : ℚ) / (10 : ℚ) ^ 0, ["X"]⟩)] := by
    rw [groupStep_parseable normalizePrice_one_eval]
    show mapUpdate [(groupKey "A-B" "C" ((1 : ℚ) + (0 : ℚ) / (10 : ℚ) ^ 0),
        ⟨"A-B", "C", (1 : ℚ) + (0 : ℚ) / (10 : ℚ) ^ 0, []⟩)]
      (groupKey "A-B" "C" ((1 : ℚ) + (0 : ℚ) / (10 : ℚ) ^ 0))
      (addCountryName "X") = _
    unfold mapUpdate
    simp only [List.map_cons, List.map_nil]
    rw [if_pos trivial]
    rfl
  have hstep2 : groupStep (fun _ => none)
      [(groupKey "A-B" "C" ((1 : ℚ) + (0 : ℚ) / (10 : ℚ) ^ 0),
        ⟨"A-B", "C", (1 : ℚ) + (0 : ℚ) / (10 : ℚ) ^ 0, ["X"]⟩)]
      ⟨"A", "1", "c2", "Y", "B-C", none⟩ =
      [(groupKey "A-B" "C" ((1 : ℚ) + (0 : ℚ) / (10 : ℚ) ^ 0),
        ⟨"A-B", "C", (1 : ℚ) + (0 : ℚ) / (10 : ℚ) ^ 0, ["X", "Y"]⟩)] := by
    rw [groupStep_parseable normalizePrice_one_eval]
    rw [show keyFor (fun _ => none) ⟨"A", "1", "c2", "Y", "B-C", none⟩
        ((1 : ℚ) + (0 : ℚ) / (10 : ℚ) ^ 0) =
        groupKey "A-B" "C" ((1 : ℚ) + (0 : ℚ) / (10 : ℚ) ^ 0) from rfl]
    rw [alookup_cons, if_pos rfl]
    unfold mapUpdate
    simp only [List.map_cons, List.map_nil]
    rw [if_pos trivial]
    rfl
  refine ⟨normalizePrice_one_eval, rfl, rfl, by decide, ?_⟩
  unfold groupProducts groupAccum
  simp only [List.foldl_cons, List.foldl_nil]
  rw [hstep1, hstep2]
  rfl


/-- C4 (amended): the source joins the GroupKey triple into the single
`'-'`-separated string `` `${product}-${currency}-${cost}` ``, so the
triple is recoverable from the key only if its own renderings are
`'-'`-free.  Provided (a) every record's resolved currency contains no
`'-'` (see the counterexample) and (b) every normalized cost is 0 or in
[10^-6, 10^21) — JS renders positive numbers below 10^-6 in scientific
notation such as `5e-7` (see `jsNumChars_small_has_dash`), which also
puts a `'-'` inside the key — the mapping GroupKey → GroupedEntry is a
bijection onto the output: each entry's countries list is non-empty,
duplicate-free and exactly the country names of the records with that
entry's triple; no two distinct triples share an entry; and every
parseable record's triple has its entry in the output. -/
theorem groupProducts_groupkey_unique_amended
    (sym : String → Option String) (l : List ScrapedProduct)
    (hdash : ∀ item ∈ l, '-' ∉ (effectiveCurrencyOf sym item).data)
    (hrange : ∀ item ∈ l, ∀ q, normalizePrice item.cost = some q →
      q = 0 ∨ ((1 : ℚ) / 1000000 ≤ q ∧ q < 10 ^ 21)) :
    (∀ p es e, alookup (groupProducts sym l) p = some es → e ∈ es →
      e.product = p ∧ e.countries ≠ [] ∧ e.countries.Nodup ∧
      (∀ n, n ∈ e.countries ↔
        ∃ item ∈ l, item.product = e.product ∧
          effectiveCurrencyOf sym item = e.currency ∧
          normalizePrice item.cost = some e.cost ∧ item.countryName = n)) ∧
    (∀ p es e p' es' e', alookup (groupProducts sym l) p = some es → e ∈ es →
      alookup (groupProducts sym l) p' = some es' → e' ∈ es' →
      e.product = e'.product → e.currency = e'.currency → e.cost = e'.cost →
      p = p' ∧ e = e') ∧
    (∀ item ∈ l, ∀ q, normalizePrice item.cost = some q →
      ∃ es e, alookup (groupProducts sym l) item.product = some es ∧ e ∈ es ∧
        e.product = item.product ∧ e.currency = effectiveCurrencyOf sym item ∧
        e.cost = q) := by
  have HB := groupProducts_buckets_good sym l
  have HA := groupAccum_good sym l
  have entry_data : ∀ e ∈ (groupAccum sym l).map Prod.snd,
      ∃ kv ∈ groupAccum sym l, kv.2 = e ∧
        kv.1 = groupKey e.product e.currency e.cost ∧
        '-' ∉ e.currency.data ∧ KeySafe e.cost := by
    intro e hgs
    obtain ⟨kv, hkv, hkve⟩ := List.mem_map.mp hgs
    obtain ⟨item, hit, q, hpq, hprod, hcur, hcost⟩ := HA.source kv hkv
    rw [hkve] at hprod hcur hcost
    refine ⟨kv, hkv, hkve, ?_, ?_, ?_⟩
    · rw [HA.keyOf kv hkv, hkve]
    · rw [hcur]
      exact hdash item hit
    · rw [hcost]
      exact ⟨normalizePrice_decimal hpq, hrange item hit q hpq⟩
  refine ⟨?_, ?_, ?_⟩
  · intro p es e hes he
    obtain ⟨hgs, hprod⟩ := HB.entries _ (alookup_mem hes) e he
    obtain ⟨kv, hkv, hkve, hkey, hdashe, hkse⟩ := entry_data e hgs
    refine ⟨hprod, by rw [← hkve]; exact HA.cNe kv hkv,
      by rw [← hkve]; exact HA.cNodup kv hkv, ?_⟩
    intro n
    have hx := HA.cExact kv hkv n
    rw [hkve, hkey] at hx
    rw [hx]
    constructor
    · rintro ⟨it, hit, q, hpq, hkq, hname⟩
      have hinj := groupKey_injective (hdash it hit) hdashe
        ⟨normalizePrice_decimal hpq, hrange it hit q hpq⟩ hkse hkq
      obtain ⟨h1, h2, h3⟩ := hinj
      exact ⟨it, hit, h1, h2, by rw [← h3]; exact hpq, hname⟩
    · rintro ⟨it, hit, h1, h2, h3, hname⟩
      refine ⟨it, hit, e.cost, h3, ?_, hname⟩
      unfold keyFor
      rw [h1, h2]
  · intro p es e p' es' e' hes he hes' he' hp hc hq
    obtain ⟨hgs, hprod⟩ := HB.entries _ (alookup_mem hes) e he
    obtain ⟨hgs', hprod'⟩ := HB.entries _ (alookup_mem hes') e' he'
    obtain ⟨kv, hkv, hkve, hkey, _, _⟩ := entry_data e hgs
    obtain ⟨kv', hkv', hkve', hkey', _, _⟩ := entry_data e' hgs'
    have hkk : kv.1 = kv'.1 := by
      rw [hkey, hkey', hp, hc, hq]
    have hvv : kv.2 = kv'.2 := by
      have h1 : (kv.1, kv.2) ∈ groupAccum sym l := hkv
      have h2 : (kv.1, kv'.2) ∈ groupAccum sym l := by
        rw [hkk]; exact hkv'
      exact mem_of_mem_nodup_lookup HA.nodupKeys h1 h2
    have hee : e = e' := by rw [← hkve, ← hkve', hvv]
    have hp1 : e.product = p := hprod
    have hp2 : e'.product = p' := hprod'
    constructor
    · rw [← hp1, ← hp2, hee]
    · exact hee
  · intro item hit q hq
    obtain ⟨e, he⟩ := HA.complete item hit q hq
    have hekey := HA.keyOf _ he
    simp only [] at hekey
    obtain ⟨item1, hit1, q1, hpq1, hprod1, hcur1, hcost1⟩ := HA.source _ he
    simp only [] at hprod1 hcur1 hcost1
    have hdashe : '-' ∉ e.currency.data := by
      rw [hcur1]; exact hdash item1 hit1
    have hkse : KeySafe e.cost := by
      rw [hcost1]
      exact ⟨normalizePrice_decimal hpq1, hrange item1 hit1 q1 hpq1⟩
    have hkeq : groupKey item.product (effectiveCurrencyOf sym item) q =
        groupKey e.product e.currency e.cost := hekey
    have hinj := groupKey_injective (hdash item hit) hdashe
      ⟨normalizePrice_decimal hq, hrange item hit q hq⟩ hkse hkeq
    obtain ⟨h1, h2, h3⟩ := hinj
    have hegs : e ∈ (groupAccum sym l).map Prod.snd :=
      List.mem_map.mpr ⟨(keyFor sym item q, e), he, rfl⟩
    obtain ⟨es, hes, hin⟩ := HB.complete e hegs
    refine ⟨es, e, ?_, hin, h1.symm, h2.symm, h3.symm⟩
    rw [h1]
    exact alookup_eq_some_of_mem_nodup HB.nodupKeys hes

/-- Witness for the amended C4 at a concrete one-record list. -/
theorem groupProducts_groupkey_unique_amended_witness :
    ∃ es e, alookup (groupProducts (fun _ => none)
        [⟨"Pro2", "1", "us", "US", "USD", none⟩]) "Pro2" = some es ∧ e ∈ es ∧
      e.product = "Pro2" ∧
      e.currency = effectiveCurrencyOf (fun _ => none)
        ⟨"Pro2", "1", "us", "US", "USD", none⟩ ∧
      e.cost = (1 : ℚ) + (0 : ℚ) / (10 : ℚ) ^ 0 := by
  have h := (groupProducts_groupkey_unique_amended (fun _ => none)
    [⟨"Pro2", "1", "us", "US", "USD", none⟩] (by decide)
    (by
      intro it hit q hq'
      rw [List.mem_singleton] at hit
      subst hit
      rw [normalizePrice_one_eval] at hq'
      injection hq' with hq1
      refine Or.inr ⟨?_, ?_⟩
      · rw [← hq1]
        norm_num
      · rw [← hq1]
        norm_num)).2.2
    ⟨"Pro2", "1", "us", "US", "USD", none⟩ (List.mem_singleton.mpr rfl)
    ((1 : ℚ) + (0 : ℚ) / (10 : ℚ) ^ 0) normalizePrice_one_eval
  exact h


/-- C1 counterexample: records `("P-Q", currency "R")` and
`("P", currency "Q-R")` have different three-tier resolutions but
collide on the string key `P-Q-R-…`, so the second record's country
name `"W"` is filed in the single resulting entry, whose currency `"R"`
is the FIRST record's resolution — not the second record's resolution
`"Q-R"`.  The per-record reading of the hierarchy claim is therefore
false without key-injectivity provisos. -/
theorem groupProducts_currency_hierarchy_counterexample :
    effectiveCurrencyOf (fun _ => none) ⟨"P", "7", "d2", "W", "Q-R", none⟩ = "Q-R" ∧
    ("Q-R" : String) ≠ "R" ∧
    groupProducts (fun _ => none)
      [⟨"P-Q", "7", "d1", "V", "R", none⟩, ⟨"P", "7", "d2", "W", "Q-R", none⟩] =
      [("P-Q", [⟨"P-Q", "R", (7 : ℚ) + (0 : ℚ) / (10 : ℚ) ^ 0, ["V", "W"]⟩])] := by
  have hstep1 : groupStep (fun _ => none) [] ⟨"P-Q", "7", "d1", "V", "R", none⟩ =
      [(groupKey "P-Q" "R" ((7 : ℚ) + (0 : ℚ) / (10 : ℚ) ^ 0),
        ⟨"P-Q", "R", (7 : ℚ) + (0 : ℚ) / (10 : ℚ) ^ 0, ["V"]⟩)] := by
    rw [groupStep_parseable normalizePrice_seven_eval]
    show mapUpdate [(groupKey "P-Q" "R" ((7 : ℚ) + (0 : ℚ) / (10 : ℚ) ^ 0),
        ⟨"P-Q", "R", (7 : ℚ) + (0 : ℚ) / (10 : ℚ) ^ 0, []⟩)]
      (groupKey "P-Q" "R" ((7 : ℚ) + (0 : ℚ) / (10 : ℚ) ^ 0))
      (addCountryName "V") = _
    unfold mapUpdate
    simp only [List.map_cons, List.map_nil]
    rw [if_pos trivial]
    rfl
  have hstep2 : groupStep (fun _ => none)
      [(groupKey "P-Q" "R" ((7 : ℚ) + (0 : ℚ) / (10 : ℚ) ^ 0),
        ⟨"P-Q", "R", (7 : ℚ) + (0 : ℚ) / (10 : ℚ) ^ 0, ["V"]⟩)]
      ⟨"P", "7", "d2", "W", "Q-R", none⟩ =
      [(groupKey "P-Q" "R" ((7 : ℚ) + (0 : ℚ) / (10 : ℚ) ^ 0),
        ⟨"P-Q", "R", (7 : ℚ) + (0 : ℚ) / (10 : ℚ) ^ 0, ["V", "W"]⟩)] := by
    rw [groupStep_parseable normalizePrice_seven_eval]
    rw [show keyFor (fun _ => none) ⟨"P", "7", "d2", "W", "Q-R", none⟩
        ((7 : ℚ) + (0 : ℚ) / (10 : ℚ) ^ 0) =
        groupKey "P-Q" "R" ((7 : ℚ) + (0 : ℚ) / (10 : ℚ) ^ 0) from rfl]
    rw [alookup_cons, if_pos rfl]
    unfold mapUpdate
    simp only [List.map_cons, List.map_nil]
    rw [if_pos trivial]
    rfl
  refine ⟨rfl, by decide, ?_⟩
  unfold groupProducts groupAccum
  simp only [List.foldl_cons, List.foldl_nil]
  rw [hstep1, hstep2]
  rfl

/-- C1 (amended): under the key-injectivity provisos of C4 (every
resolved currency `'-'`-free, every normalized cost 0 or in
[10^-6, 10^21)), each processed record with a parseable cost has its
country name filed in an entry of its product's bucket whose cost is
the record's normalized cost and whose currency is the first-match-wins
hierarchy applied to THAT record: (1) the currency of an unambiguous
symbol found in the raw cost text; (2) else, when the cost text
contains a `$` and the record carries a non-empty `pricingCurrency`
override, that override; (3) else the record's country-default
currency.  The symbol table `sym` is the injected configuration
modelled from the spec (see `effectiveCurrencyOf`). -/
theorem groupProducts_currency_hierarchy_amended
    (sym : String → Option String) (l : List ScrapedProduct)
    (hdash : ∀ item ∈ l, '-' ∉ (effectiveCurrencyOf sym item).data)
    (hrange : ∀ item ∈ l, ∀ q, normalizePrice item.cost = some q →
      q = 0 ∨ ((1 : ℚ) / 1000000 ≤ q ∧ q < 10 ^ 21)) :
    ∀ item ∈ l, ∀ q, normalizePrice item.cost = some q →
      ∃ es, alookup (groupProducts sym l) item.product = some es ∧
      ∃ e ∈ es, item.countryName ∈ e.countries ∧
        e.product = item.product ∧ e.cost = q ∧
        e.currency = effectiveCurrencyOf sym item ∧
        ((optTruthy (sym item.cost) = true →
          e.currency = (sym item.cost).getD "") ∧
         (optTruthy (sym item.cost) = false →
          (item.cost.data.contains '$' && optTruthy item.pricingCurrency) = true →
          e.currency = item.pricingCurrency.getD "") ∧
         (optTruthy (sym item.cost) = false →
          (item.cost.data.contains '$' && optTruthy item.pricingCurrency) = false →
          e.currency = item.currency)) := by
  intro item hit q hq
  have HB := groupProducts_buckets_good sym l
  have HA := groupAccum_good sym l
  obtain ⟨e, he⟩ := HA.complete item hit q hq
  have hekey := HA.keyOf _ he
  simp only [] at hekey
  obtain ⟨item1, hit1, q1, hpq1, hprod1, hcur1, hcost1⟩ := HA.source _ he
  simp only [] at hprod1 hcur1 hcost1
  have hdashe : '-' ∉ e.currency.data := by
    rw [hcur1]; exact hdash item1 hit1
  have hkse : KeySafe e.cost := by
    rw [hcost1]
    exact ⟨normalizePrice_decimal hpq1, hrange item1 hit1 q1 hpq1⟩
  have hkeq : groupKey item.product (effectiveCurrencyOf sym item) q =
      groupKey e.product e.currency e.cost := hekey
  have hinj := groupKey_injective (hdash item hit) hdashe
    ⟨normalizePrice_decimal hq, hrange item hit q hq⟩ hkse hkeq
  obtain ⟨h1, h2, h3⟩ := hinj
  have hcm : item.countryName ∈ e.countries := by
    have hx := HA.cExact _ he item.countryName
    simp only [] at hx
    exact hx.mpr ⟨item, hit, q, hq, rfl, rfl⟩
  have hegs : e ∈ (groupAccum sym l).map Prod.snd :=
    List.mem_map.mpr ⟨(keyFor sym item q, e), he, rfl⟩
  obtain ⟨es, hes, hin⟩ := HB.complete e hegs
  have hlk : alookup (groupProducts sym l) item.product = some es := by
    rw [h1]
    exact alookup_eq_some_of_mem_nodup HB.nodupKeys hes
  refine ⟨es, hlk, e, hin, hcm, h1.symm, h3.symm, h2.symm, ?_, ?_, ?_⟩
  · intro ht
    rw [← h2, effectiveCurrencyOf_tier1 ht]
  · intro ht1 ht2
    rw [← h2, effectiveCurrencyOf_tier2 ht1 ht2]
  · intro ht1 ht2
    rw [← h2, effectiveCurrencyOf_tier3 ht1 ht2]

/-- Witness for the amended C1 at a concrete one-record list: the
entry's currency is the record's country-default currency (tier 3). -/
theorem groupProducts_currency_hierarchy_amended_witness :
    ∃ es, alookup (groupProducts (fun _ => none)
        [⟨"Pro", "7", "us", "US", "USD", none⟩]) "Pro" = some es ∧
    ∃ e ∈ es, "US" ∈ e.countries ∧ e.product = "Pro" ∧
      e.cost = (7 : ℚ) + (0 : ℚ) / (10 : ℚ) ^ 0 ∧
      e.currency = effectiveCurrencyOf (fun _ => none)
        ⟨"Pro", "7", "us", "US", "USD", none⟩ ∧
      ((optTruthy ((fun _ => (none : Option String)) ("7" : String)) = true →
        e.currency = ((fun _ => (none : Option String)) ("7" : String)).getD "") ∧
       (optTruthy ((fun _ => (none : Option String)) ("7" : String)) = false →
        (("7" : String).data.contains '$' && optTruthy (none : Option String)) = true →
        e.currency = (none : Option String).getD "") ∧
       (optTruthy ((fun _ => (none : Option String)) ("7" : String)) = false →
        (("7" : String).data.contains '$' && optTruthy (none : Option String)) = false →
        e.currency = "USD")) :=
  groupProducts_currency_hierarchy_amended (fun _ => none)
    [⟨"Pro", "7", "us", "US", "USD", none⟩] (by decide)
    (by
      intro it hit q hq'
      rw [List.mem_singleton] at hit
      subst hit
      rw [normalizePrice_seven_eval] at hq'
      injection hq' with hq1
      refine Or.inr ⟨?_, ?_⟩
      · rw [← hq1]
        norm_num
      · rw [← hq1]
        norm_num)
    ⟨"Pro", "7", "us", "US", "USD", none⟩ (List.mem_singleton.mpr rfl)
    ((7 : ℚ) + (0 : ℚ) / (10 : ℚ) ^ 0) normalizePrice_seven_eval


/-! ## The highest-price filter invariant (C5) -/

theorem filterStep_unparseable {m : List (List Char × ScrapedProduct)}
    {p : ScrapedProduct} (h : normalizePrice p.cost = none) :
    filterStep m p = m := by
  unfold filterStep
  rw [h]

/-- Invariant of the `highestPriceProducts` map of
`filterHighestPriceProducts` after the records in `l` were processed. -/
structure FAcc (l : List ScrapedProduct)
    (m : List (List Char × ScrapedProduct)) : Prop where
  nodupKeys : (m.map Prod.fst).Nodup
  keyOf : ∀ kv ∈ m, kv.1 = countryProductKey kv.2
  source : ∀ kv ∈ m, kv.2 ∈ l
  parseable : ∀ kv ∈ m, (normalizePrice kv.2.cost).isSome = true
  maximal : ∀ kv ∈ m, ∀ r' ∈ l, countryProductKey r' = kv.1 →
    ∀ c', normalizePrice r'.cost = some c' →
      ∃ c, normalizePrice kv.2.cost = some c ∧ c' ≤ c
  complete : ∀ r ∈ l, (normalizePrice r.cost).isSome = true →
    countryProductKey r ∈ m.map Prod.fst

theorem fAcc_nil : FAcc [] [] := by
  refine ⟨List.nodup_nil, ?_, ?_, ?_, ?_, ?_⟩ <;> intro kv hkv <;> simp at hkv

theorem filterStep_good {l : List ScrapedProduct}
    {m : List (List Char × ScrapedProduct)} {r : ScrapedProduct}
    (H : FAcc l m) : FAcc (l ++ [r]) (filterStep m r) := by
  cases hq : normalizePrice r.cost with
  | none =>
    rw [filterStep_unparseable hq]
    refine ⟨H.nodupKeys, H.keyOf, ?_, H.parseable, ?_, ?_⟩
    · intro kv hkv
      exact List.mem_append_left _ (H.source kv hkv)
    · intro kv hkv r' hr' hk c' hc'
      rcases List.mem_append.mp hr' with h1 | h1
      · exact H.maximal kv hkv r' h1 hk c' hc'
      · rw [List.mem_singleton] at h1
        subst h1
        rw [hq] at hc'
        exact absurd hc' (by simp)
    · intro r0 hr0 hp0
      rcases List.mem_append.mp hr0 with h1 | h1
      · exact H.complete r0 h1 hp0
      · rw [List.mem_singleton] at h1
        subst h1
        rw [hq] at hp0
        simp at hp0
  | some c =>
    have hstep : filterStep m r =
        match alookup m (countryProductKey r) with
        | none => m ++ [(countryProductKey r, r)]
        | some existing =>
          if (match normalizePrice existing.cost with
              | none => true
              | some existingCost => decide (existingCost < c)) then
            mapUpdate m (countryProductKey r) (fun _ => r)
          else m := by
      unfold filterStep
      rw [hq]
    rw [hstep]
    cases hl : alookup m (countryProductKey r) with
    | none =>
      have hK : countryProductKey r ∉ m.map Prod.fst :=
        (alookup_eq_none_iff _ _).mp hl
      refine ⟨?_, ?_, ?_, ?_, ?_, ?_⟩
      · rw [List.map_append]
        simp only [List.map_cons, List.map_nil]
        rw [List.nodup_append]
        refine ⟨H.nodupKeys, List.nodup_singleton _, ?_⟩
        intro a ha hna
        simp only [List.mem_singleton] at hna
        exact hK (hna ▸ ha)
      · intro kv hkv
        rcases List.mem_append.mp hkv with h1 | h1
        · exact H.keyOf _ h1
        · rw [List.mem_singleton] at h1
          subst h1
          rfl
      · intro kv hkv
        rcases List.mem_append.mp hkv with h1 | h1
        · exact List.mem_append_left _ (H.source _ h1)
        · rw [List.mem_singleton] at h1
          subst h1
          exact List.mem_append_right _ (List.mem_singleton.mpr rfl)
      · intro kv hkv
        rcases List.mem_append.mp hkv with h1 | h1
        · exact H.parseable _ h1
        · rw [List.mem_singleton] at h1
          subst h1
          rw [hq]
          rfl
      · intro kv hkv r' hr' hk c' hc'
        rcases List.mem_append.mp hkv with h1 | h1
        · rcases List.mem_append.mp hr' with h2 | h2
          · exact H.maximal _ h1 r' h2 hk c' hc'
          · rw [List.mem_singleton] at h2
            subst h2
            exfalso
            exact hK (hk ▸ mem_key_of_mem (show (kv.1, kv.2) ∈ m from h1))
        · rw [List.mem_singleton] at h1
          subst h1
          rcases List.mem_append.mp hr' with h2 | h2
          · exfalso
            have : countryProductKey r' ∈ m.map Prod.fst :=
              H.complete r' h2 (by rw [hc']; rfl)
            rw [hk] at this
            exact hK this
          · rw [List.mem_singleton] at h2
            subst h2
            have : c' = c := by
              rw [hq] at hc'
              injection hc' with hcc
              exact hcc.symm
            subst this
            exact ⟨c', hq, le_refl c'⟩
      · intro r0 hr0 hp0
        rcases List.mem_append.mp hr0 with h1 | h1
        · rw [List.map_append]
          exact List.mem_append_left _ (H.complete r0 h1 hp0)
        · rw [List.mem_singleton] at h1
          subst h1
          rw [List.map_append]
          exact List.mem_append_right _ (by simp)
    | some existing =>
      have hmem_ex : (countryProductKey r, existing) ∈ m := alookup_mem hl
      have hexp := H.parseable _ hmem_ex
      simp only [] at hexp
      cases hex : normalizePrice existing.cost with
      | none => rw [hex] at hexp; simp at hexp
      | some ec =>
        show FAcc (l ++ [r])
          (if (match normalizePrice existing.cost with
               | none => true
               | some existingCost => decide (existingCost < c)) = true then
            mapUpdate m (countryProductKey r) (fun _ => r)
          else m)
        rw [hex]
        by_cases hlt : ec < c
        · rw [if_pos (by simp only [decide_eq_true_eq]; exact hlt)]
          refine ⟨?_, ?_, ?_, ?_, ?_, ?_⟩
          · rw [map_fst_mapUpdate]
            exact H.nodupKeys
          · intro kv hkv
            obtain ⟨k0, v0⟩ := kv
            obtain ⟨v, hv, hcase⟩ := mem_mapUpdate_elim hkv
            rcases hcase with ⟨hk, hv'⟩ | ⟨hk, hv'⟩ <;> subst hv'
            · rw [hk]
            · exact H.keyOf _ hv
          · intro kv hkv
            obtain ⟨k0, v0⟩ := kv
            obtain ⟨v, hv, hcase⟩ := mem_mapUpdate_elim hkv
            rcases hcase with ⟨hk, hv'⟩ | ⟨hk, hv'⟩ <;> subst hv'
            · exact List.mem_append_right _ (List.mem_singleton.mpr rfl)
            · exact List.mem_append_left _ (H.source _ hv)
          · intro kv hkv
            obtain ⟨k0, v0⟩ := kv
            obtain ⟨v, hv, hcase⟩ := mem_mapUpdate_elim hkv
            rcases hcase with ⟨hk, hv'⟩ | ⟨hk, hv'⟩ <;> subst hv'
            · rw [hq]; rfl
            · exact H.parseable _ hv
          · intro kv hkv r' hr' hk c' hc'
            obtain ⟨k0, v0⟩ := kv
            obtain ⟨v, hv, hcase⟩ := mem_mapUpdate_elim hkv
            rcases hcase with ⟨hk0, hv'⟩ | ⟨hk0, hv'⟩ <;> subst hv'
            · subst hk0
              rcases List.mem_append.mp hr' with h2 | h2
              · obtain ⟨ec', hec', hle⟩ :=
                  H.maximal _ hmem_ex r' h2 hk c' hc'
                have : ec' = ec := by
                  rw [hex] at hec'
                  injection hec' with hee
                  exact hee.symm
                subst this
                exact ⟨c, hq, le_trans hle (le_of_lt hlt)⟩
              · rw [List.mem_singleton] at h2
                subst h2
                have : c' = c := by
                  rw [hq] at hc'
                  injection hc' with hcc
                  exact hcc.symm
                subst this
                exact ⟨c', hq, le_refl c'⟩
            · rcases List.mem_append.mp hr' with h2 | h2
              · exact H.maximal _ hv r' h2 hk c' hc'
              · rw [List.mem_singleton] at h2
                subst h2
                exact absurd (show k0 = countryProductKey r' from hk.symm) hk0
          · intro r0 hr0 hp0
            rw [map_fst_mapUpdate]
            rcases List.mem_append.mp hr0 with h1 | h1
            · exact H.complete r0 h1 hp0
            · rw [List.mem_singleton] at h1
              subst h1
              exact mem_key_of_mem hmem_ex
        · rw [if_neg (by simp only [decide_eq_true_eq]; exact hlt)]
          refine ⟨H.nodupKeys, H.keyOf, ?_, H.parseable, ?_, ?_⟩
          · intro kv hkv
            exact List.mem_append_left _ (H.source kv hkv)
          · intro kv hkv r' hr' hk c' hc'
            rcases List.mem_append.mp hr' with h2 | h2
            · exact H.maximal kv hkv r' h2 hk c' hc'
            · rw [List.mem_singleton] at h2
              subst h2
              have hkvex : kv.2 = existing := by
                have h1 : (kv.1, kv.2) ∈ m := hkv
                have h2' : (kv.1, existing) ∈ m := by
                  rw [← hk]
                  exact hmem_ex
                exact mem_of_mem_nodup_lookup H.nodupKeys h1 h2'
              have : c' = c := by
                rw [hq] at hc'
                injection hc' with hcc
                exact hcc.symm
              subst this
              refine ⟨ec, by rw [hkvex]; exact hex, ?_⟩
              exact le_of_not_lt hlt
          · intro r0 hr0 hp0
            rcases List.mem_append.mp hr0 with h1 | h1
            · exact H.complete r0 h1 hp0
            · rw [List.mem_singleton] at h1
              subst h1
              exact mem_key_of_mem hmem_ex

theorem fAcc_foldl :
    ∀ (rest l : List ScrapedProduct) (m : List (List Char × ScrapedProduct)),
      FAcc l m → FAcc (l ++ rest) (rest.foldl filterStep m) := by
  intro rest
  induction rest with
  | nil => intro l m H; simpa using H
  | cons x xs ih =>
    intro l m H
    have H2 := ih (l ++ [x]) _ (filterStep_good H)
    rw [List.append_assoc] at H2
    simpa using H2

theorem filterAccum_good (l : List ScrapedProduct) :
    FAcc l (l.foldl filterStep []) := by
  have := fAcc_foldl l [] [] fAcc_nil
  simpa using this


theorem countryProductKey_injective {r r' : ScrapedProduct}
    (h1 : '-' ∉ r.countryCode.data) (h2 : '-' ∉ r'.countryCode.data)
    (h : countryProductKey r = countryProductKey r') :
    r.countryCode = r'.countryCode ∧ r.product = r'.product := by
  unfold countryProductKey at h
  obtain ⟨ha, hb⟩ := splitFirst h1 h2 h
  exact ⟨string_eq_of_data_eq ha, string_eq_of_data_eq hb⟩

/-- C5 (amended): provided no record's countryCode contains `'-'` (the
source keys the map by the string `` `${countryCode}-${product}` ``, so
a `'-'` inside the countryCode can make distinct (countryCode, product)
pairs collide — see the counterexample), `filterHighestPriceProducts`
keeps, per (countryCode, product) pair, exactly one record: it comes
from the input, its cost parses, it has the greatest normalized cost in
its pair group, every parseable record's pair is represented, and no
pair appears twice.  Records with unparseable costs are never kept. -/
theorem filterHighestPriceProducts_amended (l : List ScrapedProduct)
    (hdash : ∀ r ∈ l, '-' ∉ r.countryCode.data) :
    (∀ r ∈ filterHighestPriceProducts l, r ∈ l ∧
      (normalizePrice r.cost).isSome = true ∧
      (∀ r' ∈ l, r'.countryCode = r.countryCode → r'.product = r.product →
        ∀ c', normalizePrice r'.cost = some c' →
          ∃ c, normalizePrice r.cost = some c ∧ c' ≤ c)) ∧
    (∀ r' ∈ l, (normalizePrice r'.cost).isSome = true →
      ∃ r ∈ filterHighestPriceProducts l, r.countryCode = r'.countryCode ∧
        r.product = r'.product) ∧
    ((filterHighestPriceProducts l).map
      (fun r => (r.countryCode, r.product))).Nodup := by
  have H := filterAccum_good l
  have hout : filterHighestPriceProducts l =
      (l.foldl filterStep []).map Prod.snd := rfl
  refine ⟨?_, ?_, ?_⟩
  · intro r hr
    rw [hout] at hr
    obtain ⟨kv, hkv, hkve⟩ := List.mem_map.mp hr
    refine ⟨by rw [← hkve]; exact H.source kv hkv,
      by rw [← hkve]; exact H.parseable kv hkv, ?_⟩
    intro r' hr' hcc hpp c' hc'
    have hkey : countryProductKey r' = kv.1 := by
      rw [H.keyOf kv hkv, hkve]
      unfold countryProductKey
      rw [hcc, hpp]
    obtain ⟨c, hcq, hle⟩ := H.maximal kv hkv r' hr' hkey c' hc'
    exact ⟨c, by rw [← hkve]; exact hcq, hle⟩
  · intro r' hr' hp'
    have hkmem := H.complete r' hr' hp'
    obtain ⟨kv, hkv, hfst⟩ := List.mem_map.mp hkmem
    refine ⟨kv.2, by rw [hout]; exact List.mem_map.mpr ⟨kv, hkv, rfl⟩, ?_⟩
    have hkey : countryProductKey kv.2 = countryProductKey r' := by
      rw [← H.keyOf kv hkv, hfst]
    obtain ⟨h1, h2⟩ := countryProductKey_injective
      (hdash kv.2 (H.source kv hkv)) (hdash r' hr') hkey
    exact ⟨h1, h2⟩
  · rw [hout]
    rw [List.map_map]
    have hkeys : (l.foldl filterStep []).map Prod.fst =
        ((l.foldl filterStep []).map
          ((fun r => (r.countryCode, r.product)) ∘ Prod.snd)).map
          (fun pr => pr.1.data ++ '-' :: pr.2.data) := by
      rw [List.map_map]
      apply List.map_congr_left
      intro kv hkv
      exact H.keyOf kv hkv
    exact List.Nodup.of_map _ (hkeys ▸ H.nodupKeys)

theorem normalizePrice_five_eval :
    normalizePrice "5" = some ((5 : ℚ) + (0 : ℚ) / (10 : ℚ) ^ 0) := by
  rw [normalizePrice_eq_generic (by decide) (by decide),
      pnws_no_separator (by decide) (by decide)]
  show parseFloatQ ['5'] = _
  exact @parseFloatQ_eval ['5'] ['5'] [] 5 0 0
    (by decide) (by decide) (by decide) (by decide) (by decide) (by decide)

theorem normalizePrice_nine_eval :
    normalizePrice "9" = some ((9 : ℚ) + (0 : ℚ) / (10 : ℚ) ^ 0) := by
  rw [normalizePrice_eq_generic (by decide) (by decide),
      pnws_no_separator (by decide) (by decide)]
  show parseFloatQ ['9'] = _
  exact @parseFloatQ_eval ['9'] ['9'] [] 9 0 0
    (by decide) (by decide) (by decide) (by decide) (by decide) (by decide)

/-- C5 counterexample: the map key is the string
`` `${countryCode}-${product}` ``, so the records
`(countryCode "a-b", product "c", cost "5")` and
`(countryCode "a", product "b-c", cost "9")` — distinct
(countryCode, product) pairs — collide on the key `a-b-c`; the second
record overwrites the first, whose pair group {first record} loses its
only (and greatest-cost) member. -/
theorem filterHighestPriceProducts_counterexample :
    normalizePrice "5" = some ((5 : ℚ) + (0 : ℚ) / (10 : ℚ) ^ 0) ∧
    ((⟨"c", "5", "a-b", "X", "C", none⟩ : ScrapedProduct).countryCode,
      (⟨"c", "5", "a-b", "X", "C", none⟩ : ScrapedProduct).product) ≠
      ((⟨"b-c", "9", "a", "Y", "C", none⟩ : ScrapedProduct).countryCode,
       (⟨"b-c", "9", "a", "Y", "C", none⟩ : ScrapedProduct).product) ∧
    filterHighestPriceProducts
      [⟨"c", "5", "a-b", "X", "C", none⟩, ⟨"b-c", "9", "a", "Y", "C", none⟩] =
      [⟨"b-c", "9", "a", "Y", "C", none⟩] := by
  have hstep1 : filterStep [] ⟨"c", "5", "a-b", "X", "C", none⟩ =
      [(countryProductKey ⟨"c", "5", "a-b", "X", "C", none⟩,
        ⟨"c", "5", "a-b", "X", "C", none⟩)] := by
    unfold filterStep
    rw [normalizePrice_five_eval]
    rfl
  have hstep2 : filterStep
      [(countryProductKey ⟨"c", "5", "a-b", "X", "C", none⟩,
        ⟨"c", "5", "a-b", "X", "C", none⟩)]
      ⟨"b-c", "9", "a", "Y", "C", none⟩ =
      [(countryProductKey ⟨"c", "5", "a-b", "X", "C", none⟩,
        ⟨"b-c", "9", "a", "Y", "C", none⟩)] := by
    have hlt : ((5 : ℚ) + (0 : ℚ) / (10 : ℚ) ^ 0) <
        ((9 : ℚ) + (0 : ℚ) / (10 : ℚ) ^ 0) := by norm_num
    have hlk : alookup [(countryProductKey ⟨"c", "5", "a-b", "X", "C", none⟩,
        (⟨"c", "5", "a-b", "X", "C", none⟩ : ScrapedProduct))]
        (countryProductKey ⟨"b-c", "9", "a", "Y", "C", none⟩) =
        some ⟨"c", "5", "a-b", "X", "C", none⟩ := rfl
    have hcond : (match normalizePrice
          (⟨"c", "5", "a-b", "X", "C", none⟩ : ScrapedProduct).cost with
        | none => true
        | some existingCost =>
            decide (existingCost < (9 : ℚ) + (0 : ℚ) / (10 : ℚ) ^ 0)) = true := by
      show (match normalizePrice "5" with
        | none => true
        | some existingCost =>
            decide (existingCost < (9 : ℚ) + (0 : ℚ) / (10 : ℚ) ^ 0)) = true
      rw [normalizePrice_five_eval]
      show decide (((5 : ℚ) + (0 : ℚ) / (10 : ℚ) ^ 0) <
        (9 : ℚ) + (0 : ℚ) / (10 : ℚ) ^ 0) = true
      exact decide_eq_true hlt
    unfold filterStep
    rw [normalizePrice_nine_eval, hlk]
    show (if (match normalizePrice
          (⟨"c", "5", "a-b", "X", "C", none⟩ : ScrapedProduct).cost with
        | none => true
        | some existingCost =>
            decide (existingCost < (9 : ℚ) + (0 : ℚ) / (10 : ℚ) ^ 0)) = true then
        mapUpdate [(countryProductKey ⟨"c", "5", "a-b", "X", "C", none⟩,
          (⟨"c", "5", "a-b", "X", "C", none⟩ : ScrapedProduct))]
          (countryProductKey ⟨"b-c", "9", "a", "Y", "C", none⟩)
          (fun _ => ⟨"b-c", "9", "a", "Y", "C", none⟩)
      else [(countryProductKey ⟨"c", "5", "a-b", "X", "C", none⟩,
          (⟨"c", "5", "a-b", "X", "C", none⟩ : ScrapedProduct))]) = _
    rw [hcond]
    rfl
  refine ⟨normalizePrice_five_eval, by decide, ?_⟩
  unfold filterHighestPriceProducts
  simp only [List.foldl_cons, List.foldl_nil]
  rw [hstep1, hstep2]
  rfl

/-- Witness for the amended C5 at a concrete one-record list. -/
theorem filterHighestPriceProducts_amended_witness :
    ∃ r ∈ filterHighestPriceProducts
        [(⟨"Pro3", "5", "us", "US", "USD", none⟩ : ScrapedProduct)],
      r.countryCode = (⟨"Pro3", "5", "us", "US", "USD", none⟩ :
        ScrapedProduct).countryCode ∧
      r.product = (⟨"Pro3", "5", "us", "US", "USD", none⟩ :
        ScrapedProduct).product :=
  (filterHighestPriceProducts_amended
    [⟨"Pro3", "5", "us", "US", "USD", none⟩] (by decide)).2.1
    ⟨"Pro3", "5", "us", "US", "USD", none⟩ (List.mem_singleton.mpr rfl)
    (by rw [normalizePrice_five_eval]; rfl)


/-! ## Comparator analysis for convertedCost (C6, C10) -/

theorem extLt_asymm {x y : ExtQ} (h : ExtQ.lt x y = true) :
    ExtQ.lt y x = false := by
  cases x <;> cases y <;> simp [ExtQ.lt] at * <;> linarith

theorem extLt_neg_trans {x y z : ExtQ} (hxy : ExtQ.lt y x = false)
    (hyz : ExtQ.lt z y = false) : ExtQ.lt z x = false := by
  cases x <;> cases y <;> cases z <;> simp [ExtQ.lt] at * <;> linarith

/-- An entry is rankable when its converted value is finite. -/
def rankB (direction : SortDirection) (cc : String) (rates : ExchangeRates)
    (e : GroupedProduct) : Bool :=
  match getConvertedValue direction (some cc) rates e with
  | .fin _ => true
  | _ => false

theorem getConvertedValue_some (direction : SortDirection) (cc : String)
    (rates : ExchangeRates) (e : GroupedProduct) :
    getConvertedValue direction (some cc) rates e =
      (if e.currency = cc then ExtQ.fin e.cost
       else
        match rateLookup rates e.currency cc with
        | some rate =>
          if rate ≠ 0 then ExtQ.fin (e.cost * rate) else infSentinel direction
        | none => infSentinel direction) := rfl

theorem getConvertedValue_cases (direction : SortDirection)
    (conversionCurrency : Option String) (rates : ExchangeRates)
    (e : GroupedProduct) :
    getConvertedValue direction conversionCurrency rates e = infSentinel direction ∨
      ∃ v, getConvertedValue direction conversionCurrency rates e = ExtQ.fin v := by
  cases conversionCurrency with
  | none => exact Or.inl rfl
  | some cc =>
    rw [getConvertedValue_some]
    by_cases hc : e.currency = cc
    · rw [if_pos hc]
      exact Or.inr ⟨e.cost, rfl⟩
    · rw [if_neg hc]
      cases hrl : rateLookup rates e.currency cc with
      | none => exact Or.inl rfl
      | some r =>
        by_cases hr : r ≠ 0
        · refine Or.inr ⟨e.cost * r, ?_⟩
          show (if r ≠ 0 then ExtQ.fin (e.cost * r) else infSentinel direction) = _
          rw [if_pos hr]
        · refine Or.inl ?_
          show (if r ≠ 0 then ExtQ.fin (e.cost * r) else infSentinel direction) = _
          rw [if_neg hr]

theorem rankB_false_sentinel {direction : SortDirection} {cc : String}
    {rates : ExchangeRates} {e : GroupedProduct}
    (h : rankB direction cc rates e = false) :
    getConvertedValue direction (some cc) rates e = infSentinel direction := by
  rcases getConvertedValue_cases direction (some cc) rates e with h1 | ⟨v, h1⟩
  · exact h1
  · unfold rankB at h
    rw [h1] at h
    simp at h

theorem rankB_true_fin {direction : SortDirection} {cc : String}
    {rates : ExchangeRates} {e : GroupedProduct}
    (h : rankB direction cc rates e = true) :
    ∃ v, getConvertedValue direction (some cc) rates e = ExtQ.fin v := by
  rcases getConvertedValue_cases direction (some cc) rates e with h1 | h1
  · unfold rankB at h
    rw [h1] at h
    cases direction <;> simp [infSentinel] at h
  · exact h1

theorem sortValue_convertedCost (direction : SortDirection)
    (conversionCurrency : Option String) (rates : ExchangeRates)
    (e : GroupedProduct) :
    sortValue ⟨"convertedCost", direction⟩ conversionCurrency rates e =
      some (SortValue.num (getConvertedValue direction conversionCurrency rates e)) := by
  unfold sortValue
  rw [if_pos rfl]

theorem sortCmp_cc_asc (conversionCurrency : Option String)
    (rates : ExchangeRates) (a b : GroupedProduct) :
    sortCmp ⟨"convertedCost", .ascending⟩ conversionCurrency rates a b =
      (if ExtQ.lt (getConvertedValue .ascending conversionCurrency rates a)
          (getConvertedValue .ascending conversionCurrency rates b) then -1
       else if ExtQ.lt (getConvertedValue .ascending conversionCurrency rates b)
          (getConvertedValue .ascending conversionCurrency rates a) then 1
       else 0) := by
  unfold sortCmp
  rw [sortValue_convertedCost, sortValue_convertedCost]
  rfl

theorem sortCmp_cc_desc (conversionCurrency : Option String)
    (rates : ExchangeRates) (a b : GroupedProduct) :
    sortCmp ⟨"convertedCost", .descending⟩ conversionCurrency rates a b =
      (if ExtQ.lt (getConvertedValue .descending conversionCurrency rates a)
          (getConvertedValue .descending conversionCurrency rates b) then 1
       else if ExtQ.lt (getConvertedValue .descending conversionCurrency rates b)
          (getConvertedValue .descending conversionCurrency rates a) then -1
       else 0) := by
  unfold sortCmp
  rw [sortValue_convertedCost, sortValue_convertedCost]
  rfl

theorem sortCmp_asc_le_iff (conversionCurrency : Option String)
    (rates : ExchangeRates) (a b : GroupedProduct) :
    sortCmp ⟨"convertedCost", .ascending⟩ conversionCurrency rates a b ≤ 0 ↔
      ExtQ.lt (getConvertedValue .ascending conversionCurrency rates b)
        (getConvertedValue .ascending conversionCurrency rates a) = false := by
  rw [sortCmp_cc_asc]
  by_cases h1 : ExtQ.lt (getConvertedValue .ascending conversionCurrency rates a)
      (getConvertedValue .ascending conversionCurrency rates b) = true
  · rw [if_pos h1, extLt_asymm h1]
    simp
  · rw [if_neg (by simpa using h1)]
    by_cases h2 : ExtQ.lt (getConvertedValue .ascending conversionCurrency rates b)
        (getConvertedValue .ascending conversionCurrency rates a) = true
    · rw [if_pos h2, h2]
      simp
    · have h2' : ExtQ.lt (getConvertedValue .ascending conversionCurrency rates b)
          (getConvertedValue .ascending conversionCurrency rates a) = false := by
        simpa using h2
      rw [if_neg (by simpa using h2), h2']
      simp

theorem sortCmp_desc_le_iff (conversionCurrency : Option String)
    (rates : ExchangeRates) (a b : GroupedProduct) :
    sortCmp ⟨"convertedCost", .descending⟩ conversionCurrency rates a b ≤ 0 ↔
      ExtQ.lt (getConvertedValue .descending conversionCurrency rates a)
        (getConvertedValue .descending conversionCurrency rates b) = false := by
  rw [sortCmp_cc_desc]
  by_cases h1 : ExtQ.lt (getConvertedValue .descending conversionCurrency rates a)
      (getConvertedValue .descending conversionCurrency rates b) = true
  · rw [if_pos h1, h1]
    simp
  · have h1' : ExtQ.lt (getConvertedValue .descending conversionCurrency rates a)
        (getConvertedValue .descending conversionCurrency rates b) = false := by
      simpa using h1
    rw [if_neg (by simpa using h1), h1']
    split <;> simp

theorem sortCmp_conv_none (direction : SortDirection) (rates : ExchangeRates)
    (a b : GroupedProduct) :
    sortCmp ⟨"convertedCost", direction⟩ none rates a b = 0 := by
  have ha : getConvertedValue direction none rates a = infSentinel direction := rfl
  have hb : getConvertedValue direction none rates b = infSentinel direction := rfl
  have hlt : ExtQ.lt (infSentinel direction) (infSentinel direction) = false := by
    cases direction <;> rfl
  cases direction
  · rw [sortCmp_cc_asc, ha, hb, hlt]
    simp
  · rw [sortCmp_cc_desc, ha, hb, hlt]
    simp

theorem sortCmp_bad_bad {direction : SortDirection} {cc : String}
    {rates : ExchangeRates} {a b : GroupedProduct}
    (ha : rankB direction cc rates a = false)
    (hb : rankB direction cc rates b = false) :
    sortCmp ⟨"convertedCost", direction⟩ (some cc) rates a b = 0 := by
  have ha' := rankB_false_sentinel ha
  have hb' := rankB_false_sentinel hb
  have hlt : ExtQ.lt (infSentinel direction) (infSentinel direction) = false := by
    cases direction <;> rfl
  cases direction
  · rw [sortCmp_cc_asc, ha', hb', hlt]
    simp
  · rw [sortCmp_cc_desc, ha', hb', hlt]
    simp

theorem sortCmp_bad_good {direction : SortDirection} {cc : String}
    {rates : ExchangeRates} {a b : GroupedProduct}
    (ha : rankB direction cc rates a = false)
    (hb : rankB direction cc rates b = true) :
    sortCmp ⟨"convertedCost", direction⟩ (some cc) rates a b = 1 := by
  have ha' := rankB_false_sentinel ha
  obtain ⟨v, hv⟩ := rankB_true_fin hb
  cases direction
  · rw [sortCmp_cc_asc, ha', hv]
    simp [infSentinel, ExtQ.lt]
  · rw [sortCmp_cc_desc, ha', hv]
    simp [infSentinel, ExtQ.lt]

theorem sortCmp_good_bad {direction : SortDirection} {cc : String}
    {rates : ExchangeRates} {a b : GroupedProduct}
    (ha : rankB direction cc rates a = true)
    (hb : rankB direction cc rates b = false) :
    sortCmp ⟨"convertedCost", direction⟩ (some cc) rates a b ≤ 0 := by
  have hb' := rankB_false_sentinel hb
  obtain ⟨v, hv⟩ := rankB_true_fin ha
  cases direction
  · rw [sortCmp_cc_asc, hb', hv]
    simp [infSentinel, ExtQ.lt]
  · rw [sortCmp_cc_desc, hb', hv]
    simp [infSentinel, ExtQ.lt]

theorem sortCmp_convertedCost_total (direction : SortDirection)
    (conversionCurrency : Option String) (rates : ExchangeRates)
    (a b : GroupedProduct) :
    sortCmp ⟨"convertedCost", direction⟩ conversionCurrency rates a b ≤ 0 ∨
    sortCmp ⟨"convertedCost", direction⟩ conversionCurrency rates b a ≤ 0 := by
  cases direction
  · rw [sortCmp_asc_le_iff, sortCmp_asc_le_iff]
    by_cases h : ExtQ.lt (getConvertedValue .ascending conversionCurrency rates b)
        (getConvertedValue .ascending conversionCurrency rates a) = true
    · exact Or.inr (extLt_asymm h)
    · exact Or.inl (by simpa using h)
  · rw [sortCmp_desc_le_iff, sortCmp_desc_le_iff]
    by_cases h : ExtQ.lt (getConvertedValue .descending conversionCurrency rates a)
        (getConvertedValue .descending conversionCurrency rates b) = true
    · exact Or.inr (extLt_asymm h)
    · exact Or.inl (by simpa using h)

theorem sortCmp_convertedCost_trans (direction : SortDirection)
    (conversionCurrency : Option String) (rates : ExchangeRates)
    (a b c : GroupedProduct)
    (hab : sortCmp ⟨"convertedCost", direction⟩ conversionCurrency rates a b ≤ 0)
    (hbc : sortCmp ⟨"convertedCost", direction⟩ conversionCurrency rates b c ≤ 0) :
    sortCmp ⟨"convertedCost", direction⟩ conversionCurrency rates a c ≤ 0 := by
  cases direction
  · rw [sortCmp_asc_le_iff] at hab hbc ⊢
    exact extLt_neg_trans hab hbc
  · rw [sortCmp_desc_le_iff] at hab hbc ⊢
    exact extLt_neg_trans hbc hab

theorem mem_insertCmp {α : Type} (cmp : α → α → Int) (x : α) (l : List α)
    (a : α) : a ∈ insertCmp cmp x l ↔ a = x ∨ a ∈ l := by
  rw [(insertCmp_perm cmp x l).mem_iff]
  exact List.mem_cons

theorem insertCmp_pairwise {α : Type} (cmp : α → α → Int)
    (htot : ∀ a b, cmp a b ≤ 0 ∨ cmp b a ≤ 0)
    (htrans : ∀ a b c, cmp a b ≤ 0 → cmp b c ≤ 0 → cmp a c ≤ 0)
    (x : α) (l : List α) (hl : l.Pairwise (fun a b => cmp a b ≤ 0)) :
    (insertCmp cmp x l).Pairwise (fun a b => cmp a b ≤ 0) := by
  induction l with
  | nil => simp [insertCmp]
  | cons y ys ih =>
    rw [List.pairwise_cons] at hl
    obtain ⟨hy, hys⟩ := hl
    simp only [insertCmp]
    by_cases hc : cmp x y ≤ 0
    · rw [if_pos hc, List.pairwise_cons]
      refine ⟨?_, List.pairwise_cons.mpr ⟨hy, hys⟩⟩
      intro z hz
      rcases List.mem_cons.mp hz with h1 | h1
      · rw [h1]; exact hc
      · exact htrans x y z hc (hy z h1)
    · rw [if_neg hc, List.pairwise_cons]
      refine ⟨?_, ih hys⟩
      intro z hz
      rcases (mem_insertCmp cmp x ys z).mp hz with h1 | h1
      · rw [h1]
        rcases htot x y with h | h
        · exact absurd h hc
        · exact h
      · exact hy z h1

theorem stableSortCmp_pairwise {α : Type} (cmp : α → α → Int)
    (htot : ∀ a b, cmp a b ≤ 0 ∨ cmp b a ≤ 0)
    (htrans : ∀ a b c, cmp a b ≤ 0 → cmp b c ≤ 0 → cmp a c ≤ 0)
    (l : List α) :
    (stableSortCmp cmp l).Pairwise (fun a b => cmp a b ≤ 0) := by
  induction l with
  | nil => simp [stableSortCmp]
  | cons x xs ih =>
    show (insertCmp cmp x (stableSortCmp cmp xs)).Pairwise _
    exact insertCmp_pairwise cmp htot htrans x _ ih

theorem insertCmp_bad {α : Type} (cmp : α → α → Int) (good : α → Bool)
    (hgr : ∀ a b, good a = false → good b = true → cmp a b = 1)
    (hgu : ∀ a b, good a = false → good b = false → cmp a b = 0)
    (x : α) (hx : good x = false) :
    ∀ (S U : List α), (∀ s ∈ S, good s = true) → (∀ u ∈ U, good u = false) →
      insertCmp cmp x (S ++ U) = S ++ x :: U := by
  intro S
  induction S with
  | nil =>
    intro U hS hU
    cases U with
    | nil => rfl
    | cons u us =>
      simp only [List.nil_append, insertCmp]
      rw [if_pos (le_of_eq (hgu x u hx (hU u (List.mem_cons_self u us))))]
  | cons s ss ih =>
    intro U hS hU
    simp only [List.cons_append, insertCmp]
    have hcs : cmp x s = 1 := hgr x s hx (hS s (List.mem_cons_self s ss))
    rw [if_neg (by rw [hcs]; omega)]
    show s :: insertCmp cmp x (ss ++ U) = s :: (ss ++ x :: U)
    rw [ih U (fun s' hs' => hS s' (List.mem_cons_of_mem _ hs')) hU]

theorem insertCmp_good {α : Type} (cmp : α → α → Int) (good : α → Bool)
    (hrg : ∀ a b, good a = true → good b = false → cmp a b ≤ 0)
    (x : α) (hx : good x = true) :
    ∀ (S U : List α), (∀ u ∈ U, good u = false) →
      insertCmp cmp x (S ++ U) = insertCmp cmp x S ++ U := by
  intro S
  induction S with
  | nil =>
    intro U hU
    cases U with
    | nil => rfl
    | cons u us =>
      simp only [List.nil_append, insertCmp]
      rw [if_pos (hrg x u hx (hU u (List.mem_cons_self u us)))]
      rfl
  | cons s ss ih =>
    intro U hU
    simp only [List.cons_append, insertCmp]
    by_cases hc : cmp x s ≤ 0
    · rw [if_pos hc, if_pos hc]
      simp
    · rw [if_neg hc, if_neg hc]
      show s :: insertCmp cmp x (ss ++ U) = s :: insertCmp cmp x ss ++ U
      rw [ih U hU]
      simp

theorem stableSortCmp_split {α : Type} (cmp : α → α → Int) (good : α → Bool)
    (hgr : ∀ a b, good a = false → good b = true → cmp a b = 1)
    (hgu : ∀ a b, good a = false → good b = false → cmp a b = 0)
    (hrg : ∀ a b, good a = true → good b = false → cmp a b ≤ 0) :
    ∀ l : List α, stableSortCmp cmp l =
      stableSortCmp cmp (l.filter good) ++ l.filter (fun e => ! good e) := by
  intro l
  induction l with
  | nil => rfl
  | cons x xs ih =>
    have hS : ∀ s ∈ stableSortCmp cmp (xs.filter good), good s = true := by
      intro s hs
      exact (List.mem_filter.mp ((stableSortCmp_perm cmp _).mem_iff.mp hs)).2
    have hU : ∀ u ∈ xs.filter (fun e => ! good e), good u = false := by
      intro u hu
      simpa using (List.mem_filter.mp hu).2
    show insertCmp cmp x (stableSortCmp cmp xs) = _
    rw [ih]
    by_cases hx : good x = true
    · rw [insertCmp_good cmp good hrg x hx _ _ hU]
      have h1 : (x :: xs).filter good = x :: xs.filter good := by
        simp [List.filter_cons, hx]
      have h2 : (x :: xs).filter (fun e => ! good e) =
          xs.filter (fun e => ! good e) := by
        simp [List.filter_cons, hx]
      rw [h1, h2]
      rfl
    · have hx' : good x = false := by simpa using hx
      rw [insertCmp_bad cmp good hgr hgu x hx' _ _ hS hU]
      have h1 : (x :: xs).filter good = xs.filter good := by
        simp [List.filter_cons, hx']
      have h2 : (x :: xs).filter (fun e => ! good e) =
          x :: xs.filter (fun e => ! good e) := by
        simp [List.filter_cons, hx']
      rw [h1, h2]


theorem insertCmp_of_cmp_zero_mem {α : Type} (cmp : α → α → Int) (x : α)
    (l : List α) (h : ∀ y ∈ l, cmp x y = 0) : insertCmp cmp x l = x :: l := by
  cases l with
  | nil => rfl
  | cons y ys =>
    simp only [insertCmp]
    rw [if_pos (le_of_eq (h y (List.mem_cons_self y ys)))]

theorem stableSortCmp_of_cmp_zero_mem {α : Type} (cmp : α → α → Int)
    (l : List α) (h : ∀ a ∈ l, ∀ b ∈ l, cmp a b = 0) :
    stableSortCmp cmp l = l := by
  induction l with
  | nil => rfl
  | cons x xs ih =>
    have hs : stableSortCmp cmp (x :: xs) = insertCmp cmp x (stableSortCmp cmp xs) := rfl
    rw [hs, ih (fun a ha b hb =>
      h a (List.mem_cons_of_mem x ha) b (List.mem_cons_of_mem x hb))]
    exact insertCmp_of_cmp_zero_mem cmp x xs
      (fun y hy => h x (List.mem_cons_self x xs) y (List.mem_cons_of_mem x hy))

/-- C6 (amended): sorting by `convertedCost`.  Per-entry value: currency
equal to the conversion currency gives the raw cost; a present NONZERO
rate gives cost × rate; a missing rate gives the direction sentinel.
With no conversion currency set every comparison is 0 and the output is
the input.  With a conversion currency set, the output is the sorted
rankable entries followed by the unrankable entries in their original
relative order, and the whole output is sorted for the comparator.  The
claim's parenthetical is repaired: with an empty rate table the output
equals the input only if NO entry's currency equals the conversion
currency (such entries are still ranked by raw cost and move). -/
theorem sortGroupedProducts_convertedCost_amended (direction : SortDirection)
    (cc : String) (rates : ExchangeRates) (l : List GroupedProduct) :
    (∀ e : GroupedProduct, e.currency = cc →
      getConvertedValue direction (some cc) rates e = ExtQ.fin e.cost) ∧
    (∀ e : GroupedProduct, ∀ r : ℚ, e.currency ≠ cc →
      rateLookup rates e.currency cc = some r → r ≠ 0 →
      getConvertedValue direction (some cc) rates e = ExtQ.fin (e.cost * r)) ∧
    (∀ e : GroupedProduct, e.currency ≠ cc →
      rateLookup rates e.currency cc = none →
      getConvertedValue direction (some cc) rates e = infSentinel direction) ∧
    sortGroupedProducts l ⟨"convertedCost", direction⟩ none rates = l ∧
    sortGroupedProducts l ⟨"convertedCost", direction⟩ (some cc) rates =
      sortGroupedProducts (l.filter (rankB direction cc rates))
        ⟨"convertedCost", direction⟩ (some cc) rates ++
      l.filter (fun e => ! rankB direction cc rates e) ∧
    (sortGroupedProducts l ⟨"convertedCost", direction⟩ (some cc) rates).Pairwise
      (fun a b => sortCmp ⟨"convertedCost", direction⟩ (some cc) rates a b ≤ 0) ∧
    ((∀ e ∈ l, e.currency ≠ cc) →
      sortGroupedProducts l ⟨"convertedCost", direction⟩ (some cc) [] = l) := by
  refine ⟨?_, ?_, ?_, ?_, ?_, ?_, ?_⟩
  · intro e hc
    rw [getConvertedValue_some, if_pos hc]
  · intro e r hne hr hr0
    rw [getConvertedValue_some, if_neg hne, hr]
    show (if r ≠ 0 then ExtQ.fin (e.cost * r) else infSentinel direction) =
      ExtQ.fin (e.cost * r)
    rw [if_pos hr0]
  · intro e hne hr
    rw [getConvertedValue_some, if_neg hne, hr]
  · show stableSortCmp (sortCmp ⟨"convertedCost", direction⟩ none rates) l = l
    exact stableSortCmp_of_cmp_zero _ l (fun a b => sortCmp_conv_none direction rates a b)
  · show stableSortCmp (sortCmp ⟨"convertedCost", direction⟩ (some cc) rates) l =
      stableSortCmp (sortCmp ⟨"convertedCost", direction⟩ (some cc) rates)
        (l.filter (rankB direction cc rates)) ++
      l.filter (fun e => ! rankB direction cc rates e)
    exact stableSortCmp_split _ (rankB direction cc rates)
      (fun a b ha hb => sortCmp_bad_good ha hb)
      (fun a b ha hb => sortCmp_bad_bad ha hb)
      (fun a b ha hb => sortCmp_good_bad ha hb) l
  · exact stableSortCmp_pairwise _
      (fun a b => sortCmp_convertedCost_total direction (some cc) rates a b)
      (fun a b c hab hbc =>
        sortCmp_convertedCost_trans direction (some cc) rates a b c hab hbc) l
  · intro hnc
    have hrank : ∀ e ∈ l, rankB direction cc ([] : ExchangeRates) e = false := by
      intro e he
      unfold rankB
      rw [getConvertedValue_some, if_neg (hnc e he)]
      cases direction <;> rfl
    show stableSortCmp (sortCmp ⟨"convertedCost", direction⟩ (some cc) []) l = l
    exact stableSortCmp_of_cmp_zero_mem _ l
      (fun a ha b hb => sortCmp_bad_bad (hrank a ha) (hrank b hb))

/-- Counterexample to C6 as stated: with an empty rate table and
conversion currency "EUR", entries whose own currency is "EUR" are still
ranked by their raw cost, so ascending sort reorders them instead of
returning the input order. -/
theorem sortGroupedProducts_convertedCost_counterexample :
    sortGroupedProducts
        [⟨"p", "EUR", 5, ["X"]⟩, ⟨"q", "EUR", 3, ["Y"]⟩]
        ⟨"convertedCost", SortDirection.ascending⟩ (some "EUR") [] =
      [⟨"q", "EUR", 3, ["Y"]⟩, ⟨"p", "EUR", 5, ["X"]⟩] ∧
    [(⟨"q", "EUR", 3, ["Y"]⟩ : GroupedProduct), ⟨"p", "EUR", 5, ["X"]⟩] ≠
      [⟨"p", "EUR", 5, ["X"]⟩, ⟨"q", "EUR", 3, ["Y"]⟩] := by
  constructor
  · decide
  · decide

/-- Witness for the amended C6 at concrete inputs: a USD entry is ranked
by cost × rate under rate table USD→EUR = 2, and with no conversion
currency set the output equals the input. -/
theorem sortGroupedProducts_convertedCost_amended_witness :
    getConvertedValue SortDirection.ascending (some "EUR")
        [("USD", [("EUR", (2 : ℚ))])] ⟨"p", "USD", 3, ["X"]⟩ =
      ExtQ.fin ((3 : ℚ) * 2) ∧
    sortGroupedProducts [⟨"q", "EUR", 5, ["Y"]⟩]
        ⟨"convertedCost", SortDirection.ascending⟩ none
        [("USD", [("EUR", (2 : ℚ))])] = [⟨"q", "EUR", 5, ["Y"]⟩] :=
  ⟨(sortGroupedProducts_convertedCost_amended SortDirection.ascending "EUR"
      [("USD", [("EUR", (2 : ℚ))])] [⟨"q", "EUR", 5, ["Y"]⟩]).2.1
      ⟨"p", "USD", 3, ["X"]⟩ 2 (by decide) rfl (by norm_num),
   (sortGroupedProducts_convertedCost_amended SortDirection.ascending "EUR"
      [("USD", [("EUR", (2 : ℚ))])] [⟨"q", "EUR", 5, ["Y"]⟩]).2.2.2.1⟩

/-- C10: when sorting by `convertedCost` with a conversion currency set,
an entry whose stored rate is present but exactly 0 receives the
end-of-list sentinel (the `if (rate)` truthiness test rejects 0), is not
ranked with converted value cost × 0, and counts as unrankable. -/
theorem getConvertedValue_zero_rate_unrankable (direction : SortDirection)
    (cc : String) (rates : ExchangeRates) (e : GroupedProduct)
    (hne : e.currency ≠ cc)
    (hr : rateLookup rates e.currency cc = some 0) :
    getConvertedValue direction (some cc) rates e = infSentinel direction ∧
    getConvertedValue direction (some cc) rates e ≠ ExtQ.fin (e.cost * 0) ∧
    rankB direction cc rates e = false := by
  have h1 : getConvertedValue direction (some cc) rates e = infSentinel direction := by
    rw [getConvertedValue_some, if_neg hne, hr]
    show (if (0 : ℚ) ≠ 0 then ExtQ.fin (e.cost * 0) else infSentinel direction) =
      infSentinel direction
    rw [if_neg (by simp)]
  refine ⟨h1, ?_, ?_⟩
  · rw [h1]
    cases direction <;> simp [infSentinel]
  · unfold rankB
    rw [h1]
    cases direction <;> rfl

/-- Witness for C10: the rate table USD→EUR = 0 makes a USD entry
unrankable under conversion currency "EUR". -/
theorem getConvertedValue_zero_rate_unrankable_witness :
    getConvertedValue SortDirection.ascending (some "EUR")
        [("USD", [("EUR", (0 : ℚ))])] ⟨"r", "USD", 7, ["Z"]⟩ =
      infSentinel SortDirection.ascending ∧
    getConvertedValue SortDirection.ascending (some "EUR")
        [("USD", [("EUR", (0 : ℚ))])] ⟨"r", "USD", 7, ["Z"]⟩ ≠
      ExtQ.fin ((7 : ℚ) * 0) ∧
    rankB SortDirection.ascending "EUR" [("USD", [("EUR", (0 : ℚ))])]
      ⟨"r", "USD", 7, ["Z"]⟩ = false :=
  getConvertedValue_zero_rate_unrankable SortDirection.ascending "EUR"
    [("USD", [("EUR", (0 : ℚ))])] ⟨"r", "USD", 7, ["Z"]⟩ (by decide) rfl


end Scraper
